import Mathlib

/-!
# The lab6 chat relay (`src/lab6/serve.c`, `src/lab6/clien.c`)

A shallow embedding of the relay server and of the client's receive loop
(namespace `Serve`), followed by one of the lab7 chat server
(`src/lab7/server.c`, namespace `Lab7`), of the grouping program
(`src/lab7/lab7.c`, namespace `Lab7Map`) and of the message list of the lab4
server (`src/lab4/lab10.c`, namespace `Lab10`).

Conventions of the embedding:

* a byte is a `Nat` (a value below 256); `'\n'` is `10`;
* a pointer to a heap object is the object's index in the list that holds all
  objects of its type (`cmem` for `client_t`, `qmem` for `queued_msg_t`), and
  `NULL` is `none`; `free` leaves the object in place and addresses are not
  reused;
* `s_addr` and `sin_port` are kept as the bytes they occupy in memory, which is
  what `memcpy` moves and what "network byte order" fixes;
* every function runs as one atomic step of the thread that calls it; the
  field `clients_mtx` records whether the registry mutex is held when the step
  starts, so that a second `pthread_mutex_lock` by the thread that holds it (the
  mutex is a plain `PTHREAD_MUTEX_INITIALIZER` one) is seen as the thread
  blocking for good;
* what the outside world decides is an input: the result of each `accept`,
  `recv` and `send` call, and whether each `calloc`/`malloc` call fails
  (`alloc_fail`);
* what the program does to the outside world is logged in the state: the
  descriptors closed (`closed`), the bytes each `robust_send` call got out
  (`wire`, with `held_at_send` telling whether the caller held the registry
  mutex), and the messages passed to `enqueue_msg` (`enqueued`).
-/

namespace Serve

/-! ## Data model -/

/-- The constant `MAX_MSG_SIZE` of both programs. -/
def MAX_MSG_SIZE : Nat := 1024

/-- The byte `'\n'`. -/
def NL : Nat := 10

/-- The `errno` value `EINTR`. -/
def EINTR : Int := 4

/-- An `in_addr_t` object (`s_addr`, the field `ip` of a message) as the four
bytes it occupies in memory, lowest address first. For a value in network byte
order these are the four numbers of the dotted address, left to right. -/
structure in_addr_t where
  b0 : Nat
  b1 : Nat
  b2 : Nat
  b3 : Nat
deriving DecidableEq, Repr

/-- An `in_port_t` object (`sin_port`, the field `port` of a message) as the two
bytes it occupies in memory, lowest address first. -/
structure in_port_t where
  b0 : Nat
  b1 : Nat
deriving DecidableEq, Repr

/-- The four bytes `memcpy` reads from an `in_addr_t`. -/
def in_addr_t.bytes (a : in_addr_t) : List Nat := [a.b0, a.b1, a.b2, a.b3]

/-- The two bytes `memcpy` reads from an `in_port_t`. -/
def in_port_t.bytes (a : in_port_t) : List Nat := [a.b0, a.b1]

/-- The function `ntohs` on a port held in network byte order. -/
def ntohs (a : in_port_t) : Nat := a.b0 * 256 + a.b1

/-- The part of `struct sockaddr_in` the program reads. -/
structure sockaddr_in where
  s_addr : in_addr_t
  sin_port : in_port_t
deriving DecidableEq, Repr

/-- The type `client_t` without its `next` field, which the list `State.clients`
carries. -/
structure client_t where
  fd : Int
  addr : sockaddr_in
  id : Int
  sent_type1 : Int
deriving DecidableEq, Repr

/-- The type `queued_msg_t`. The field `payload` holds the bytes
`payload[0 .. payload_len)` that were copied in; the rest of the array stays
zero from `calloc` and is never read. -/
structure queued_msg_t where
  type : Nat
  sender_fd : Int
  ip : in_addr_t
  port : in_port_t
  payload_len : Nat
  payload : List Nat
  next : Option Nat
deriving DecidableEq, Repr

/-- A `queued_msg_t` as `calloc` returns it. -/
def zero_msg : queued_msg_t :=
  { type := 0, sender_fd := 0, ip := ⟨0, 0, 0, 0⟩, port := ⟨0, 0⟩, payload_len := 0,
    payload := [], next := none }

/-- A `client_t` as `calloc` returns it. -/
def zero_client : client_t :=
  { fd := 0, addr := { s_addr := ⟨0, 0, 0, 0⟩, sin_port := ⟨0, 0⟩ }, id := 0, sent_type1 := 0 }

/-- Where a thread stands: still in its loop, returned from it, or blocked for
good inside a call. -/
inductive thread_status where
  | running
  | returned
  | stuck
deriving DecidableEq, Repr

/-- The locals of one `handle_client_read` call: `buf[0 .. bufused)`, and where
its thread stands. -/
structure rx_locals where
  buf : List Nat
  status : thread_status
deriving DecidableEq, Repr

/-- The globals of `serve.c`, the heap, the locals of the threads and the
effects on the outside world. -/
structure State where
  /-- all `client_t` objects; the address of an object is its index -/
  cmem : List client_t
  /-- all `queued_msg_t` objects; the address of an object is its index -/
  qmem : List queued_msg_t
  /-- results of the coming `calloc`/`malloc` calls, `true` for `NULL`; when the
  list is used up every call succeeds -/
  alloc_fail : List Bool
  /-- the chain `clients`, `clients->next`, ... as the addresses of its nodes -/
  clients : List Nat
  /-- whether `clients_mtx` is held when a function starts to run: by the thread
  that runs it, or by a thread that is blocked for good -/
  clients_mtx : Bool
  q_head : Option Nat
  q_tail : Option Nat
  expected_clients : Int
  received_type1_count : Int
  server_running : Bool
  listen_fd : Int
  /-- the local `client_id` of `main` -/
  client_id : Int
  /-- where the accept loop of `main` stands -/
  main_status : thread_status
  /-- where the broadcaster thread stands -/
  bc_status : thread_status
  /-- locals of the receiver thread of each client, by address of its `client_t` -/
  rx : List rx_locals
  /-- the descriptors passed to `close`, oldest first -/
  closed : List Int
  /-- for each `robust_send` call, oldest first: the descriptor and the bytes
  that `send` accepted -/
  wire : List (Int × List Nat)
  /-- the message objects passed to `enqueue_msg`, oldest first, each as it was
  at the call -/
  enqueued : List queued_msg_t
  /-- for each `robust_send` call, oldest first: whether its caller held
  `clients_mtx` at the call -/
  held_at_send : List Bool
deriving DecidableEq, Repr

/-- The state at the start of `main`, after `expected_clients` was read and the
listening socket was set up (descriptor `3`). -/
def init (expected : Int) : State :=
  { cmem := [], qmem := [], alloc_fail := [], clients := [], clients_mtx := false,
    q_head := none, q_tail := none, expected_clients := expected,
    received_type1_count := 0, server_running := true, listen_fd := 3, client_id := 0,
    main_status := .running, bc_status := .running,
    rx := [], closed := [], wire := [], enqueued := [], held_at_send := [] }

/-- The result of running a function of the program: it returns, or its thread
blocks for good inside it (at a `pthread_mutex_lock` on a mutex that is never
released, or in a `send` that never completes). -/
inductive Run (α : Type) where
  | ret (a : α)
  | blocked (s : State)
deriving DecidableEq, Repr

/-! ## The dispatch queue: `enqueue_msg`, `dequeue_msg` -/

/-- The object at address `p` of a heap of messages. -/
def node (mem : List queued_msg_t) (p : Nat) : queued_msg_t :=
  mem.getD p zero_msg

/-- The assignment `p->next = v`. -/
def set_next (mem : List queued_msg_t) (p : Nat) (v : Option Nat) : List queued_msg_t :=
  mem.set p { node mem p with next := v }

/-- The function `enqueue_msg` (the `q_mtx` section runs as one step; the
condition variable has no state). -/
def enqueue_msg (s : State) (m : Nat) : State :=
  let mem := set_next s.qmem m none
  let log := s.enqueued ++ [node s.qmem m]
  match s.q_tail with
  | none => { s with qmem := mem, q_head := some m, q_tail := some m, enqueued := log }
  | some t => { s with qmem := set_next mem t (some m), q_tail := some m, enqueued := log }

/-- The function `dequeue_msg`: `none` when the caller waits on `q_cv` (empty
queue while `server_running`), else the returned pointer and the new state. -/
def dequeue_msg (s : State) : Option (Option Nat × State) :=
  match s.q_head with
  | none => if s.server_running then none else some (none, s)
  | some m =>
    let nxt := (node s.qmem m).next
    match nxt with
    | none => some (some m, { s with q_head := none, q_tail := none })
    | some _ => some (some m, { s with q_head := nxt })

/-- Calling `dequeue_msg` up to `k` times, as long as it returns a message: the
pointers returned, in order, and the state reached. -/
def drain : Nat → State → List Nat × State
  | 0, s => ([], s)
  | k + 1, s =>
    match dequeue_msg s with
    | some (some m, s') => ((m :: (drain k s').1), (drain k s').2)
    | _ => ([], s)

/-- The chain of `next` pointers from `h` visits exactly the addresses `l` and
ends in `NULL`. -/
def chain (mem : List queued_msg_t) : Option Nat → List Nat → Prop
  | h, [] => h = none
  | h, a :: l => h = some a ∧ a < mem.length ∧ chain mem (node mem a).next l

/-- The queue of state `s` holds the messages at addresses `l`, head first. -/
structure QueueRep (s : State) (l : List Nat) : Prop where
  linked : chain s.qmem s.q_head l
  last : s.q_tail = l.getLast?
  nodup : l.Nodup

/-- Two message objects agree on every field but `next`. -/
def same_item (x y : queued_msg_t) : Prop :=
  { x with next := none } = { y with next := none }

/-! ## The client registry: `add_client`, `remove_client_by_fd`, `client_fd_exists` -/

/-- The object at address `p` of the heap of clients. -/
def client (mem : List client_t) (p : Nat) : client_t :=
  mem.getD p zero_client

/-- The function `add_client`. -/
def add_client (s : State) (c : Nat) : Run State :=
  if s.clients_mtx then .blocked s
  else .ret { s with clients := c :: s.clients }

/-- The `while (*pp)` loop of `remove_client_by_fd` on the chain that starts at
`*pp`: the chain it leaves, and the descriptors it passed to `close`. -/
def remove_loop (mem : List client_t) (fd : Int) : List Nat → List Nat × List Int
  | [] => ([], [])
  | p :: rest =>
    if (client mem p).fd = fd then (rest, [(client mem p).fd])
    else (p :: (remove_loop mem fd rest).1, (remove_loop mem fd rest).2)

/-- The function `remove_client_by_fd`. -/
def remove_client_by_fd (s : State) (fd : Int) : Run State :=
  if s.clients_mtx then .blocked s
  else
    .ret { s with clients := (remove_loop s.cmem fd s.clients).1,
                  closed := s.closed ++ (remove_loop s.cmem fd s.clients).2 }

/-- The `while (it)` loop of `client_fd_exists`. -/
def exists_loop (mem : List client_t) (fd : Int) : List Nat → Int
  | [] => 0
  | p :: rest => if (client mem p).fd = fd then 1 else exists_loop mem fd rest

/-- The function `client_fd_exists`. -/
def client_fd_exists (s : State) (fd : Int) : Run Int :=
  if s.clients_mtx then .blocked s
  else .ret (exists_loop s.cmem fd s.clients)

/-! ## Sending: `robust_send` -/

/-- What one `send` call gives: its return value and, when that is negative, the
`errno` it sets. -/
structure send_result where
  n : Int
  errno : Int
deriving DecidableEq, Repr

/-- The cast `(ssize_t)len` of a `size_t` value. -/
def to_ssize_t (len : Nat) : Int :=
  ((len : Int) + 2 ^ 63) % 2 ^ 64 - 2 ^ 63

/-- The loop of `robust_send` with `left` bytes still to send, run on the results
of the `send` calls to come. Gives the return value (`none` when the results run
out while bytes are left: the `send` never completes) and the final `left`.
`left -= n` is computed in `size_t`. -/
def robust_send_loop (len : Nat) : List send_result → Nat → Option Int × Nat
  | [], left => if left > 0 then (none, left) else (some (to_ssize_t len), left)
  | r :: rs, left =>
    if left > 0 then
      if r.n < 0 then
        if r.errno = EINTR then robust_send_loop len rs left
        else (some (-1), left)
      else robust_send_loop len rs (((left : Int) - r.n) % 2 ^ 64).toNat
    else (some (to_ssize_t len), left)

/-- The function `robust_send` for a buffer of `len` bytes. -/
def robust_send (len : Nat) (rs : List send_result) : Option Int × Nat :=
  robust_send_loop len rs len

/-! ## The broadcaster -/

/-- The effect of one `robust_send(fd, ...)` call on the logs: the bytes that got
out, and whether the caller held `clients_mtx`. -/
def log_send (s : State) (fd : Int) (bytes : List Nat) : State :=
  { s with wire := s.wire ++ [(fd, bytes)], held_at_send := s.held_at_send ++ [s.clients_mtx] }

/-- The buffer `buf` the broadcaster builds for a message of type 0: byte `0`,
the four bytes of `m->ip`, the two bytes of `m->port`, and `payload_len` bytes of
`m->payload`. -/
def relay_frame (m : queued_msg_t) : List Nat :=
  [0] ++ m.ip.bytes ++ m.port.bytes ++ m.payload.take m.payload_len

/-- The length `total` the broadcaster computes for a message of type 0. -/
def relay_total (m : queued_msg_t) : Nat :=
  1 + 4 + 2 + m.payload_len

/-- The loop `while (c)` of the broadcaster over the chain from `c`, for the
buffer `buf` of `total` bytes. `net` holds, for each `robust_send` call to come,
the results of its `send` calls. Gives the state and the unused part of `net`. -/
def send_all (buf : List Nat) (total : Nat) :
    List Nat → List (List send_result) → State → Run (State × List (List send_result))
  | [], net, s => .ret (s, net)
  | c :: rest, net, s =>
    let fd := (client s.cmem c).fd
    match robust_send total (net.headD []) with
    | (none, left) => .blocked (log_send s fd (buf.take (total - left)))
    | (some v, left) =>
      let s1 := log_send s fd (buf.take (total - left))
      if v < 0 then
        match remove_client_by_fd s1 fd with
        | .ret s2 => send_all buf total rest net.tail s2
        | .blocked s2 => .blocked s2
      else send_all buf total rest net.tail s1

/-- The call `malloc(total)` of the broadcaster: whether it gave a buffer. -/
def malloc_buf (s : State) : Bool × State :=
  match s.alloc_fail with
  | [] => (true, s)
  | b :: rest => (!b, { s with alloc_fail := rest })

/-- The body of the broadcaster loop for the dequeued message `m`. -/
def broadcaster_item (s : State) (m : Nat) (net : List (List send_result)) :
    Run (State × List (List send_result)) :=
  let msg := node s.qmem m
  if msg.type = 0 then
    match malloc_buf s with
    | (true, s1) =>
      if s1.clients_mtx then .blocked s1
      else
        match send_all (relay_frame msg) (relay_total msg) s1.clients net
            { s1 with clients_mtx := true } with
        | .ret (s2, net2) => .ret ({ s2 with clients_mtx := false }, net2)
        | .blocked s2 => .blocked s2
    | (false, s1) => .ret (s1, net)
  else if msg.type = 1 then
    if msg.sender_fd = -1 then
      if s.clients_mtx then .blocked s
      else
        match send_all [1, NL] 2 s.clients net { s with clients_mtx := true } with
        | .ret (s1, net1) =>
          let s2 := { s1 with clients_mtx := false, server_running := false }
          if s2.listen_fd ≥ 0 then .ret ({ s2 with closed := s2.closed ++ [s2.listen_fd] }, net1)
          else .ret (s2, net1)
        | .blocked s1 => .blocked s1
    else if msg.sender_fd ≥ 0 then
      let fd := msg.sender_fd
      match client_fd_exists s fd with
      | .blocked s1 => .blocked s1
      | .ret e =>
        if e ≠ 0 then
          match robust_send 2 (net.headD []) with
          | (none, left) => .blocked (log_send s fd ([1, NL].take (2 - left)))
          | (some v, left) =>
            let s1 := log_send s fd ([1, NL].take (2 - left))
            if v < 0 then
              match remove_client_by_fd s1 fd with
              | .ret s2 => .ret (s2, net.tail)
              | .blocked s2 => .blocked s2
            else
              match remove_client_by_fd s1 fd with
              | .ret s2 => .ret (s2, net.tail)
              | .blocked s2 => .blocked s2
        else .ret (s, net)
    else .ret (s, net)
  else .ret (s, net)

/-- One turn of the `while (server_running)` loop of the broadcaster. The
thread's standing is kept in `bc_status`: it returns when `server_running` is
off, it stays where it is while `dequeue_msg` waits. -/
def broadcaster_turn (s : State) (net : List (List send_result)) :
    State × List (List send_result) :=
  if s.bc_status ≠ .running then (s, net)
  else if !s.server_running then ({ s with bc_status := .returned }, net)
  else
    match dequeue_msg s with
    | none => (s, net)
    | some (none, s1) => (s1, net)
    | some (some m, s1) =>
      match broadcaster_item s1 m net with
      | .ret r => r
      | .blocked s2 => ({ s2 with bc_status := .stuck }, net)

/-- Up to `k` turns of the broadcaster loop. -/
def broadcaster : Nat → State → List (List send_result) → State × List (List send_result)
  | 0, s, net => (s, net)
  | k + 1, s, net => broadcaster k (broadcaster_turn s net).1 (broadcaster_turn s net).2

/-! ## The receiver: `handle_client_read` -/

/-- The size `sizeof(buf)` of the receive buffer. -/
def RX_BUF_SIZE : Nat := MAX_MSG_SIZE + 16

/-- The call `calloc(1, sizeof(queued_msg_t))`: the new object's address, or
`none` for `NULL`. -/
def calloc_msg (s : State) : Option Nat × State :=
  match s.alloc_fail with
  | [] => (some s.qmem.length, { s with qmem := s.qmem ++ [zero_msg] })
  | true :: rest => (none, { s with alloc_fail := rest })
  | false :: rest =>
    (some s.qmem.length, { s with qmem := s.qmem ++ [zero_msg], alloc_fail := rest })

/-- The `for` loop that looks for `'\n'`: `bs` holds `buf[i .. bufused)`; gives
the index at which the loop breaks, or `none` when it runs to `bufused`. -/
def scan_nl : List Nat → Nat → Option Nat
  | [], _ => none
  | b :: bs, i => if b = NL then some i else scan_nl bs (i + 1)

/-- The branch `type == 0` for the message that starts at `buf[pos]` and has its
`'\n'` at `buf[pos + msglen]`. -/
def process_chat (s : State) (c : Nat) (buf : List Nat) (pos msglen : Nat) : State :=
  let msglen := if msglen > MAX_MSG_SIZE then MAX_MSG_SIZE else msglen
  match calloc_msg s with
  | (none, s1) => s1
  | (some qm, s1) =>
    let msg : queued_msg_t :=
      { node s1.qmem qm with
        type := 0, sender_fd := -2, ip := (client s1.cmem c).addr.s_addr,
        port := (client s1.cmem c).addr.sin_port, payload_len := msglen,
        payload := (buf.drop (pos + 1)).take msglen }
    enqueue_msg { s1 with qmem := s1.qmem.set qm msg } qm

/-- The section of the branch `type == 1` that runs under `clients_mtx`: the
first Done of client `c` sets its flag and counts it. -/
def mark_done (s : State) (c : Nat) : State :=
  if (client s.cmem c).sent_type1 = 0 then
    { s with cmem := s.cmem.set c { client s.cmem c with sent_type1 := 1 },
             received_type1_count := s.received_type1_count + 1 }
  else s

/-- The branch `type == 1`, after the locked section: the echo item for the
sender is allocated and enqueued. -/
def enqueue_echo (s : State) (c : Nat) : State :=
  match calloc_msg s with
  | (none, s1) => s1
  | (some qm, s1) =>
    let echo : queued_msg_t :=
      { node s1.qmem qm with type := 1, sender_fd := (client s1.cmem c).fd }
    enqueue_msg { s1 with qmem := s1.qmem.set qm echo } qm

/-- The branch `type == 1`, under `if (done)`: the global item is allocated and
enqueued. -/
def enqueue_global (s : State) : State :=
  match calloc_msg s with
  | (none, s1) => s1
  | (some qm, s1) =>
    let glob : queued_msg_t := { node s1.qmem qm with type := 1, sender_fd := -1 }
    enqueue_msg { s1 with qmem := s1.qmem.set qm glob } qm

/-- The branch `type == 1`. -/
def process_done (s : State) (c : Nat) : Run State :=
  if s.clients_mtx then .blocked s
  else
    let s1 := mark_done s c
    let done : Bool := decide (s1.received_type1_count ≥ s1.expected_clients)
    let s2 := enqueue_echo s1 c
    if done then .ret (enqueue_global s2) else .ret s2

/-- What the loop body does with one complete message of type byte `type`. -/
def process_message (s : State) (c : Nat) (type : Nat) (buf : List Nat) (pos msglen : Nat) :
    Run State :=
  if type = 0 then .ret (process_chat s c buf pos msglen)
  else if type = 1 then process_done s c
  else .ret s

/-- The loop `while (pos < bufused)` over `buf[0 .. bufused)`, from position
`pos`: the state and the final `pos`. Each turn moves `pos` forward, so
`bufused` turns are enough (see `process_buffer`). -/
def process_loop : Nat → State → Nat → List Nat → Nat → Run (State × Nat)
  | 0, s, _, _, pos => .ret (s, pos)
  | k + 1, s, c, buf, pos =>
    if pos < buf.length then
      if pos + 1 > buf.length then .ret (s, pos)
      else
        let type := buf.getD pos 0
        match scan_nl (buf.drop (pos + 1)) (pos + 1) with
        | none => .ret (s, pos)
        | some i =>
          let msglen := i - (pos + 1) + 1
          match process_message s c type buf pos msglen with
          | .ret s1 => process_loop k s1 c buf (i + 1)
          | .blocked s1 => .blocked s1
    else .ret (s, pos)

/-- The loop `while (pos < bufused)` started at `pos = 0`. -/
def process_buffer (s : State) (c : Nat) (buf : List Nat) : Run (State × Nat) :=
  process_loop buf.length s c buf 0

/-- What one `recv` call gives: the bytes stored (none at end of stream), or an
error with its `errno`. -/
inductive recv_result where
  | data (bytes : List Nat)
  | error (errno : Int)
deriving DecidableEq, Repr

/-- The bytes one `recv` call stores when `room` bytes were asked for. -/
def recv_result.stored (r : recv_result) (room : Nat) : List Nat :=
  match r with
  | .data bytes => bytes.take room
  | .error _ => []

/-- The return value of one `recv` call when `room` bytes were asked for. -/
def recv_result.n (r : recv_result) (room : Nat) : Int :=
  match r with
  | .data bytes => ((bytes.take room).length : Int)
  | .error _ => -1

/-- The locals of the receiver thread of client `c`; a thread that was never
started counts as returned. -/
def rx_of (s : State) (c : Nat) : rx_locals :=
  s.rx.getD c { buf := [], status := .returned }

/-- One turn of the `while (1)` loop of `handle_client_read` in the thread of
client `c`, for the result `r` of its `recv` call. -/
def recv_turn (s : State) (c : Nat) (r : recv_result) : State :=
  let loc := rx_of s c
  if loc.status ≠ .running then s
  else
    let room := RX_BUF_SIZE - loc.buf.length
    if r.n room ≤ 0 then
      match remove_client_by_fd s (client s.cmem c).fd with
      | .ret s1 => { s1 with rx := s1.rx.set c { loc with status := .returned } }
      | .blocked s1 => { s1 with rx := s1.rx.set c { loc with status := .stuck } }
    else
      let buf := loc.buf ++ r.stored room
      match process_buffer s c buf with
      | .ret (s1, pos) =>
        let rest := if pos < buf.length then buf.drop pos else []
        { s1 with rx := s1.rx.set c { loc with buf := rest } }
      | .blocked s1 => { s1 with rx := s1.rx.set c { loc with buf := buf, status := .stuck } }

/-- The thread of client `c` taking the `recv` results `rs` one after the other. -/
def recv_turns (s : State) (c : Nat) (rs : List recv_result) : State :=
  rs.foldl (fun st r => recv_turn st c r) s

/-! ## The accept loop of `main` and the whole server -/

/-- The call `calloc(1, sizeof(client_t))`. -/
def calloc_client (s : State) : Option Nat × State :=
  match s.alloc_fail with
  | [] => (some s.cmem.length, { s with cmem := s.cmem ++ [zero_client] })
  | true :: rest => (none, { s with alloc_fail := rest })
  | false :: rest =>
    (some s.cmem.length, { s with cmem := s.cmem ++ [zero_client], alloc_fail := rest })

/-- The test `while (server_running)` at the top of the accept loop. -/
def accept_loop_test (s : State) : State :=
  if s.server_running then s else { s with main_status := .returned }

/-- One turn of the accept loop of `main`, from the return of `accept` with value
`fd` (peer address `cliaddr`, or `errno` when `fd < 0`) to the next call of
`accept`. -/
def accept_turn (s : State) (fd : Int) (cliaddr : sockaddr_in) (errno : Int) : State :=
  if s.main_status ≠ .running then s
  else if fd < 0 then
    if !s.server_running then { s with main_status := .returned }
    else if errno = EINTR then accept_loop_test s
    else { s with main_status := .returned }
  else
    match calloc_client s with
    | (none, s0) => accept_loop_test { s0 with closed := s0.closed ++ [fd] }
    | (some c, s0) =>
      let obj : client_t :=
        { client s0.cmem c with fd := fd, addr := cliaddr, id := s0.client_id, sent_type1 := 0 }
      let s1 := { s0 with cmem := s0.cmem.set c obj, client_id := s0.client_id + 1 }
      match add_client s1 c with
      | .ret s2 =>
        accept_loop_test { s2 with rx := s2.rx ++ [{ buf := [], status := .running }] }
      | .blocked s2 => { s2 with main_status := .stuck }

/-- What can happen next in the server: `accept` returns in `main`, `recv`
returns in the thread of client `c`, or the broadcaster takes a turn (with the
results of the `send` calls it will make). -/
inductive Event where
  | accept (fd : Int) (cliaddr : sockaddr_in) (errno : Int)
  | recv (c : Nat) (r : recv_result)
  | broadcast (net : List (List send_result))
deriving DecidableEq, Repr

/-- The state after one event. -/
def step (s : State) : Event → State
  | .accept fd cliaddr errno => accept_turn s fd cliaddr errno
  | .recv c r => recv_turn s c r
  | .broadcast net => (broadcaster_turn s net).1

/-- The state the server reaches from the start of `main` by the events `evs`,
when its allocations go as `allocs` says (`true` for a failed one). -/
def run (expected : Int) (allocs : List Bool) (evs : List Event) : State :=
  evs.foldl step { init expected with alloc_fail := allocs }

/-- What the receivers do with a sequence of complete frames, each given by the
client it comes from, its type byte and its payload with the closing `'\n'`. -/
def handle_frames : State → List (Nat × Nat × List Nat) → Run State
  | s, [] => .ret s
  | s, (c, type, body) :: rest =>
    match process_message s c type (type :: body) 0 body.length with
    | .ret s1 => handle_frames s1 rest
    | .blocked s1 => .blocked s1

/-- Whether a queued message is the global-shutdown item. -/
def is_shutdown_all (m : queued_msg_t) : Bool :=
  m.type = 1 && m.sender_fd = -1

/-- The clients that sent a Done frame (type byte 1) among `frames`, each once. -/
def done_senders (frames : List (Nat × Nat × List Nat)) : List Nat :=
  ((frames.filter fun f => f.2.1 = 1).map fun f => f.1).dedup

/-! ## The client's receive loop (`src/lab6/clien.c`, `receiver_thread`) -/

/-- What one log line of the client shows: the four address bytes given to
`inet_ntop`, the port after `ntohs`, and the string `chat` up to its first NUL. -/
structure log_line where
  ip : in_addr_t
  port : Nat
  chat : List Nat
deriving DecidableEq, Repr

/-- The bytes of a C string held in an array: those before the first NUL. -/
def c_string (a : List Nat) : List Nat :=
  a.takeWhile fun b => b ≠ 0

/-- The branch `type == 0` with `msglen >= 6` of the client: the line logged for
the message that starts at `buf[pos]`. -/
def client_chat_line (buf : List Nat) (pos msglen : Nat) : log_line :=
  let ipnet : in_addr_t :=
    ⟨buf.getD (pos + 1) 0, buf.getD (pos + 2) 0, buf.getD (pos + 3) 0, buf.getD (pos + 4) 0⟩
  let portnet : in_port_t := ⟨buf.getD (pos + 5) 0, buf.getD (pos + 6) 0⟩
  let chatlen := msglen - 6
  let chatlen := if chatlen > MAX_MSG_SIZE then MAX_MSG_SIZE else chatlen
  let chat := (buf.drop (pos + 7)).take chatlen ++ [0]
  let chat := if chatlen > 0 ∧ chat.getD (chatlen - 1) 0 = NL then chat.set (chatlen - 1) 0 else chat
  { ip := ipnet, port := ntohs portnet, chat := c_string chat }

/-- The loop `while (pos < used)` of the client's `receiver_thread` over
`buf[0 .. used)`: the lines logged so far and then, the final `pos`, and whether
the thread returned (a type 1 message). -/
def client_loop : Nat → List Nat → Nat → List log_line → List log_line × Nat × Bool
  | 0, _, pos, out => (out, pos, false)
  | k + 1, buf, pos, out =>
    if pos < buf.length then
      if pos + 1 > buf.length then (out, pos, false)
      else
        let type := buf.getD pos 0
        match scan_nl (buf.drop (pos + 1)) (pos + 1) with
        | none => (out, pos, false)
        | some i =>
          let msglen := i - (pos + 1) + 1
          if type = 0 then
            if msglen < 6 then client_loop k buf (i + 1) out
            else client_loop k buf (i + 1) (out ++ [client_chat_line buf pos msglen])
          else if type = 1 then (out, pos, true)
          else client_loop k buf (i + 1) out
    else (out, pos, false)

/-- The client's loop over a buffer that holds exactly the bytes `buf`, from
`pos = 0`. -/
def client_decode (buf : List Nat) : List log_line × Nat × Bool :=
  client_loop buf.length buf 0 []

/-- The number of global-shutdown items among the messages enqueued so far. -/
def shutdown_items (s : State) : Nat :=
  s.enqueued.countP is_shutdown_all

/-- The message object the branch `type == 0` enqueues for client `c`. -/
def chat_item (s : State) (c : Nat) (buf : List Nat) (pos msglen : Nat) : queued_msg_t :=
  { zero_msg with
    type := 0, sender_fd := -2, ip := (client s.cmem c).addr.s_addr,
    port := (client s.cmem c).addr.sin_port,
    payload_len := if msglen > MAX_MSG_SIZE then MAX_MSG_SIZE else msglen,
    payload := (buf.drop (pos + 1)).take (if msglen > MAX_MSG_SIZE then MAX_MSG_SIZE else msglen) }

/-- The echo item the branch `type == 1` enqueues for client `c`. -/
def echo_item (s : State) (c : Nat) : queued_msg_t :=
  { zero_msg with type := 1, sender_fd := (client s.cmem c).fd }

/-- The global item the branch `type == 1` enqueues under `if (done)`. -/
def global_item : queued_msg_t :=
  { zero_msg with type := 1, sender_fd := -1 }

/-- What holds of the state `s` the receivers reach from `s0` by handling the
complete frames `frames`, when `s0` has no Done recorded yet. -/
structure DoneInv (s0 s : State) (frames : List (Nat × Nat × List Nat)) : Prop where
  mtx : s.clients_mtx = false
  alloc : s.alloc_fail = []
  expected : s.expected_clients = s0.expected_clients
  len : s.cmem.length = s0.cmem.length
  fd : ∀ c, 0 ≤ (client s.cmem c).fd
  flag : ∀ c, c < s.cmem.length → ((client s.cmem c).sent_type1 = 0 ↔ c ∉ done_senders frames)
  count : s.received_type1_count = ((done_senders frames).length : Int)
  items : 0 < shutdown_items s → s.expected_clients ≤ ((done_senders frames).length : Int)

/-- Two peer addresses for the examples. -/
def peer_a : sockaddr_in := ⟨⟨192, 168, 0, 7⟩, ⟨195, 80⟩⟩

/-- The second peer address for the examples. -/
def peer_b : sockaddr_in := ⟨⟨10, 0, 0, 1⟩, ⟨31, 144⟩⟩

/-- The server after it accepted two connections, on descriptors `4` and `5`. -/
def two_clients (expected : Int) : State :=
  run expected [] [.accept 4 peer_a 0, .accept 5 peer_b 0]

/-- Three Done frames: one from the first client, two from the second. -/
def done_twice : List (Nat × Nat × List Nat) :=
  [(0, 1, [NL]), (1, 1, [NL]), (1, 1, [NL])]

/-- The number of global-shutdown items enqueued by the end of a run of the
receivers (`0` when a receiver blocked). -/
def shutdown_items_of (r : Run State) : Nat :=
  match r with
  | .ret s => shutdown_items s
  | .blocked _ => 0

/-- Whether the flag `sent_type1` of a client object is set. -/
def has_sent_done (x : client_t) : Bool :=
  x.sent_type1 != 0

/-- What ties the Done counter to the client objects in every state the server
reaches: the counter is the number of objects whose flag is set, every receiver
thread has its client object, and `client_id` counts the objects. -/
structure CountInv (s : State) : Prop where
  count : s.received_type1_count = (s.cmem.countP has_sent_done : Int)
  threads : s.rx.length ≤ s.cmem.length
  ids : s.client_id = (s.cmem.length : Int)

/-- The state `t` has the client objects, the Done counter, the receiver
threads and the `client_id` of `s`. -/
def SameCount (s t : State) : Prop :=
  t.cmem = s.cmem ∧ t.received_type1_count = s.received_type1_count ∧
    t.rx.length = s.rx.length ∧ t.client_id = s.client_id

/-- The property `P` holds of the state in which a run ends, returned or
blocked. -/
def Run.ends {α : Type} (P : State → Prop) (get : α → State) (r : Run α) : Prop :=
  match r with
  | .ret a => P (get a)
  | .blocked s => P s

/-- Two clients accepted while one is expected, and a Done frame from each. -/
def two_done_events : List Event :=
  [.accept 4 peer_a 0, .accept 5 peer_b 0, .recv 0 (.data [1, NL]), .recv 1 (.data [1, NL])]

/-- A chat payload of exactly `MAX_MSG_SIZE` bytes `'a'`. -/
def full_payload : List Nat := List.replicate 1024 97

/-- A chat payload of 2000 bytes `'a'`. -/
def long_payload : List Nat := List.replicate 2000 97

/-- Two clients accepted (client 1 on descriptor 5 heads the registry, client 0
on descriptor 4 follows) and two chat frames of client 0 handled: the Broadcast
items for `"hi"` and `"ok"` are queued. -/
def two_chats : State :=
  recv_turns (two_clients 2) 0 [.data [0, 104, 105, NL], .data [0, 111, 107, NL]]

/-- A `send` that takes all `n` bytes. -/
def send_ok (n : Int) : List send_result := [⟨n, 0⟩]

/-- A `send` that fails with `EPIPE`. -/
def send_fails : List send_result := [⟨-1, 32⟩]

/-- Two clients accepted and the Done frame of client 0 handled: its Ack item
(`sender_fd = 4`) is queued. -/
def one_done : State :=
  recv_turns (two_clients 2) 0 [.data [1, NL]]

/-- With `expected_clients = 1`: three clients accepted (descriptors 4, 5, 6),
the Done frame of client 0 handled, then a chat frame of client 1. The queue
holds the Ack for descriptor 4, the global-shutdown item and a Broadcast item. -/
def shutdown_queued : State :=
  run 1 []
    [.accept 4 peer_a 0, .accept 5 peer_b 0, .accept 6 peer_a 0, .recv 0 (.data [1, NL]),
     .recv 1 (.data [0, 104, 105, NL])]

/-- The number of bytes that the `send` calls with results `rs` accepted: the sum
of the positive counts. -/
def accepted : List send_result → Nat
  | [] => 0
  | r :: rs => r.n.toNat + accepted rs

/-- Each result of `rs` is an error (a negative value) or a positive count no
larger than the bytes still unsent, `left` of them at the start. -/
def results_ok : Nat → List send_result → Bool
  | _, [] => true
  | left, r :: rs =>
    if r.n < 0 then results_ok left rs
    else decide (0 < r.n) && decide (r.n ≤ (left : Int)) && results_ok (left - r.n.toNat) rs

/-- No result of `rs` is an error other than `EINTR`. -/
def no_fatal (rs : List send_result) : Bool :=
  rs.all fun r => decide (r.n < 0 → r.errno = EINTR)

/-- The state `t` has the registry, the mutex, the closed descriptors and the
receiver locals of `s`, and every client object has in `t` the descriptor it has
in `s`. -/
structure Untouched (s t : State) : Prop where
  clients : t.clients = s.clients
  mtx : t.clients_mtx = s.clients_mtx
  closed : t.closed = s.closed
  rx : t.rx = s.rx
  fds : ∀ p, (client t.cmem p).fd = (client s.cmem p).fd

/-- The bytes of one frame: the type byte, the payload, the closing `'\n'`. -/
def frame_bytes (f : Nat × List Nat) : List Nat :=
  f.1 :: f.2 ++ [NL]

/-- Each of the reads `chunks`, taken in turn by the thread of client `c` from
the state `s` on, is non-empty and no longer than the free space of the buffer
at the time of the read. -/
def reads_fit : State → Nat → List (List Nat) → Bool
  | _, _, [] => true
  | s, c, d :: rest =>
    decide (d ≠ []) && decide (d.length ≤ RX_BUF_SIZE - (rx_of s c).buf.length) &&
      reads_fit (recv_turn s c (.data d)) c rest

/-- The state of the server when the thread of client `c`, started in `s` with
an empty buffer, has run the loop `while (pos < bufused)` once over all of the
bytes `bytes` and kept the unprocessed rest in its buffer. -/
def rx_after (s : State) (c : Nat) (bytes : List Nat) : State :=
  match process_buffer s c bytes with
  | .ret (s1, pos) => { s1 with rx := s1.rx.set c { buf := bytes.drop pos, status := .running } }
  | .blocked s1 => s1

/-- The value of `EAGAIN`, which is also that of `EWOULDBLOCK` (`<errno.h>`). -/
def EAGAIN : Int := 11

/-- A chat frame and a Done frame. -/
def chat_then_done : List (Nat × List Nat) := [(0, [104, 105]), (1, [])]

/-- A state whose queue holds the one message at address `0`, with two more
message objects allocated at addresses `1` and `2`. -/
def queue_example : State :=
  { init 2 with qmem := [zero_msg, zero_msg, zero_msg], q_head := some 0, q_tail := some 0 }

end Serve

/-!
# The lab7 chat server (`src/lab7/server.c`)

The same conventions as above. The roster `clients[0 .. client_count)` is a
list, so that `client_count` is its length; the array entries from
`client_count` on are never read. Each handler thread has its locals in the
table `handlers`, at the position given by the order in which `main` created
the threads. An empty script of `send` results stands for a `send` that has not
returned.
-/

namespace Lab7

def MAX_CLIENTS : Nat := 256

def SIZE_MAX : Nat := 2 ^ 64 - 1

/-- The type `struct client_info`. -/
structure client_info where
  sock : Int
  addr : Serve.sockaddr_in
  finished : Int
deriving DecidableEq, Repr

/-- Where a handler thread stands: created and not yet run, in its `while (1)`
loop, ended (returned or `pthread_exit`), or never to go on (blocked on
`clients_lock`, or inside a call that does not return). -/
inductive handler_pc where
  | created
  | reading
  | ended
  | stuck
deriving DecidableEq, Repr

/-- The locals `sock`, `my_index` and `my_addr` of one `client_handler` thread. -/
structure handler_locals where
  sock : Int
  my_index : Nat
  my_addr : Serve.sockaddr_in
  pc : handler_pc
deriving DecidableEq, Repr

/-- The globals of the server, where its threads stand, and what it did to the
outside world. -/
structure State where
  /-- the entries `clients[0 .. client_count)` -/
  clients : List client_info
  /-- whether `clients_lock` is held for good, by a thread that never goes on -/
  clients_lock : Bool
  finished_count : Nat
  expected_clients : Int
  server_listen_sock : Int
  /-- whether `main` is in its accept loop -/
  accepting : Bool
  /-- whether `main` is blocked for good -/
  main_stuck : Bool
  handlers : List handler_locals
  /-- the descriptors passed to `close`, oldest first -/
  closed : List Int
  /-- for each `send` call, oldest first: the socket and the value returned -/
  sent : List (Int × Int)
deriving DecidableEq, Repr

/-- The inner loop `while (off < (ssize_t)len)` of `broadcast_raw` for the socket
`sock`, run on the results of the `send` calls to come. No statement of the loop
assigns `off`. Gives the results left over when the loop is left, or `none`
when the results run out inside the loop, and the log of the calls. -/
def send_loop (len : Nat) (sock : Int) (off : Int) :
    List Serve.send_result → List (Int × Int) → Option (List Serve.send_result) × List (Int × Int)
  | [], log => if off < Serve.to_ssize_t len then (none, log) else (some [], log)
  | r :: rs, log =>
    if off < Serve.to_ssize_t len then
      if r.n ≤ 0 then
        if r.errno = Serve.EINTR then send_loop len sock off rs (log ++ [(sock, r.n)])
        else (some rs, log ++ [(sock, r.n)])
      else send_loop len sock off rs (log ++ [(sock, r.n)])
    else (some (r :: rs), log)

/-- The loop `for (i = 0; i < client_count; ++i)` of `broadcast_raw` over the
entries from `clients[i]` on. -/
def broadcast_loop (len : Nat) :
    List client_info → List Serve.send_result → List (Int × Int) →
      Option (List Serve.send_result) × List (Int × Int)
  | [], rs, log => (some rs, log)
  | c :: cs, rs, log =>
    if c.sock ≥ 0 then
      match send_loop len c.sock 0 rs log with
      | (none, log1) => (none, log1)
      | (some rs1, log1) => broadcast_loop len cs rs1 log1
    else broadcast_loop len cs rs log

/-- The function `broadcast_raw` for a buffer of `len` bytes: the results left
over and the state when it returns, or `none` and the state in which its thread
stays for good (waiting for `clients_lock`, or inside the loop with the lock
held). -/
def broadcast_raw (s : State) (len : Nat) (rs : List Serve.send_result) :
    Option (List Serve.send_result) × State :=
  if s.clients_lock then (none, s)
  else
    match broadcast_loop len s.clients rs s.sent with
    | (none, log) => (none, { s with clients_lock := true, sent := log })
    | (some rs1, log) => (some rs1, { s with sent := log })

/-- The function `remove_client_by_index`. -/
def remove_client_by_index (s : State) (idx : Nat) : State :=
  if idx ≥ s.clients.length then s
  else
    { s with closed := s.closed ++ [(s.clients.getD idx ⟨-1, ⟨⟨0, 0, 0, 0⟩, ⟨0, 0⟩⟩, 0⟩).sock],
             clients := s.clients.eraseIdx idx }

/-- The loop `for (i ...) if (clients[i].sock == sock) ... break` of
`client_handler` over the entries from `clients[i]` on: the index found, or
`SIZE_MAX`. -/
def find_sock (sock : Int) : List client_info → Nat → Nat
  | [], _ => SIZE_MAX
  | c :: cs, i => if c.sock = sock then i else find_sock sock cs (i + 1)

/-- The locals of handler thread `h`. -/
def handler (s : State) (h : Nat) : handler_locals :=
  s.handlers.getD h ⟨-1, SIZE_MAX, ⟨⟨0, 0, 0, 0⟩, ⟨0, 0⟩⟩, .ended⟩

/-- The entry `clients[i]`. -/
def entry (s : State) (i : Nat) : client_info :=
  s.clients.getD i ⟨-1, ⟨⟨0, 0, 0, 0⟩, ⟨0, 0⟩⟩, 0⟩

/-- The start of `client_handler` in thread `h`, up to the `while (1)` loop: the
thread looks up its socket in the roster once and keeps the index in
`my_index`. -/
def handler_start (s : State) (h : Nat) : State :=
  let loc := handler s h
  if loc.pc ≠ .created then s
  else if s.clients_lock then { s with handlers := s.handlers.set h { loc with pc := .stuck } }
  else
    let i := find_sock loc.sock s.clients 0
    if i = SIZE_MAX then
      { s with handlers := s.handlers.set h { loc with pc := .ended },
               closed := s.closed ++ [loc.sock] }
    else
      { s with handlers := s.handlers.set h
                 { loc with my_index := i, my_addr := (entry s i).addr, pc := .reading } }

/-- The section of the branch `type == 1` that runs under `clients_lock`. -/
def mark_finished (s : State) (sock : Int) (my_index : Nat) : State :=
  if my_index < s.clients.length ∧ (entry s my_index).sock = sock ∧
      (entry s my_index).finished = 0 then
    { s with clients := s.clients.set my_index { entry s my_index with finished := 1 },
             finished_count := (s.finished_count + 1) % 2 ^ 64 }
  else s

/-- The branch `type == 1` of `client_handler` in thread `h`: the two `send`
calls of the acknowledgement, the locked section, and the shutdown when the
count is reached. -/
def handler_done (s : State) (h : Nat) (net : List Serve.send_result) : State :=
  let loc := handler s h
  if loc.pc ≠ .reading then s
  else
    match net with
    | r1 :: r2 :: net1 =>
      let s1 := { s with sent := s.sent ++ [(loc.sock, r1.n), (loc.sock, r2.n)] }
      if s1.clients_lock then { s1 with handlers := s1.handlers.set h { loc with pc := .stuck } }
      else
        let s2 := mark_finished s1 loc.sock loc.my_index
        let finished := s2.finished_count
        let expected := (s2.expected_clients % 2 ^ 64).toNat
        if finished ≥ expected ∧ expected > 0 then
          match broadcast_raw s2 2 net1 with
          | (none, s3) => { s3 with handlers := s3.handlers.set h { loc with pc := .stuck } }
          | (some _, s3) =>
            if s3.server_listen_sock ≥ 0 then
              { s3 with closed := s3.closed ++ [s3.server_listen_sock], server_listen_sock := -1,
                        handlers := s3.handlers.set h { loc with pc := .ended } }
            else { s3 with handlers := s3.handlers.set h { loc with pc := .ended } }
        else s2
    | _ => { s with handlers := s.handlers.set h { loc with pc := .stuck } }

/-- The branch `type == 0` of `client_handler` in thread `h`, for a relay buffer
of `len` bytes. -/
def handler_chat (s : State) (h : Nat) (len : Nat) (net : List Serve.send_result) : State :=
  let loc := handler s h
  if loc.pc ≠ .reading then s
  else
    match broadcast_raw s len net with
    | (none, s1) => { s1 with handlers := s1.handlers.set h { loc with pc := .stuck } }
    | (some _, s1) => s1

/-- The end of `client_handler` in thread `h`, after `recv_until_nl` returned
`n <= 0`: the thread looks its socket up again and removes that entry. -/
def handler_exit (s : State) (h : Nat) : State :=
  let loc := handler s h
  if loc.pc ≠ .reading then s
  else if s.clients_lock then { s with handlers := s.handlers.set h { loc with pc := .stuck } }
  else
    let idx := find_sock loc.sock s.clients 0
    let s1 := if idx ≠ SIZE_MAX then remove_client_by_index s idx else s
    { s1 with closed := s1.closed ++ [loc.sock],
              handlers := s1.handlers.set h { loc with pc := .ended } }

/-- The test `if ((int)client_count >= expected_clients) break;` at the top of
the accept loop of `main`. -/
def accept_loop_test (s : State) : State :=
  if (s.clients.length : Int) ≥ s.expected_clients then { s with accepting := false } else s

/-- One turn of the accept loop of `main`, from the return of `accept` with value
`client_sock` to the next call of `accept`. -/
def accept_turn (s : State) (client_sock : Int) (cli_addr : Serve.sockaddr_in) (errno : Int) :
    State :=
  if !s.accepting || s.main_stuck then s
  else if client_sock < 0 then
    if errno = Serve.EINTR then accept_loop_test s else { s with accepting := false }
  else if s.clients_lock then { s with main_stuck := true }
  else if s.clients.length < MAX_CLIENTS then
    accept_loop_test
      { s with clients := s.clients ++ [⟨client_sock, cli_addr, 0⟩],
               handlers := s.handlers ++
                 [⟨client_sock, SIZE_MAX, ⟨⟨0, 0, 0, 0⟩, ⟨0, 0⟩⟩, .created⟩] }
  else accept_loop_test { s with closed := s.closed ++ [client_sock] }

/-- The state when `main` enters its accept loop, the listening socket being
descriptor `3`. -/
def init (expected : Int) : State :=
  accept_loop_test
    { clients := [], clients_lock := false, finished_count := 0, expected_clients := expected,
      server_listen_sock := 3, accepting := true, main_stuck := false, handlers := [],
      closed := [], sent := [] }

/-- What can happen next in the server: `accept` returns in `main`, handler
thread `h` starts, or its `recv_until_nl` returns a Done frame, a chat frame
(relayed in `len` bytes) or `n <= 0`. -/
inductive Event where
  | accept (client_sock : Int) (cli_addr : Serve.sockaddr_in) (errno : Int)
  | start (h : Nat)
  | done (h : Nat) (net : List Serve.send_result)
  | chat (h : Nat) (len : Nat) (net : List Serve.send_result)
  | hangup (h : Nat)
deriving DecidableEq, Repr

/-- The state after one event. -/
def step (s : State) : Event → State
  | .accept client_sock cli_addr errno => accept_turn s client_sock cli_addr errno
  | .start h => handler_start s h
  | .done h net => handler_done s h net
  | .chat h len net => handler_chat s h len net
  | .hangup h => handler_exit s h

/-- The state the server reaches from the start of the accept loop by `evs`. -/
def run (expected : Int) (evs : List Event) : State :=
  evs.foldl step (init expected)

/-- Every `send` call of the script returned a positive count. -/
def all_sent (rs : List Serve.send_result) : Bool :=
  rs.all fun r => decide (0 < r.n)

/-- Two clients connect and both handler threads start. -/
def two_started : List Event :=
  [.accept 4 Serve.peer_a 0, .accept 5 Serve.peer_b 0, .start 0, .start 1]

/-- The two `send` calls of an acknowledgement, one byte accepted by each. -/
def ack_sent : List Serve.send_result := [⟨1, 0⟩, ⟨1, 0⟩]

end Lab7

/-!
# Grouping by doubled value (`src/lab7/lab7.c`)

The arrays `outputs[MAX_INPUTS]` and `line_numbers[MAX_LINE_NUMS]` of `main` are
lists of that length; they start with whatever the stack holds, which is an
input of the model. A read or write outside an array makes the function return
`none`.
-/

namespace Lab7Map

def MAX_INPUTS : Nat := 100

def MAX_LINE_NUMS : Nat := 100

/-- The `int` that a computation with the exact result `x` gives. -/
def to_int (x : Int) : Int :=
  (x + 2 ^ 31) % 2 ^ 32 - 2 ^ 31

/-- The type `Input`. -/
structure Input where
  line_number : Int
  value : Int
deriving DecidableEq, Repr

/-- The type `IntermediateInput`. -/
structure IntermediateInput where
  line_number : Int
  doubled_value : Int
deriving DecidableEq, Repr

/-- The type `Output`. -/
structure Output where
  doubled_value : Int
  line_numbers : List Int
  line_count : Int
deriving DecidableEq, Repr

/-- The locals `outputs` and `result_count` of `main`. -/
structure State where
  outputs : List Output
  result_count : Int
deriving DecidableEq, Repr

/-- The function `map`, giving the object it fills in. -/
def map (input : Input) : IntermediateInput :=
  { line_number := input.line_number, doubled_value := to_int (input.value * 2) }

/-- The loop `for (i = 0; i < *result_count; i++)` of `groupByKey` from index `i`
on, `os` being `output[i ..]`: `some (some i)` when the test of the loop body
holds at `i`, `some none` when the loop runs to its end, `none` when it reads
past the end of `output`. -/
def find_loop (key : Int) (result_count : Int) : List Output → Nat → Option (Option Nat)
  | [], i => if (i : Int) < result_count then none else some none
  | o :: os, i =>
    if (i : Int) < result_count then
      if o.doubled_value = key then some (some i)
      else find_loop key result_count os (i + 1)
    else some none

/-- The function `groupByKey`. Where it increments `line_count` or
`*result_count`, the value is below the length of an array. -/
def groupByKey (s : State) (input : IntermediateInput) : Option State :=
  match find_loop input.doubled_value s.result_count s.outputs 0 with
  | none => none
  | some (some i) =>
    match s.outputs[i]? with
    | none => none
    | some o =>
      if 0 ≤ o.line_count ∧ o.line_count.toNat < o.line_numbers.length then
        let o1 : Output :=
          { o with line_numbers := o.line_numbers.set o.line_count.toNat input.line_number,
                   line_count := o.line_count + 1 }
        some { s with outputs := s.outputs.set i o1 }
      else none
  | some none =>
    if 0 ≤ s.result_count then
      match s.outputs[s.result_count.toNat]? with
      | none => none
      | some o =>
        if 0 < o.line_numbers.length then
          let o1 : Output :=
            { doubled_value := input.doubled_value,
              line_numbers := o.line_numbers.set 0 input.line_number,
              line_count := 1 }
          some { outputs := s.outputs.set s.result_count.toNat o1,
                 result_count := s.result_count + 1 }
        else none
    else none

/-- The reading loop of `main` from `input_count` on, for the integers still to
come: the entries of `inputs` it fills in. -/
def read_inputs : List Int → Int → List Input
  | [], _ => []
  | v :: vs, input_count =>
    { line_number := input_count + 1, value := v } :: read_inputs vs (input_count + 1)

/-- The loop of `main` that calls `groupByKey` on each entry in turn. -/
def group_all : State → List IntermediateInput → Option State
  | s, [] => some s
  | s, x :: xs =>
    match groupByKey s x with
    | none => none
    | some s1 => group_all s1 xs

/-- The three loops of `main` that read, map and group, for the integers
`values` on the input and the initial contents `outputs0` of `outputs`; more
than `MAX_INPUTS` integers are written past the end of `inputs`. -/
def main_groups (values : List Int) (outputs0 : List Output) : Option State :=
  if values.length > MAX_INPUTS then none
  else group_all { outputs := outputs0, result_count := 0 } ((read_inputs values 0).map map)

/-- What `reduce` prints for one group: the key and `line_numbers[0 .. line_count)`. -/
def reduce (output : Output) : Int × List Int :=
  (output.doubled_value, output.line_numbers.take output.line_count.toNat)

/-- What the last loop of `main` prints: `reduce` of `outputs[0 .. result_count)`. -/
def printed (s : State) : List (Int × List Int) :=
  (s.outputs.take s.result_count.toNat).map reduce

/-- The `line_count` fields of `outputs[0 .. result_count)`. -/
def line_counts (s : State) : List Int :=
  (s.outputs.take s.result_count.toNat).map fun o => o.line_count

/-- The line `ln` with key `key` put into a list of printed groups: added to the
first group that has the key, or as a new group at the end. -/
def add_line (key ln : Int) : List (Int × List Int) → List (Int × List Int)
  | [] => [(key, [ln])]
  | g :: gs => if g.1 = key then (g.1, g.2 ++ [ln]) :: gs else g :: add_line key ln gs

/-- The distinct values of a list in the order in which they first occur. -/
def first_keys : List Int → List Int
  | [] => []
  | k :: ks => k :: (first_keys ks).filter (fun x => x ≠ k)

/-- The positions, counted from `base + 1`, at which the list holds `key`. -/
def positions (key : Int) : List Int → Int → List Int
  | [], _ => []
  | d :: ds, base =>
    if d = key then (base + 1) :: positions key ds (base + 1) else positions key ds (base + 1)

/-- An `outputs` array as the stack may hold it before `main` writes to it. -/
def stack_garbage : List Output :=
  List.replicate 100 { doubled_value := 6, line_numbers := List.replicate 100 7, line_count := 55 }

end Lab7Map

/-!
# The message list of the lab4 server (`src/lab4/lab10.c`)

The heap holds the `struct list_node` objects that the client threads allocate;
the address of a heap node is its index. The local `head` of `main` is an object
of its own, so a pointer to a node is `NULL`, `&head` or the address of a heap
node. Reading or writing through a pointer that is not valid makes the function
return `none`.
-/

namespace Lab10

/-- A value of type `struct list_node *`. -/
inductive node_ptr where
  | null
  | head
  | heap (a : Nat)
deriving DecidableEq, Repr

/-- The type `struct list_node`; `data` is the address of the message buffer,
`none` for `NULL`. -/
structure list_node where
  next : node_ptr
  data : Option Nat
deriving DecidableEq, Repr

/-- The locals `head` and `list_handle` of `main`, and the heap nodes. -/
structure State where
  head : list_node
  nodes : List list_node
  /-- the field `list_handle.last` -/
  last : node_ptr
  /-- the field `list_handle.count`, a `uint32_t` -/
  count : Nat
deriving DecidableEq, Repr

/-- The heap node at address `a`. -/
def node (nodes : List list_node) (a : Nat) : list_node :=
  nodes.getD a ⟨.null, none⟩

/-- The state after the declarations of `main`: `head = {NULL, NULL}`,
`list_handle = {.last = &head, .count = 0}`, with the heap `nodes`. -/
def init (nodes : List list_node) : State :=
  { head := ⟨.null, none⟩, nodes := nodes, last := .head, count := 0 }

/-- The function `add_to_list`. -/
def add_to_list (s : State) (new_node : node_ptr) : Option State :=
  match s.last with
  | .null => none
  | .head =>
    let h : list_node := { s.head with next := new_node }
    some { s with head := h, last := h.next, count := (s.count + 1) % 2 ^ 32 }
  | .heap a =>
    if a < s.nodes.length then
      let nd : list_node := { node s.nodes a with next := new_node }
      some { s with nodes := s.nodes.set a nd, last := nd.next, count := (s.count + 1) % 2 ^ 32 }
    else none

/-- The calls `add_to_list(list_handle, new_node)` for the heap nodes at the
addresses `as`, in that order. -/
def add_all : State → List Nat → Option State
  | s, [] => some s
  | s, a :: as =>
    match add_to_list s (.heap a) with
    | none => none
    | some s1 => add_all s1 as

/-- The loop `while (node != NULL)` of `collect_all`, with `total` and the nodes
freed so far, in order: the final `total` and the nodes freed. Each turn frees a
node that was not freed before, so as many turns as the heap has nodes are
enough (see `collect_all`); a turn on a node already freed, or on `head`, which
is not a heap object, gives `none`. -/
def collect_loop : Nat → List list_node → node_ptr → Nat → List Nat → Option (Nat × List Nat)
  | _, _, .null, total, freed => some (total, freed)
  | 0, _, .head, _, _ => none
  | 0, _, .heap _, _, _ => none
  | _ + 1, _, .head, _, _ => none
  | k + 1, nodes, .heap a, total, freed =>
    if a < nodes.length ∧ a ∉ freed then
      collect_loop k nodes (node nodes a).next ((total + 1) % 2 ^ 32) (freed ++ [a])
    else none

/-- The value of type `int` that `return total;` gives for a `uint32_t` value. -/
def to_int (total : Nat) : Int :=
  ((total : Int) + 2 ^ 31) % 2 ^ 32 - 2 ^ 31

/-- The function `collect_all` for the argument `head` (a copy of the object) on
the heap `nodes`: the value returned and the nodes visited, in order. -/
def collect_all (head : list_node) (nodes : List list_node) : Option (Int × List Nat) :=
  match collect_loop nodes.length nodes head.next 0 [] with
  | none => none
  | some (total, freed) => some (to_int total, freed)

/-- Whether the test `collected != list_handle.count` of `main` is false; the
`int` is converted to `unsigned` for the comparison. -/
def collected_ok (collected : Int) (count : Nat) : Bool :=
  decide ((collected % 2 ^ 32).toNat = count)

/-- The chain of `next` pointers from `p` visits exactly the heap nodes `l` and
ends in `NULL`. -/
def chain (nodes : List list_node) : node_ptr → List Nat → Prop
  | p, [] => p = .null
  | p, a :: l => p = .heap a ∧ a < nodes.length ∧ chain nodes (node nodes a).next l

/-- The address of the last node of the list `l` after `head`: `&head` when the
list is empty. -/
def last_ptr (l : List Nat) : node_ptr :=
  match l.getLast? with
  | none => .head
  | some a => .heap a

/-- The list of state `s` holds the heap nodes `l` after `head`, in that order. -/
structure ListRep (s : State) (l : List Nat) : Prop where
  linked : chain s.nodes s.head.next l
  last : s.last = last_ptr l
  nodup : l.Nodup
  count : s.count = l.length % 2 ^ 32

/-- A heap of `n` nodes as `run_client` leaves them before `add_to_list`: `next`
is `NULL`, the node at address `a` has its buffer at `a`. -/
def fresh_nodes (n : Nat) : List list_node :=
  (List.range n).map fun a => ⟨.null, some a⟩

end Lab10

namespace Serve

/-! # Theorems -/

/-! ## Lemmas on the queue -/

theorem set_next_length (mem : List queued_msg_t) (p : Nat) (v : Option Nat) :
    (set_next mem p v).length = mem.length := by
  simp [set_next]

theorem node_set_next_ne (mem : List queued_msg_t) (p q : Nat) (v : Option Nat) (h : q ≠ p) :
    node (set_next mem p v) q = node mem q := by
  simp [node, set_next, List.getD_eq_getElem?_getD, List.getElem?_set, Ne.symm h]

theorem node_set_next_self (mem : List queued_msg_t) (p : Nat) (v : Option Nat)
    (h : p < mem.length) :
    node (set_next mem p v) p = { node mem p with next := v } := by
  simp [node, set_next, List.getD_eq_getElem?_getD, List.getElem?_set, h]

theorem same_item_set_next (mem : List queued_msg_t) (p q : Nat) (v : Option Nat) :
    same_item (node (set_next mem p v) q) (node mem q) := by
  by_cases h : q = p
  · subst h
    by_cases hq : q < mem.length
    · rw [node_set_next_self mem q v hq]; rfl
    · have : set_next mem q v = mem := by
        simp only [set_next]
        exact List.set_eq_of_length_le (by omega)
      rw [this]; rfl
  · rw [node_set_next_ne mem p q v h]; rfl

theorem same_item_trans {x y z : queued_msg_t} (h1 : same_item x y) (h2 : same_item y z) :
    same_item x z := by
  unfold same_item at *
  exact h1.trans h2

theorem chain_congr (mem mem' : List queued_msg_t) (l : List Nat) (h : Option Nat)
    (hlen : mem'.length = mem.length)
    (hsame : ∀ a ∈ l, (node mem' a).next = (node mem a).next)
    (hc : chain mem h l) : chain mem' h l := by
  induction l generalizing h with
  | nil => exact hc
  | cons a l ih =>
    obtain ⟨h1, h2, h3⟩ := hc
    refine ⟨h1, by omega, ?_⟩
    rw [hsame a (List.mem_cons_self a l)]
    exact ih _ (fun b hb => hsame b (List.mem_cons_of_mem a hb)) h3

theorem chain_none (mem : List queued_msg_t) (l : List Nat) (hc : chain mem none l) : l = [] := by
  cases l with
  | nil => rfl
  | cons a l => exact absurd hc.1 (by simp)

theorem chain_snoc (mem : List queued_msg_t) (l : List Nat) (t m : Nat) (h : Option Nat)
    (hc : chain mem h (l ++ [t])) (hnd : (l ++ [t]).Nodup) (hm : m ∉ l ++ [t])
    (hlt : m < mem.length) :
    chain (set_next (set_next mem m none) t (some m)) h (l ++ [t] ++ [m]) := by
  have hmt : m ≠ t := fun e => hm (by simp [e])
  have htlen : ∀ (hd : Option Nat), chain mem hd [t] → t < mem.length := fun _ hd => hd.2.1
  induction l generalizing h with
  | nil =>
    obtain ⟨h1, h2, _⟩ := hc
    refine ⟨h1, by simpa [set_next_length] using h2, ?_⟩
    rw [node_set_next_self _ _ _ (by simpa [set_next_length] using h2)]
    refine ⟨rfl, by simpa [set_next_length] using hlt, ?_⟩
    rw [node_set_next_ne _ _ _ _ hmt, node_set_next_self _ _ _ hlt]
    rfl
  | cons a l ih =>
    obtain ⟨h1, h2, h3⟩ := hc
    have hnd' : (l ++ [t]).Nodup := (List.nodup_cons.mp hnd).2
    have hat : a ≠ t := by
      intro e
      have := (List.nodup_cons.mp hnd).1
      exact this (by simp [e])
    have ham : a ≠ m := fun e => hm (by simp [e])
    refine ⟨h1, by simpa [set_next_length] using h2, ?_⟩
    rw [node_set_next_ne _ _ _ _ hat, node_set_next_ne _ _ _ _ ham]
    exact ih _ h3 hnd' (fun hmem => hm (List.mem_cons_of_mem a hmem))

theorem QueueRep_enqueue (s : State) (l : List Nat) (m : Nat) (hq : QueueRep s l)
    (hm : m ∉ l) (hlt : m < s.qmem.length) : QueueRep (enqueue_msg s m) (l ++ [m]) := by
  obtain ⟨hc, ht, hnd⟩ := hq
  have hnd2 : (l ++ [m]).Nodup := by
    rw [List.nodup_append]
    exact ⟨hnd, List.nodup_singleton m, by
      intro a ha hb
      rw [List.mem_singleton] at hb
      exact hm (hb ▸ ha)⟩
  rcases List.eq_nil_or_concat l with hl | ⟨l0, t, hl⟩
  · subst hl
    have htail : s.q_tail = none := by simpa using ht
    refine ⟨?_, ?_, hnd2⟩
    · simp only [enqueue_msg, htail, List.nil_append]
      refine ⟨rfl, by simpa [set_next_length] using hlt, ?_⟩
      rw [node_set_next_self _ _ _ hlt]
      rfl
    · simp [enqueue_msg, htail]
  · rw [List.concat_eq_append] at hl
    subst hl
    have htail : s.q_tail = some t := by simpa using ht
    refine ⟨?_, ?_, hnd2⟩
    · simp only [enqueue_msg, htail]
      exact chain_snoc s.qmem l0 t m s.q_head hc hnd hm hlt
    · simp [enqueue_msg, htail]

theorem enqueue_msg_qmem_length (s : State) (m : Nat) :
    (enqueue_msg s m).qmem.length = s.qmem.length := by
  unfold enqueue_msg
  cases s.q_tail <;> simp [set_next_length]

theorem enqueue_msg_same_item (s : State) (m a : Nat) :
    same_item (node (enqueue_msg s m).qmem a) (node s.qmem a) := by
  unfold enqueue_msg
  cases s.q_tail with
  | none => exact same_item_set_next _ _ _ _
  | some t => exact same_item_trans (same_item_set_next _ _ _ _) (same_item_set_next _ _ _ _)

theorem QueueRep_enqueue_all (ms : List Nat) (s : State) (l : List Nat) (hq : QueueRep s l)
    (hnd : ms.Nodup) (hdisj : ∀ m ∈ ms, m ∉ l) (hlt : ∀ m ∈ ms, m < s.qmem.length) :
    QueueRep (ms.foldl enqueue_msg s) (l ++ ms) ∧
      ∀ a, same_item (node (ms.foldl enqueue_msg s).qmem a) (node s.qmem a) := by
  induction ms generalizing s l with
  | nil => simpa using ⟨hq, fun a => rfl⟩
  | cons m ms ih =>
    have h1 := QueueRep_enqueue s l m hq (hdisj m (List.mem_cons_self m ms))
      (hlt m (List.mem_cons_self m ms))
    obtain ⟨hm, hnd'⟩ := List.nodup_cons.mp hnd
    have h2 := ih (enqueue_msg s m) (l ++ [m]) h1 hnd'
      (by
        intro x hx hx'
        rcases List.mem_append.mp hx' with h | h
        · exact hdisj x (List.mem_cons_of_mem m hx) h
        · rw [List.mem_singleton] at h
          exact hm (h ▸ hx))
      (by
        intro x hx
        rw [enqueue_msg_qmem_length]
        exact hlt x (List.mem_cons_of_mem m hx))
    refine ⟨by simpa using h2.1, fun a => ?_⟩
    exact same_item_trans (h2.2 a) (enqueue_msg_same_item s m a)

theorem QueueRep_dequeue (s : State) (a : Nat) (l : List Nat) (hq : QueueRep s (a :: l)) :
    ∃ s', dequeue_msg s = some (some a, s') ∧ QueueRep s' l ∧ s'.qmem = s.qmem := by
  obtain ⟨⟨h1, h2, h3⟩, ht, hnd⟩ := hq
  have hnd' : l.Nodup := (List.nodup_cons.mp hnd).2
  cases hn : (node s.qmem a).next with
  | none =>
    rw [hn] at h3
    have hl := chain_none _ _ h3
    subst hl
    exact ⟨{ s with q_head := none, q_tail := none }, by simp [dequeue_msg, h1, hn],
      ⟨rfl, rfl, hnd'⟩, rfl⟩
  | some b =>
    rw [hn] at h3
    have hl : l ≠ [] := by
      intro e
      subst e
      exact absurd h3 (by simp [chain])
    refine ⟨{ s with q_head := some b }, by simp [dequeue_msg, h1, hn], ⟨h3, ?_, hnd'⟩, rfl⟩
    simp only [ht]
    cases l with
    | nil => exact absurd rfl hl
    | cons c l => exact List.getLast?_cons_cons

theorem QueueRep_drain (l : List Nat) (s : State) (hq : QueueRep s l) :
    (drain l.length s).1 = l ∧ (drain l.length s).2.q_head = none ∧
      (drain l.length s).2.q_tail = none ∧ (drain l.length s).2.qmem = s.qmem := by
  induction l generalizing s with
  | nil =>
    obtain ⟨h1, h2, _⟩ := hq
    exact ⟨rfl, h1, by simpa using h2, rfl⟩
  | cons a l ih =>
    obtain ⟨s', hd, hq', hmem⟩ := QueueRep_dequeue s a l hq
    obtain ⟨i1, i2, i3, i4⟩ := ih s' hq'
    simp only [List.length_cons, drain, hd]
    exact ⟨by rw [i1], i2, i3, by rw [i4, hmem]⟩

/-! ## Lemmas on the receiver -/

@[simp]
theorem enqueue_msg_cmem (s : State) (m : Nat) : (enqueue_msg s m).cmem = s.cmem := by
  unfold enqueue_msg
  cases s.q_tail <;> rfl

@[simp]
theorem enqueue_msg_alloc_fail (s : State) (m : Nat) : (enqueue_msg s m).alloc_fail = s.alloc_fail := by
  unfold enqueue_msg
  cases s.q_tail <;> rfl

@[simp]
theorem enqueue_msg_clients (s : State) (m : Nat) : (enqueue_msg s m).clients = s.clients := by
  unfold enqueue_msg
  cases s.q_tail <;> rfl

@[simp]
theorem enqueue_msg_clients_mtx (s : State) (m : Nat) : (enqueue_msg s m).clients_mtx = s.clients_mtx := by
  unfold enqueue_msg
  cases s.q_tail <;> rfl

@[simp]
theorem enqueue_msg_expected_clients (s : State) (m : Nat) : (enqueue_msg s m).expected_clients = s.expected_clients := by
  unfold enqueue_msg
  cases s.q_tail <;> rfl

@[simp]
theorem enqueue_msg_received_type1_count (s : State) (m : Nat) : (enqueue_msg s m).received_type1_count = s.received_type1_count := by
  unfold enqueue_msg
  cases s.q_tail <;> rfl

@[simp]
theorem enqueue_msg_rx (s : State) (m : Nat) : (enqueue_msg s m).rx = s.rx := by
  unfold enqueue_msg
  cases s.q_tail <;> rfl

@[simp]
theorem enqueue_msg_closed (s : State) (m : Nat) : (enqueue_msg s m).closed = s.closed := by
  unfold enqueue_msg
  cases s.q_tail <;> rfl

@[simp]
theorem enqueue_msg_wire (s : State) (m : Nat) : (enqueue_msg s m).wire = s.wire := by
  unfold enqueue_msg
  cases s.q_tail <;> rfl

@[simp]
theorem enqueue_msg_server_running (s : State) (m : Nat) : (enqueue_msg s m).server_running = s.server_running := by
  unfold enqueue_msg
  cases s.q_tail <;> rfl

@[simp]
theorem enqueue_msg_listen_fd (s : State) (m : Nat) : (enqueue_msg s m).listen_fd = s.listen_fd := by
  unfold enqueue_msg
  cases s.q_tail <;> rfl

@[simp]
theorem enqueue_msg_client_id (s : State) (m : Nat) : (enqueue_msg s m).client_id = s.client_id := by
  unfold enqueue_msg
  cases s.q_tail <;> rfl

@[simp]
theorem enqueue_msg_main_status (s : State) (m : Nat) : (enqueue_msg s m).main_status = s.main_status := by
  unfold enqueue_msg
  cases s.q_tail <;> rfl

@[simp]
theorem enqueue_msg_bc_status (s : State) (m : Nat) : (enqueue_msg s m).bc_status = s.bc_status := by
  unfold enqueue_msg
  cases s.q_tail <;> rfl

@[simp]
theorem enqueue_msg_enqueued (s : State) (m : Nat) :
    (enqueue_msg s m).enqueued = s.enqueued ++ [node s.qmem m] := by
  unfold enqueue_msg
  cases s.q_tail <;> rfl

theorem node_append_set (mem : List queued_msg_t) (x : queued_msg_t) :
    node ((mem ++ [zero_msg]).set mem.length x) mem.length = x := by
  simp [node, List.getD_eq_getElem?_getD, List.getElem?_set]

theorem node_append_self (mem : List queued_msg_t) (x : queued_msg_t) :
    node (mem ++ [x]) mem.length = x := by
  simp [node, List.getD_eq_getElem?_getD]

/-- With allocation succeeding, the branch `type == 0` enqueues `chat_item` and
leaves the registry, the counters and the mutex alone. -/
theorem process_chat_spec (s : State) (c : Nat) (buf : List Nat) (pos msglen : Nat)
    (ha : s.alloc_fail = []) :
    (process_chat s c buf pos msglen).enqueued = s.enqueued ++ [chat_item s c buf pos msglen] ∧
      (process_chat s c buf pos msglen).cmem = s.cmem ∧
      (process_chat s c buf pos msglen).alloc_fail = [] ∧
      (process_chat s c buf pos msglen).clients = s.clients ∧
      (process_chat s c buf pos msglen).clients_mtx = s.clients_mtx ∧
      (process_chat s c buf pos msglen).expected_clients = s.expected_clients ∧
      (process_chat s c buf pos msglen).received_type1_count = s.received_type1_count ∧
      (process_chat s c buf pos msglen).rx = s.rx ∧
      (process_chat s c buf pos msglen).closed = s.closed ∧
      (process_chat s c buf pos msglen).wire = s.wire := by
  simp [process_chat, calloc_msg, ha, node_append_set, node_append_self, chat_item]

theorem enqueue_echo_spec (s : State) (c : Nat) (ha : s.alloc_fail = []) :
    (enqueue_echo s c).enqueued = s.enqueued ++ [echo_item s c] ∧
      (enqueue_echo s c).cmem = s.cmem ∧ (enqueue_echo s c).alloc_fail = [] ∧
      (enqueue_echo s c).clients = s.clients ∧
      (enqueue_echo s c).clients_mtx = s.clients_mtx ∧
      (enqueue_echo s c).expected_clients = s.expected_clients ∧
      (enqueue_echo s c).received_type1_count = s.received_type1_count ∧
      (enqueue_echo s c).rx = s.rx ∧ (enqueue_echo s c).closed = s.closed ∧
      (enqueue_echo s c).wire = s.wire := by
  simp [enqueue_echo, calloc_msg, ha, node_append_set, node_append_self, echo_item]

theorem enqueue_global_spec (s : State) (ha : s.alloc_fail = []) :
    (enqueue_global s).enqueued = s.enqueued ++ [global_item] ∧
      (enqueue_global s).cmem = s.cmem ∧ (enqueue_global s).alloc_fail = [] ∧
      (enqueue_global s).clients = s.clients ∧
      (enqueue_global s).clients_mtx = s.clients_mtx ∧
      (enqueue_global s).expected_clients = s.expected_clients ∧
      (enqueue_global s).received_type1_count = s.received_type1_count ∧
      (enqueue_global s).rx = s.rx ∧ (enqueue_global s).closed = s.closed ∧
      (enqueue_global s).wire = s.wire := by
  simp [enqueue_global, calloc_msg, ha, node_append_set, node_append_self, global_item]

theorem process_done_spec (s : State) (c : Nat) (hm : s.clients_mtx = false)
    (ha : s.alloc_fail = []) :
    ∃ s', process_done s c = .ret s' ∧
      s'.enqueued = s.enqueued ++ [echo_item (mark_done s c) c] ++
        (if (mark_done s c).received_type1_count ≥ s.expected_clients then [global_item]
         else []) ∧
      s'.cmem = (mark_done s c).cmem ∧ s'.alloc_fail = [] ∧ s'.clients = s.clients ∧
      s'.clients_mtx = false ∧ s'.expected_clients = s.expected_clients ∧
      s'.received_type1_count = (mark_done s c).received_type1_count ∧
      s'.rx = s.rx ∧ s'.closed = s.closed ∧ s'.wire = s.wire := by
  have hma : (mark_done s c).alloc_fail = [] := by
    unfold mark_done; split <;> simp [ha]
  have hmf : (mark_done s c).clients = s.clients ∧ (mark_done s c).clients_mtx = false ∧
      (mark_done s c).expected_clients = s.expected_clients ∧ (mark_done s c).rx = s.rx ∧
      (mark_done s c).closed = s.closed ∧ (mark_done s c).wire = s.wire ∧
      (mark_done s c).enqueued = s.enqueued := by
    unfold mark_done; split <;> simp [hm]
  obtain ⟨m1, m2, m3, m4, m5, m6, m7⟩ := hmf
  obtain ⟨e1, e2, e3, e4, e5, e6, e7, e8, e9, e10⟩ := enqueue_echo_spec (mark_done s c) c hma
  obtain ⟨g1, g2, g3, g4, g5, g6, g7, g8, g9, g10⟩ :=
    enqueue_global_spec (enqueue_echo (mark_done s c) c) e3
  by_cases hd : (mark_done s c).received_type1_count ≥ s.expected_clients
  · refine ⟨enqueue_global (enqueue_echo (mark_done s c) c), ?_, ?_, ?_, g3, ?_, ?_, ?_, ?_, ?_, ?_, ?_⟩
    · simp [process_done, hm, hd, m3]
    · rw [g1, e1, m7]; simp [hd]
    · rw [g2, e2]
    · rw [g4, e4, m1]
    · rw [g5, e5, m2]
    · rw [g6, e6, m3]
    · rw [g7, e7]
    · rw [g8, e8, m4]
    · rw [g9, e9, m5]
    · rw [g10, e10, m6]
  · refine ⟨enqueue_echo (mark_done s c) c, ?_, ?_, e2, e3, ?_, ?_, ?_, e7, ?_, ?_, ?_⟩
    · simp [process_done, hm, hd, m3]
    · rw [e1, m7]; simp [hd]
    · rw [e4, m1]
    · rw [e5, m2]
    · rw [e6, m3]
    · rw [e8, m4]
    · rw [e9, m5]
    · rw [e10, m6]

theorem dedup_snoc_length (l : List Nat) (c : Nat) :
    (l ++ [c]).dedup.length = l.dedup.length + if c ∈ l then 0 else 1 := by
  rw [← List.card_toFinset, ← List.card_toFinset, List.toFinset_append]
  by_cases h : c ∈ l
  · have : l.toFinset ∪ [c].toFinset = l.toFinset := by
      ext x; simp; intro hx; rw [hx]; exact h
    rw [this]
    simp [h]
  · have : l.toFinset ∪ [c].toFinset = insert c l.toFinset := by
      ext x; simp; tauto
    rw [this, Finset.card_insert_of_not_mem (by simpa using h)]
    simp [h]

/-! ## Lemmas on the Done count -/

theorem client_set (mem : List client_t) (c c' : Nat) (x : client_t) (hc : c < mem.length) :
    client (mem.set c x) c' = if c' = c then x else client mem c' := by
  by_cases h : c' = c
  · subst h
    simp [client, List.getD_eq_getElem?_getD, List.getElem?_set, hc]
  · simp [client, List.getD_eq_getElem?_getD, List.getElem?_set, h, Ne.symm h]

theorem done_senders_snoc (pre : List (Nat × Nat × List Nat)) (f : Nat × Nat × List Nat) :
    done_senders (pre ++ [f]) =
      if f.2.1 = 1 then (((pre.filter fun g => g.2.1 = 1).map fun g => g.1) ++ [f.1]).dedup
      else done_senders pre := by
  by_cases h : f.2.1 = 1 <;> simp [done_senders, List.filter_append, List.filter_cons, h]

theorem done_senders_snoc_length (pre : List (Nat × Nat × List Nat)) (f : Nat × Nat × List Nat) :
    (done_senders (pre ++ [f])).length =
      (done_senders pre).length + if f.2.1 = 1 ∧ f.1 ∉ done_senders pre then 1 else 0 := by
  rw [done_senders_snoc]
  by_cases h : f.2.1 = 1
  · rw [if_pos h, dedup_snoc_length]
    by_cases hm : f.1 ∈ done_senders pre
    · have hm' := hm
      rw [done_senders, List.mem_dedup] at hm'
      simp [h, hm, hm', done_senders]
    · have hm' := hm
      rw [done_senders, List.mem_dedup] at hm'
      simp [h, hm, hm', done_senders]
  · simp [h]

theorem mem_done_senders_snoc (pre : List (Nat × Nat × List Nat)) (f : Nat × Nat × List Nat)
    (c : Nat) :
    c ∈ done_senders (pre ++ [f]) ↔ c ∈ done_senders pre ∨ (f.2.1 = 1 ∧ c = f.1) := by
  rw [done_senders_snoc]
  by_cases h : f.2.1 = 1
  · simp [h, done_senders]
  · simp [h]

theorem is_shutdown_all_chat_item (s : State) (c : Nat) (buf : List Nat) (pos msglen : Nat) :
    is_shutdown_all (chat_item s c buf pos msglen) = false := by
  simp [is_shutdown_all, chat_item]

theorem is_shutdown_all_echo_item (s : State) (c : Nat) (h : 0 ≤ (client s.cmem c).fd) :
    is_shutdown_all (echo_item s c) = false := by
  simp only [is_shutdown_all, echo_item, Bool.and_eq_false_iff, decide_eq_false_iff_not]
  right
  omega

theorem is_shutdown_all_global_item : is_shutdown_all global_item = true := by
  decide

theorem mark_done_spec (s : State) (c : Nat) (hc : c < s.cmem.length) :
    (mark_done s c).cmem.length = s.cmem.length ∧
      (∀ c', (client (mark_done s c).cmem c').fd = (client s.cmem c').fd) ∧
      (∀ c', (client (mark_done s c).cmem c').sent_type1 =
        if c' = c ∧ (client s.cmem c).sent_type1 = 0 then 1 else (client s.cmem c').sent_type1) ∧
      (mark_done s c).received_type1_count =
        s.received_type1_count + if (client s.cmem c).sent_type1 = 0 then 1 else 0 := by
  unfold mark_done
  by_cases h : (client s.cmem c).sent_type1 = 0
  · simp only [h, if_true, List.length_set, true_and, and_true]
    refine ⟨fun c' => ?_, fun c' => ?_⟩
    · rw [client_set _ _ _ _ hc]
      split
      · next e => rw [e]
      · rfl
    · rw [client_set _ _ _ _ hc]
      split <;> rfl
  · simp [h]

theorem DoneInv_step (s0 s : State) (pre : List (Nat × Nat × List Nat))
    (f : Nat × Nat × List Nat) (h : DoneInv s0 s pre) (hc : f.1 < s0.cmem.length) :
    ∃ s', process_message s f.1 f.2.1 (f.2.1 :: f.2.2) 0 f.2.2.length = .ret s' ∧
      DoneInv s0 s' (pre ++ [f]) ∧
      shutdown_items s' = shutdown_items s +
        if f.2.1 = 1 ∧ s0.expected_clients ≤ ((done_senders (pre ++ [f])).length : Int)
        then 1 else 0 := by
  obtain ⟨c, t, body⟩ := f
  simp only at hc ⊢
  by_cases h0 : t = 0
  · subst h0
    obtain ⟨p1, p2, p3, p4, p5, p6, p7, p8, p9, p10⟩ :=
      process_chat_spec s c (0 :: body) 0 body.length h.alloc
    have hds : done_senders (pre ++ [(c, 0, body)]) = done_senders pre := by
      rw [done_senders_snoc]; simp
    have hitems : shutdown_items (process_chat s c (0 :: body) 0 body.length) =
        shutdown_items s := by
      simp [shutdown_items, p1, List.countP_append, is_shutdown_all_chat_item]
    refine ⟨process_chat s c (0 :: body) 0 body.length, by simp [process_message], ?_, ?_⟩
    · refine ⟨by rw [p5, h.mtx], p3, by rw [p6, h.expected], by rw [p2, h.len], ?_, ?_, ?_, ?_⟩
      · intro c'; rw [p2]; exact h.fd c'
      · intro c' hc'; rw [p2] at hc' ⊢; rw [hds]; exact h.flag c' hc'
      · rw [p7, hds]; exact h.count
      · rw [hitems, p6, hds]; exact h.items
    · rw [hitems]; simp
  · by_cases h1 : t = 1
    · subst h1
      have hc' : c < s.cmem.length := by rw [h.len]; exact hc
      obtain ⟨s', q0, q1, q2, q3, q4, q5, q6, q7, q8, q9, q10⟩ :=
        process_done_spec s c h.mtx h.alloc
      obtain ⟨m1, m2, m3, m4⟩ := mark_done_spec s c hc'
      have hlen := done_senders_snoc_length pre (c, 1, body)
      simp only [true_and] at hlen
      have hflag := h.flag c hc'
      have hcount : s'.received_type1_count =
          ((done_senders (pre ++ [(c, 1, body)])).length : Int) := by
        rw [q7, m4, hlen, h.count]
        by_cases hz : (client s.cmem c).sent_type1 = 0
        · have := hflag.mp hz
          simp [hz, this]
        · have : c ∈ done_senders pre := by
            by_contra hn
            exact hz (hflag.mpr hn)
          simp [hz, this]
      have hecho : is_shutdown_all (echo_item (mark_done s c) c) = false := by
        apply is_shutdown_all_echo_item
        rw [m2]
        exact h.fd c
      have hitems : shutdown_items s' = shutdown_items s +
          if s0.expected_clients ≤ ((done_senders (pre ++ [(c, 1, body)])).length : Int)
          then 1 else 0 := by
        rw [← hcount, q7, ← h.expected]
        by_cases hd : (mark_done s c).received_type1_count ≥ s.expected_clients
        · simp [shutdown_items, q1, List.countP_append, hecho, hd, is_shutdown_all_global_item]
        · simp [shutdown_items, q1, List.countP_append, hecho, hd]
      refine ⟨s', by simpa [process_message] using q0, ?_, ?_⟩
      · refine ⟨q5, q3, by rw [q6, h.expected], by rw [q2, m1, h.len], ?_, ?_, hcount, ?_⟩
        · intro c'; rw [q2, m2]; exact h.fd c'
        · intro c'' hc''
          rw [q2, m1] at hc''
          rw [q2, m3, mem_done_senders_snoc]
          have := h.flag c'' hc''
          by_cases e : c'' = c
          · subst e
            by_cases hz : (client s.cmem c'').sent_type1 = 0
            · simp [hz]
            · simp [hz]
          · simp [e, this]
        · intro hpos
          rw [hitems] at hpos
          rw [q6, h.expected]
          by_cases hd : s0.expected_clients ≤
              ((done_senders (pre ++ [(c, 1, body)])).length : Int)
          · exact hd
          · simp only [hd, if_false, add_zero] at hpos
            have := h.items hpos
            rw [h.expected] at this
            have hle : (done_senders pre).length ≤
                (done_senders (pre ++ [(c, 1, body)])).length := by
              rw [hlen]; omega
            omega
      · simpa using hitems
    · have hds : done_senders (pre ++ [(c, t, body)]) = done_senders pre := by
        rw [done_senders_snoc]; simp [h1]
      refine ⟨s, by simp [process_message, h0, h1], ?_, by simp [h1]⟩
      exact ⟨h.mtx, h.alloc, h.expected, h.len, h.fd, by rw [hds]; exact h.flag,
        by rw [hds]; exact h.count, by rw [hds]; exact h.items⟩

theorem handle_frames_snoc (s : State) (pre : List (Nat × Nat × List Nat))
    (f : Nat × Nat × List Nat) :
    handle_frames s (pre ++ [f]) =
      match handle_frames s pre with
      | .ret s1 => process_message s1 f.1 f.2.1 (f.2.1 :: f.2.2) 0 f.2.2.length
      | .blocked s1 => .blocked s1 := by
  induction pre generalizing s with
  | nil =>
    obtain ⟨c, t, body⟩ := f
    simp only [List.nil_append, handle_frames]
    cases process_message s c t (t :: body) 0 body.length <;> rfl
  | cons g pre ih =>
    obtain ⟨c, t, body⟩ := g
    simp only [List.cons_append, handle_frames]
    cases process_message s c t (t :: body) 0 body.length with
    | ret s1 => exact ih s1
    | blocked s1 => rfl

theorem client_of_forall (mem : List client_t) (P : client_t → Prop) (hz : P zero_client)
    (h : ∀ x ∈ mem, P x) (c : Nat) : P (client mem c) := by
  unfold client
  rw [List.getD_eq_getElem?_getD]
  by_cases hc : c < mem.length
  · simp only [List.getElem?_eq_getElem hc, Option.getD_some]
    exact h _ (List.getElem_mem hc)
  · simp only [List.getElem?_eq_none (by omega : mem.length ≤ c), Option.getD_none]
    exact hz

theorem DoneInv_init (s0 : State) (h0 : s0.received_type1_count = 0)
    (hflags : ∀ x ∈ s0.cmem, x.sent_type1 = 0) (hfd : ∀ x ∈ s0.cmem, 0 ≤ x.fd)
    (hmtx : s0.clients_mtx = false) (halloc : s0.alloc_fail = []) (hlog : s0.enqueued = []) :
    DoneInv s0 s0 [] := by
  refine ⟨hmtx, halloc, rfl, rfl, ?_, ?_, by simpa [done_senders] using h0, ?_⟩
  · exact client_of_forall s0.cmem (fun x => 0 ≤ x.fd) (by decide) hfd
  · intro c _
    have := client_of_forall s0.cmem (fun x => x.sent_type1 = 0) rfl hflags c
    simp [done_senders, this]
  · simp [shutdown_items, hlog]

theorem DoneInv_handle_frames (s0 : State) (frames : List (Nat × Nat × List Nat))
    (hinit : DoneInv s0 s0 []) (hvalid : ∀ f ∈ frames, f.1 < s0.cmem.length) :
    ∃ s, handle_frames s0 frames = .ret s ∧ DoneInv s0 s frames := by
  induction frames using List.reverseRecOn with
  | nil => exact ⟨s0, rfl, hinit⟩
  | append_singleton pre f ih =>
    obtain ⟨s1, hs1, hinv⟩ := ih (fun g hg => hvalid g (List.mem_append_left _ hg))
    obtain ⟨s2, hs2, hinv2, _⟩ := DoneInv_step s0 s1 pre f hinv
      (hvalid f (List.mem_append_right _ (List.mem_singleton_self f)))
    exact ⟨s2, by rw [handle_frames_snoc, hs1]; exact hs2, hinv2⟩

/-! ## Lemmas on the reachable states -/

theorem SameCount.refl (s : State) : SameCount s s := ⟨rfl, rfl, rfl, rfl⟩

theorem SameCount.trans {s t u : State} (h1 : SameCount s t) (h2 : SameCount t u) :
    SameCount s u :=
  ⟨h2.1.trans h1.1, h2.2.1.trans h1.2.1, h2.2.2.1.trans h1.2.2.1, h2.2.2.2.trans h1.2.2.2⟩

theorem CountInv.of_same {s t : State} (h : CountInv s) (hs : SameCount s t) : CountInv t := by
  obtain ⟨h1, h2, h3, h4⟩ := hs
  exact ⟨by rw [h1, h2]; exact h.count, by rw [h1, h3]; exact h.threads,
    by rw [h1, h4]; exact h.ids⟩

theorem calloc_msg_same (s : State) : SameCount s (calloc_msg s).2 := by
  unfold calloc_msg
  split <;> exact ⟨rfl, rfl, rfl, rfl⟩

theorem enqueue_msg_same (s : State) (m : Nat) : SameCount s (enqueue_msg s m) :=
  ⟨by simp, by simp, by simp, by simp⟩

theorem process_chat_same (s : State) (c : Nat) (buf : List Nat) (pos msglen : Nat) :
    SameCount s (process_chat s c buf pos msglen) := by
  have h := calloc_msg_same s
  unfold process_chat
  revert h
  cases calloc_msg s with
  | mk a s1 =>
    cases a with
    | none => exact fun h => h
    | some qm =>
      intro h
      exact SameCount.trans h
        (SameCount.trans ⟨rfl, rfl, rfl, rfl⟩ (enqueue_msg_same _ qm))

theorem enqueue_echo_same (s : State) (c : Nat) : SameCount s (enqueue_echo s c) := by
  have h := calloc_msg_same s
  unfold enqueue_echo
  revert h
  cases calloc_msg s with
  | mk a s1 =>
    cases a with
    | none => exact fun h => h
    | some qm =>
      intro h
      exact SameCount.trans h
        (SameCount.trans ⟨rfl, rfl, rfl, rfl⟩ (enqueue_msg_same _ qm))

theorem enqueue_global_same (s : State) : SameCount s (enqueue_global s) := by
  have h := calloc_msg_same s
  unfold enqueue_global
  revert h
  cases calloc_msg s with
  | mk a s1 =>
    cases a with
    | none => exact fun h => h
    | some qm =>
      intro h
      exact SameCount.trans h
        (SameCount.trans ⟨rfl, rfl, rfl, rfl⟩ (enqueue_msg_same _ qm))

theorem has_sent_done_client_getElem (mem : List client_t) (c : Nat) (hc : c < mem.length) :
    client mem c = mem[c] := by
  simp [client, List.getD_eq_getElem?_getD, List.getElem?_eq_getElem hc]

theorem mark_done_CountInv (s : State) (c : Nat) (h : CountInv s) (hc : c < s.cmem.length) :
    CountInv (mark_done s c) ∧ (mark_done s c).cmem.length = s.cmem.length := by
  unfold mark_done
  by_cases hz : (client s.cmem c).sent_type1 = 0
  · rw [if_pos hz]
    refine ⟨⟨?_, by simpa using h.threads, by simpa using h.ids⟩, by simp⟩
    simp only
    have h1 : has_sent_done s.cmem[c] = false := by
      rw [← has_sent_done_client_getElem _ _ hc]
      simp [has_sent_done, hz]
    have h2 : has_sent_done { client s.cmem c with sent_type1 := 1 } = true := by
      simp [has_sent_done]
    rw [List.countP_set _ _ _ _ hc, h.count, h1, h2]
    simp
  · rw [if_neg hz]
    exact ⟨h, rfl⟩

theorem process_done_CountInv (s : State) (c : Nat) (h : CountInv s) (hc : c < s.cmem.length) :
    Run.ends (fun t => CountInv t ∧ t.cmem.length = s.cmem.length) id (process_done s c) := by
  unfold process_done
  by_cases hm : s.clients_mtx = true
  · rw [if_pos hm]
    exact ⟨h, rfl⟩
  · rw [if_neg hm]
    obtain ⟨h1, hl⟩ := mark_done_CountInv s c h hc
    have e1 := enqueue_echo_same (mark_done s c) c
    have e2 := enqueue_global_same (enqueue_echo (mark_done s c) c)
    have h2 := h1.of_same e1
    simp only
    by_cases hd : decide ((mark_done s c).received_type1_count ≥
        (mark_done s c).expected_clients) = true
    · rw [if_pos hd]
      exact ⟨h2.of_same e2, by rw [id, e2.1, e1.1, hl]⟩
    · rw [if_neg hd]
      exact ⟨h2, by rw [id, e1.1, hl]⟩

theorem process_message_CountInv (s : State) (c type : Nat) (buf : List Nat) (pos msglen : Nat)
    (h : CountInv s) (hc : c < s.cmem.length) :
    Run.ends (fun t => CountInv t ∧ t.cmem.length = s.cmem.length) id
      (process_message s c type buf pos msglen) := by
  unfold process_message
  split
  · exact ⟨h.of_same (process_chat_same s c buf pos msglen), by
      rw [id, (process_chat_same s c buf pos msglen).1]⟩
  · split
    · exact process_done_CountInv s c h hc
    · exact ⟨h, rfl⟩

theorem process_loop_CountInv (k : Nat) (s : State) (c : Nat) (buf : List Nat) (pos : Nat)
    (h : CountInv s) (hc : c < s.cmem.length) :
    Run.ends (fun t => CountInv t ∧ t.cmem.length = s.cmem.length) Prod.fst
      (process_loop k s c buf pos) := by
  induction k generalizing s pos with
  | zero => exact ⟨h, rfl⟩
  | succ k ih =>
    unfold process_loop
    split
    · split
      · exact ⟨h, rfl⟩
      · simp only
        split
        · exact ⟨h, rfl⟩
        · next i _ =>
          have hp := process_message_CountInv s c (buf.getD pos 0) buf pos (i - (pos + 1) + 1) h hc
          revert hp
          cases process_message s c (buf.getD pos 0) buf pos (i - (pos + 1) + 1) with
          | ret s1 =>
            intro hp
            have hp1 : CountInv s1 := hp.1
            have hp2 : s1.cmem.length = s.cmem.length := hp.2
            have := ih s1 (i + 1) hp1 (by rw [hp2]; exact hc)
            show Run.ends _ Prod.fst (process_loop k s1 c buf (i + 1))
            revert this
            cases process_loop k s1 c buf (i + 1) with
            | ret r => intro this; exact ⟨this.1, this.2.trans hp2⟩
            | blocked r => intro this; exact ⟨this.1, this.2.trans hp2⟩
          | blocked s1 => exact fun hp => hp
    · exact ⟨h, rfl⟩

theorem remove_client_by_fd_same (s : State) (fd : Int) :
    Run.ends (SameCount s) id (remove_client_by_fd s fd) := by
  unfold remove_client_by_fd
  split
  · exact SameCount.refl s
  · exact ⟨rfl, rfl, rfl, rfl⟩

theorem send_all_same (buf : List Nat) (total : Nat) (l : List Nat)
    (net : List (List send_result)) (s : State) :
    Run.ends (SameCount s) Prod.fst (send_all buf total l net s) := by
  induction l generalizing net s with
  | nil => exact SameCount.refl s
  | cons c rest ih =>
    unfold send_all
    simp only
    cases robust_send total (net.headD []) with
    | mk v left =>
      cases v with
      | none => exact ⟨rfl, rfl, rfl, rfl⟩
      | some v =>
        have hw : SameCount s
            (log_send s (client s.cmem c).fd (buf.take (total - left))) :=
          ⟨rfl, rfl, rfl, rfl⟩
        simp only
        split
        · have hr := remove_client_by_fd_same
            (log_send s (client s.cmem c).fd (buf.take (total - left)))
            (client s.cmem c).fd
          revert hr
          cases remove_client_by_fd
            (log_send s (client s.cmem c).fd (buf.take (total - left)))
            (client s.cmem c).fd with
          | ret s2 =>
            intro hr
            have h2 : SameCount s s2 := hw.trans hr
            have := ih net.tail s2
            show Run.ends _ Prod.fst (send_all buf total rest net.tail s2)
            revert this
            cases send_all buf total rest net.tail s2 with
            | ret r => exact fun this => h2.trans this
            | blocked r => exact fun this => h2.trans this
          | blocked s2 => exact fun hr => hw.trans hr
        · have := ih net.tail
            (log_send s (client s.cmem c).fd (buf.take (total - left)))
          revert this
          cases send_all buf total rest net.tail
            (log_send s (client s.cmem c).fd (buf.take (total - left))) with
          | ret r => exact fun this => hw.trans this
          | blocked r => exact fun this => hw.trans this

theorem malloc_buf_same (s : State) : SameCount s (malloc_buf s).2 := by
  unfold malloc_buf
  split <;> exact ⟨rfl, rfl, rfl, rfl⟩

theorem client_fd_exists_same (s : State) (fd : Int) :
    Run.ends (SameCount s) (fun _ => s) (client_fd_exists s fd) := by
  unfold client_fd_exists
  split <;> exact SameCount.refl s

theorem broadcaster_item_same (s : State) (m : Nat) (net : List (List send_result)) :
    Run.ends (SameCount s) Prod.fst (broadcaster_item s m net) := by
  unfold broadcaster_item
  simp only
  split
  · have ha := malloc_buf_same s
    revert ha
    cases malloc_buf s with
    | mk ok s1 =>
      intro ha
      cases ok with
      | false => exact ha
      | true =>
        simp only
        split
        · exact ha
        · have hs := send_all_same (relay_frame (node s.qmem m)) (relay_total (node s.qmem m))
            s1.clients net { s1 with clients_mtx := true }
          revert hs
          cases send_all (relay_frame (node s.qmem m)) (relay_total (node s.qmem m))
            s1.clients net { s1 with clients_mtx := true } with
          | ret r =>
            intro hs
            exact ha.trans ((SameCount.trans ⟨rfl, rfl, rfl, rfl⟩ hs).trans ⟨rfl, rfl, rfl, rfl⟩)
          | blocked r =>
            intro hs
            exact ha.trans (SameCount.trans ⟨rfl, rfl, rfl, rfl⟩ hs)
  · split
    · split
      · split
        · exact SameCount.refl s
        · have hs := send_all_same [1, NL] 2 s.clients net { s with clients_mtx := true }
          revert hs
          cases send_all [1, NL] 2 s.clients net { s with clients_mtx := true } with
          | ret r =>
            intro hs
            have h1 : SameCount s { r.1 with clients_mtx := false, server_running := false } :=
              (SameCount.trans ⟨rfl, rfl, rfl, rfl⟩ hs).trans ⟨rfl, rfl, rfl, rfl⟩
            simp only
            split
            · exact h1.trans ⟨rfl, rfl, rfl, rfl⟩
            · exact h1
          | blocked r =>
            intro hs
            exact SameCount.trans ⟨rfl, rfl, rfl, rfl⟩ hs
      · split
        · have he := client_fd_exists_same s (node s.qmem m).sender_fd
          revert he
          cases client_fd_exists s (node s.qmem m).sender_fd with
          | blocked s1 => exact fun he => he
          | ret e =>
            intro _
            simp only
            split
            · cases robust_send 2 (net.headD []) with
              | mk v left =>
                cases v with
                | none => exact ⟨rfl, rfl, rfl, rfl⟩
                | some v =>
                  have hw : SameCount s
                      (log_send s (node s.qmem m).sender_fd ([1, NL].take (2 - left))) :=
                    ⟨rfl, rfl, rfl, rfl⟩
                  have hr := remove_client_by_fd_same
                    (log_send s (node s.qmem m).sender_fd ([1, NL].take (2 - left)))
                    (node s.qmem m).sender_fd
                  simp only
                  split <;>
                  · revert hr
                    cases remove_client_by_fd
                      (log_send s (node s.qmem m).sender_fd ([1, NL].take (2 - left)))
                      (node s.qmem m).sender_fd with
                    | ret s2 => exact fun hr => hw.trans hr
                    | blocked s2 => exact fun hr => hw.trans hr
            · exact SameCount.refl s
        · exact SameCount.refl s
    · exact SameCount.refl s

theorem dequeue_msg_same (s : State) :
    ∀ r, dequeue_msg s = some r → SameCount s r.2 := by
  intro r hr
  unfold dequeue_msg at hr
  split at hr
  · split at hr
    · exact absurd hr (by simp)
    · cases hr; exact SameCount.refl s
  · simp only at hr
    split at hr <;> (cases hr; exact ⟨rfl, rfl, rfl, rfl⟩)

theorem broadcaster_turn_same (s : State) (net : List (List send_result)) :
    SameCount s (broadcaster_turn s net).1 := by
  unfold broadcaster_turn
  split
  · exact SameCount.refl s
  · split
    · exact ⟨rfl, rfl, rfl, rfl⟩
    · have hd := dequeue_msg_same s
      revert hd
      cases dequeue_msg s with
      | none => exact fun _ => SameCount.refl s
      | some r =>
        obtain ⟨m, s1⟩ := r
        intro hd
        have h1 : SameCount s s1 := hd (m, s1) rfl
        cases m with
        | none => exact h1
        | some m =>
          have hb := broadcaster_item_same s1 m net
          simp only
          revert hb
          cases broadcaster_item s1 m net with
          | ret r => exact fun hb => h1.trans hb
          | blocked s2 => exact fun hb => (h1.trans hb).trans ⟨rfl, rfl, rfl, rfl⟩

theorem CountInv.set_rx {s : State} (h : CountInv s) (c : Nat) (x : rx_locals) :
    CountInv { s with rx := s.rx.set c x } :=
  ⟨h.count, by simpa using h.threads, h.ids⟩

theorem recv_turn_CountInv (s : State) (c : Nat) (r : recv_result) (h : CountInv s) :
    CountInv (recv_turn s c r) := by
  unfold recv_turn
  simp only
  split
  · exact h
  · next hrun =>
    have hc : c < s.cmem.length := by
      by_contra hn
      apply hrun
      have : s.rx.length ≤ c := by have := h.threads; omega
      simp [rx_of, List.getD_eq_getElem?_getD, List.getElem?_eq_none this]
    split
    · have hr := remove_client_by_fd_same s (client s.cmem c).fd
      revert hr
      cases remove_client_by_fd s (client s.cmem c).fd with
      | ret s1 => exact fun hr => (h.of_same hr).set_rx c _
      | blocked s1 => exact fun hr => (h.of_same hr).set_rx c _
    · have hp := process_loop_CountInv
        ((rx_of s c).buf ++ r.stored (RX_BUF_SIZE - (rx_of s c).buf.length)).length s c
        ((rx_of s c).buf ++ r.stored (RX_BUF_SIZE - (rx_of s c).buf.length)) 0 h hc
      unfold process_buffer
      revert hp
      cases process_loop _ s c _ 0 with
      | ret p =>
        obtain ⟨s1, pos⟩ := p
        exact fun hp => (hp.1).set_rx c _
      | blocked s1 => exact fun hp => (hp.1).set_rx c _

theorem accept_loop_test_same (s : State) : SameCount s (accept_loop_test s) := by
  unfold accept_loop_test
  split <;> exact ⟨rfl, rfl, rfl, rfl⟩

theorem accept_turn_CountInv (s : State) (fd : Int) (cliaddr : sockaddr_in) (errno : Int)
    (h : CountInv s) : CountInv (accept_turn s fd cliaddr errno) := by
  have hnew : ∀ (rest : List Bool),
      CountInv { s with
        cmem := (s.cmem ++ [zero_client]).set s.cmem.length
          { client (s.cmem ++ [zero_client]) s.cmem.length with
            fd := fd, addr := cliaddr, id := s.client_id, sent_type1 := 0 },
        alloc_fail := rest, client_id := s.client_id + 1 } := by
    intro rest
    refine ⟨?_, ?_, ?_⟩
    · simp [h.count, has_sent_done]
    · have := h.threads
      simp only [List.length_set, List.length_append, List.length_singleton]
      omega
    · simp [h.ids]
  have hadd : ∀ s1 : State, CountInv s1 → s1.rx.length ≤ s.rx.length →
      s.cmem.length < s1.cmem.length →
      CountInv (match add_client s1 s.cmem.length with
        | .ret s2 => accept_loop_test { s2 with rx := s2.rx ++ [{ buf := [], status := .running }] }
        | .blocked s2 => { s2 with main_status := .stuck }) := by
    intro s1 h1 hrx hlen
    by_cases hmx : s1.clients_mtx = true
    · simp only [add_client, hmx, if_true]
      exact h1.of_same ⟨rfl, rfl, rfl, rfl⟩
    · simp only [add_client, hmx]
      refine CountInv.of_same ?_ (accept_loop_test_same _)
      refine ⟨h1.count, ?_, h1.ids⟩
      have := h.threads
      simp only [List.length_append, List.length_singleton]
      omega
  unfold accept_turn
  by_cases hm : s.main_status ≠ .running
  · rw [if_pos hm]
    exact h
  · rw [if_neg hm]
    by_cases hfd : fd < 0
    · rw [if_pos hfd]
      split
      · exact h.of_same ⟨rfl, rfl, rfl, rfl⟩
      · split
        · exact h.of_same (accept_loop_test_same s)
        · exact h.of_same ⟨rfl, rfl, rfl, rfl⟩
    · rw [if_neg hfd]
      rcases hA : s.alloc_fail with _ | ⟨b, rest⟩
      · simp only [calloc_client, hA]
        exact hadd _ (hnew []) (le_refl _) (by simp)
      · cases b
        · simp only [calloc_client, hA]
          exact hadd _ (hnew rest) (le_refl _) (by simp)
        · simp only [calloc_client, hA]
          exact h.of_same (SameCount.trans ⟨rfl, rfl, rfl, rfl⟩ (accept_loop_test_same _))

theorem step_CountInv (s : State) (e : Event) (h : CountInv s) : CountInv (step s e) := by
  cases e with
  | accept fd cliaddr errno => exact accept_turn_CountInv s fd cliaddr errno h
  | recv c r => exact recv_turn_CountInv s c r h
  | broadcast net => exact h.of_same (broadcaster_turn_same s net)

theorem foldl_step_CountInv (evs : List Event) (s : State) (h : CountInv s) :
    CountInv (evs.foldl step s) := by
  induction evs generalizing s with
  | nil => exact h
  | cons e evs ih => exact ih _ (step_CountInv s e h)

theorem run_CountInv (expected : Int) (allocs : List Bool) (evs : List Event) :
    CountInv (run expected allocs evs) :=
  foldl_step_CountInv evs _ ⟨rfl, by simp [init], rfl⟩

/-! ## Lemmas on the receive loop -/

theorem scan_nl_none (p : List Nat) (i : Nat) (hp : ∀ b ∈ p, b ≠ NL) : scan_nl p i = none := by
  induction p generalizing i with
  | nil => rfl
  | cons b p ih =>
    have hb : b ≠ NL := hp b (List.mem_cons_self b p)
    rw [scan_nl, if_neg hb]
    exact ih (i + 1) (fun x hx => hp x (List.mem_cons_of_mem b hx))

theorem scan_nl_found (p rest : List Nat) (i : Nat) (hp : ∀ b ∈ p, b ≠ NL) :
    scan_nl (p ++ NL :: rest) i = some (i + p.length) := by
  induction p generalizing i with
  | nil => simp [scan_nl]
  | cons b p ih =>
    have hb : b ≠ NL := hp b (List.mem_cons_self b p)
    have := ih (i + 1) (fun x hx => hp x (List.mem_cons_of_mem b hx))
    show scan_nl (b :: (p ++ NL :: rest)) i = _
    rw [scan_nl, if_neg hb, this, List.length_cons]
    congr 1
    omega

/-- The loop over a buffer that holds one complete message and nothing more
handles that message and stops at the end of the buffer. -/
theorem process_buffer_one_frame (s : State) (c t : Nat) (p : List Nat)
    (hp : ∀ b ∈ p, b ≠ NL) :
    process_buffer s c (t :: p ++ [NL]) =
      match process_message s c t (t :: p ++ [NL]) 0 (p.length + 1) with
      | .ret s1 => .ret (s1, p.length + 2)
      | .blocked s1 => .blocked s1 := by
  have hlen : (t :: p ++ [NL]).length = (p.length + 1) + 1 := by simp
  unfold process_buffer
  rw [hlen, process_loop]
  have h1 : 0 < (t :: p ++ [NL]).length := by simp
  have h2 : ¬ (0 + 1 > (t :: p ++ [NL]).length) := by simp
  have h3 : scan_nl ((t :: p ++ [NL]).drop (0 + 1)) (0 + 1) = some (p.length + 1) := by
    have := scan_nl_found p [] 1 hp
    simp only [List.cons_append, List.drop_succ_cons, List.drop_zero, zero_add]
    rw [this]
    congr 1
    omega
  rw [if_pos h1, if_neg h2]
  simp only [h3]
  have h4 : (t :: p ++ [NL]).getD 0 0 = t := by simp
  have h5 : p.length + 1 - (0 + 1) + 1 = p.length + 1 := by omega
  rw [h4, h5]
  cases process_message s c t (t :: p ++ [NL]) 0 (p.length + 1) with
  | blocked s1 => rfl
  | ret s1 =>
    simp only
    cases hk : p.length + 1 with
    | zero => omega
    | succ k =>
      rw [process_loop]
      have : ¬ (k + 1 + 1 < (t :: p ++ [NL]).length) := by simp; omega
      rw [if_neg this]
      congr 2
      omega

/-- The loop over a buffer with no `'\n'` after its first byte handles nothing. -/
theorem process_buffer_no_frame (s : State) (c t : Nat) (p : List Nat)
    (hp : ∀ b ∈ p, b ≠ NL) :
    process_buffer s c (t :: p) = .ret (s, 0) := by
  unfold process_buffer
  simp only [List.length_cons]
  rw [process_loop]
  have h3 : scan_nl p 1 = none := scan_nl_none p 1 hp
  simp [h3]

theorem rx_of_running_lt (s : State) (c : Nat) (b : List Nat)
    (h : rx_of s c = { buf := b, status := .running }) : c < s.rx.length := by
  by_contra hn
  have : s.rx.length ≤ c := by omega
  simp [rx_of, List.getD_eq_getElem?_getD, List.getElem?_eq_none this] at h

theorem rx_of_set (s : State) (c : Nat) (x : rx_locals) (hc : c < s.rx.length) :
    rx_of { s with rx := s.rx.set c x } c = x := by
  simp [rx_of, List.getD_eq_getElem?_getD, List.getElem?_set, hc]

/-- A `recv` that leaves the buffer without a `'\n'` after its first byte only
grows the buffer. -/
theorem recv_turn_partial (s : State) (c t : Nat) (b0 d tl q : List Nat)
    (hloc : rx_of s c = { buf := b0, status := .running }) (hd : d ≠ [])
    (hfit : b0.length + d.length ≤ RX_BUF_SIZE) (hbuf : b0 ++ d ++ tl = t :: q)
    (hq : ∀ b ∈ q, b ≠ NL) :
    recv_turn s c (.data d) = { s with rx := s.rx.set c { buf := b0 ++ d, status := .running } } := by
  have htake : d.take (RX_BUF_SIZE - b0.length) = d := List.take_of_length_le (by omega)
  have hpos : 0 < d.length := List.length_pos.mpr hd
  obtain ⟨q', hq', hsub⟩ : ∃ q', b0 ++ d = t :: q' ∧ ∀ b ∈ q', b ≠ NL := by
    cases hbd : b0 ++ d with
    | nil =>
      rw [List.append_eq_nil] at hbd
      exact absurd hbd.2 hd
    | cons t' q' =>
      rw [hbd] at hbuf
      simp only [List.cons_append, List.cons.injEq] at hbuf
      refine ⟨q', by rw [hbuf.1], fun b hb => hq b ?_⟩
      rw [← hbuf.2]
      exact List.mem_append_left _ hb
  unfold recv_turn
  simp only [hloc, recv_result.n, recv_result.stored, htake, ne_eq, not_true_eq_false, if_false]
  have hn : ¬ ((d.length : Int) ≤ 0) := by omega
  rw [if_neg hn, hq', process_buffer_no_frame s c t q' hsub]
  simp

/-- A `recv` that completes the one message in the buffer: the message is
handled and the buffer is empty again. -/
theorem recv_turn_complete (s : State) (c t : Nat) (b0 d p : List Nat)
    (hloc : rx_of s c = { buf := b0, status := .running }) (hd : d ≠ [])
    (hfit : b0.length + d.length ≤ RX_BUF_SIZE) (hbuf : b0 ++ d = t :: p ++ [NL])
    (hp : ∀ b ∈ p, b ≠ NL) :
    recv_turn s c (.data d) =
      match process_message s c t (t :: p ++ [NL]) 0 (p.length + 1) with
      | .ret s1 => { s1 with rx := s1.rx.set c { buf := [], status := .running } }
      | .blocked s1 =>
        { s1 with rx := s1.rx.set c { buf := t :: p ++ [NL], status := .stuck } } := by
  have htake : d.take (RX_BUF_SIZE - b0.length) = d := List.take_of_length_le (by omega)
  have hpos : 0 < d.length := List.length_pos.mpr hd
  unfold recv_turn
  simp only [hloc, recv_result.n, recv_result.stored, htake, ne_eq, not_true_eq_false, if_false]
  have hn : ¬ ((d.length : Int) ≤ 0) := by omega
  rw [if_neg hn, hbuf, process_buffer_one_frame s c t p hp]
  cases process_message s c t (t :: p ++ [NL]) 0 (p.length + 1) with
  | ret s1 => simp
  | blocked s1 => rfl

/-- A `recv` on a full buffer is asked for no byte, gives `n <= 0` whatever
arrives, and the receiver removes its client and returns. -/
theorem recv_turn_full (s : State) (c : Nat) (b0 : List Nat) (r : recv_result)
    (hloc : rx_of s c = { buf := b0, status := .running }) (hfull : RX_BUF_SIZE ≤ b0.length)
    (hm : s.clients_mtx = false) :
    recv_turn s c r =
      { s with clients := (remove_loop s.cmem (client s.cmem c).fd s.clients).1,
               closed := s.closed ++ (remove_loop s.cmem (client s.cmem c).fd s.clients).2,
               rx := s.rx.set c { buf := b0, status := .returned } } := by
  have hroom : RX_BUF_SIZE - b0.length = 0 := by omega
  have hn : r.n 0 ≤ 0 := by
    cases r <;> simp [recv_result.n]
  unfold recv_turn
  simp only [hloc, hroom, hn, if_true, remove_client_by_fd, hm, ne_eq, not_true_eq_false,
    if_false]
  rfl

theorem rx_set_self (s : State) (c : Nat) (x : rx_locals) (h : rx_of s c = x)
    (hc : c < s.rx.length) : s.rx.set c x = s.rx := by
  apply List.ext_getElem?
  intro i
  rw [List.getElem?_set]
  by_cases hi : c = i
  · subst hi
    simp only [hc, if_true]
    rw [← h]
    simp [rx_of, List.getD_eq_getElem?_getD, List.getElem?_eq_getElem hc]
  · simp [hi]

theorem process_chat_with_rx (s : State) (c : Nat) (buf : List Nat) (pos msglen : Nat)
    (r : List rx_locals) :
    process_chat { s with rx := r } c buf pos msglen =
      { process_chat s c buf pos msglen with rx := r } := by
  rcases s with ⟨cmem, qmem, af, cl, mtx, qh, qt, ec, rc, sr, lf, ci, ms, bs, rx, closed, wire,
    enq, held⟩
  rcases af with _ | ⟨_ | _, rest⟩ <;> cases qt <;> rfl

theorem process_chat_rx (s : State) (c : Nat) (buf : List Nat) (pos msglen : Nat) :
    (process_chat s c buf pos msglen).rx = s.rx := by
  rcases s with ⟨cmem, qmem, af, cl, mtx, qh, qt, ec, rc, sr, lf, ci, ms, bs, rx, closed, wire,
    enq, held⟩
  rcases af with _ | ⟨_ | _, rest⟩ <;> cases qt <;> rfl

/-- Reads that together leave the buffer without a `'\n'` after its first byte
only fill the buffer. -/
theorem recv_turns_partial (chunks : List (List Nat)) (s : State) (c t : Nat)
    (b0 tl q : List Nat) (hloc : rx_of s c = { buf := b0, status := .running })
    (hne : ∀ d ∈ chunks, d ≠ []) (hfit : b0.length + chunks.flatten.length ≤ RX_BUF_SIZE)
    (hbuf : b0 ++ chunks.flatten ++ tl = t :: q) (hq : ∀ b ∈ q, b ≠ NL) :
    recv_turns s c (chunks.map .data) =
      { s with rx := s.rx.set c { buf := b0 ++ chunks.flatten, status := .running } } := by
  have hc := rx_of_running_lt s c b0 hloc
  induction chunks generalizing s b0 with
  | nil =>
    simp only [List.map_nil, recv_turns, List.foldl_nil, List.flatten_nil, List.append_nil]
    rw [rx_set_self s c _ hloc hc]
  | cons d rest ih =>
    have hd : d ≠ [] := hne d (List.mem_cons_self d rest)
    simp only [List.flatten_cons, List.length_append] at hfit
    have h1 := recv_turn_partial s c t b0 d (rest.flatten ++ tl) q hloc hd (by omega)
      (by simpa [List.append_assoc] using hbuf) hq
    have h2 := ih { s with rx := s.rx.set c { buf := b0 ++ d, status := .running } } (b0 ++ d)
      (rx_of_set s c _ hc) (fun x hx => hne x (List.mem_cons_of_mem d hx))
      (by simp only [List.length_append]; omega)
      (by simpa [List.append_assoc] using hbuf) (by simpa using hc)
    simp only [recv_turns, List.map_cons, List.foldl_cons] at h2 ⊢
    rw [h1, h2]
    simp [List.set_set, List.append_assoc]

/-- A complete chat frame that fits the buffer, arriving in any non-empty reads
into an empty buffer, makes the receiver run the branch `type == 0` once, on
the whole frame. -/
theorem recv_turns_chat_frame (chunks : List (List Nat)) (s : State) (c : Nat) (p : List Nat)
    (hloc : rx_of s c = { buf := [], status := .running }) (hp : ∀ b ∈ p, b ≠ NL)
    (hfit : p.length + 2 ≤ RX_BUF_SIZE) (hne : ∀ d ∈ chunks, d ≠ [])
    (hchunks : chunks.flatten = 0 :: p ++ [NL]) :
    recv_turns s c (chunks.map .data) =
      { process_chat s c (0 :: p ++ [NL]) 0 (p.length + 1) with
        rx := s.rx.set c { buf := [], status := .running } } := by
  have hc := rx_of_running_lt s c [] hloc
  rcases List.eq_nil_or_concat chunks with h | ⟨init, last, h⟩
  · subst h
    simp at hchunks
  · rw [List.concat_eq_append] at h
    subst h
    have hlast : last ≠ [] := hne last (by simp)
    rw [List.flatten_append, List.flatten_cons, List.flatten_nil, List.append_nil] at hchunks
    obtain ⟨last', hl'⟩ : ∃ last', last = last' ++ [NL] := by
      rcases List.eq_nil_or_concat last with h | ⟨l', b, h⟩
      · exact absurd h hlast
      · rw [List.concat_eq_append] at h
        rw [h, ← List.append_assoc] at hchunks
        have hchunks' : (init.flatten ++ l') ++ [b] = (0 :: p) ++ [NL] := hchunks
        have hb := (List.append_inj' hchunks' rfl).2
        simp only [List.cons.injEq, and_true] at hb
        exact ⟨l', by rw [h, hb]⟩
    have hpre : init.flatten ++ last' = 0 :: p := by
      rw [hl', ← List.append_assoc] at hchunks
      have hchunks' : (init.flatten ++ last') ++ [NL] = (0 :: p) ++ [NL] := hchunks
      exact (List.append_inj' hchunks' rfl).1
    have hlen : init.flatten.length + last'.length = p.length + 1 := by
      have := congrArg List.length hpre
      rw [List.length_append, List.length_cons] at this
      exact this
    have h1 := recv_turns_partial init s c 0 [] last' p hloc
      (fun x hx => hne x (List.mem_append_left _ hx))
      (by simp only [List.length_nil, Nat.zero_add]; omega)
      (by simpa using hpre) hp
    simp only [List.nil_append] at h1
    have h2 := recv_turn_complete
      { s with rx := s.rx.set c { buf := init.flatten, status := .running } } c 0
      init.flatten last p (rx_of_set s c _ hc) hlast
      (by rw [hl']; simp only [List.length_append, List.length_singleton]; omega)
      (by rw [hchunks]) hp
    simp only [recv_turns, List.map_append, List.foldl_append, List.map_cons, List.map_nil,
      List.foldl_cons, List.foldl_nil] at h1 ⊢
    rw [h1, h2]
    simp only [process_message, if_true]
    rw [process_chat_with_rx]
    simp [List.set_set]

/-- A chat frame too long for the buffer: once the buffer is full without a
`'\n'`, the next `recv` makes the receiver remove its client. -/
theorem recv_turns_oversized (chunks : List (List Nat)) (s : State) (c : Nat) (p : List Nat)
    (r : recv_result) (hloc : rx_of s c = { buf := [], status := .running })
    (hm : s.clients_mtx = false) (hp : ∀ b ∈ p, b ≠ NL) (hlen : RX_BUF_SIZE - 1 ≤ p.length)
    (hne : ∀ d ∈ chunks, d ≠ []) (hchunks : chunks.flatten = (0 :: p).take RX_BUF_SIZE) :
    recv_turns s c (chunks.map .data ++ [r]) =
      { s with clients := (remove_loop s.cmem (client s.cmem c).fd s.clients).1,
               closed := s.closed ++ (remove_loop s.cmem (client s.cmem c).fd s.clients).2,
               rx := s.rx.set c { buf := (0 :: p).take RX_BUF_SIZE, status := .returned } } := by
  have hc := rx_of_running_lt s c [] hloc
  have hflen : chunks.flatten.length = RX_BUF_SIZE := by
    rw [hchunks, List.length_take, List.length_cons]
    have : RX_BUF_SIZE = 1040 := rfl
    omega
  have h1 := recv_turns_partial chunks s c 0 [] ((0 :: p).drop RX_BUF_SIZE) p hloc hne
    (by rw [hflen]; simp)
    (by rw [hchunks]; simp only [List.nil_append]; exact List.take_append_drop _ _) hp
  simp only [List.nil_append] at h1
  have h2 := recv_turn_full
    { s with rx := s.rx.set c { buf := chunks.flatten, status := .running } } c chunks.flatten r
    (rx_of_set s c _ hc) (by rw [hflen]) hm
  simp only [recv_turns, List.foldl_append, List.foldl_cons, List.foldl_nil] at h1 ⊢
  rw [h1, h2, hchunks]
  simp [List.set_set]

/-- A frame of any type too long for the buffer: once the buffer is full without
a `'\n'`, the next `recv` makes the receiver remove its client. -/
theorem recv_turns_oversized_any (chunks : List (List Nat)) (s : State) (c t : Nat)
    (p : List Nat) (r : recv_result) (hloc : rx_of s c = { buf := [], status := .running })
    (hm : s.clients_mtx = false) (hp : ∀ b ∈ p, b ≠ NL) (hlen : RX_BUF_SIZE - 1 ≤ p.length)
    (hne : ∀ d ∈ chunks, d ≠ []) (hchunks : chunks.flatten = (t :: p).take RX_BUF_SIZE) :
    recv_turns s c (chunks.map .data ++ [r]) =
      { s with clients := (remove_loop s.cmem (client s.cmem c).fd s.clients).1,
               closed := s.closed ++ (remove_loop s.cmem (client s.cmem c).fd s.clients).2,
               rx := s.rx.set c { buf := (t :: p).take RX_BUF_SIZE, status := .returned } } := by
  have hc := rx_of_running_lt s c [] hloc
  have hflen : chunks.flatten.length = RX_BUF_SIZE := by
    rw [hchunks, List.length_take, List.length_cons]
    have : RX_BUF_SIZE = 1040 := rfl
    omega
  have h1 := recv_turns_partial chunks s c t [] ((t :: p).drop RX_BUF_SIZE) p hloc hne
    (by rw [hflen]; simp)
    (by rw [hchunks]; simp only [List.nil_append]; exact List.take_append_drop _ _) hp
  simp only [List.nil_append] at h1
  have h2 := recv_turn_full
    { s with rx := s.rx.set c { buf := chunks.flatten, status := .running } } c chunks.flatten r
    (rx_of_set s c _ hc) (by rw [hflen]) hm
  simp only [recv_turns, List.foldl_append, List.foldl_cons, List.foldl_nil] at h1 ⊢
  rw [h1, h2, hchunks]
  simp [List.set_set]

/-! ## Lemmas on the client's decoding and on the registry -/

theorem c_string_payload (p : List Nat) (rest : List Nat) (hp : ∀ b ∈ p, b ≠ 0) :
    c_string (p ++ 0 :: rest) = p := by
  induction p with
  | nil => simp [c_string]
  | cons b p ih =>
    have hb : b ≠ 0 := hp b (List.mem_cons_self b p)
    have h := ih (fun x hx => hp x (List.mem_cons_of_mem b hx))
    simp only [c_string] at h ⊢
    simp only [List.cons_append, List.takeWhile_cons, hb, ne_eq, not_false_eq_true,
      decide_True, if_true, h]

/-- The line the client logs for a buffer that starts with a relay frame whose
payload, at most 1023 bytes, has neither `'\n'` nor NUL. -/
theorem client_chat_line_relay (ip : in_addr_t) (port : in_port_t) (p : List Nat)
    (hp : ∀ b ∈ p, b ≠ 0) (hlen : p.length ≤ 1023) :
    client_chat_line ([0] ++ ip.bytes ++ port.bytes ++ p ++ [NL]) 0 (p.length + 7) =
      { ip := ip, port := ntohs port, chat := p } := by
  have hle : ¬ (p.length + 7 - 6 > MAX_MSG_SIZE) := by
    have : MAX_MSG_SIZE = 1024 := rfl
    omega
  have hpos : p.length + 7 - 6 > 0 := by omega
  have hsub : p.length + 7 - 6 - 1 = p.length := by omega
  have hchat : (([0] ++ ip.bytes ++ port.bytes ++ p ++ [NL]).drop (0 + 7)).take (p.length + 7 - 6)
      ++ [0] = p ++ [NL, 0] := by
    have : p.length + 7 - 6 = (p ++ [NL]).length := by simp
    simp only [in_addr_t.bytes, in_port_t.bytes, List.cons_append, List.nil_append, zero_add,
      List.drop_succ_cons, List.drop_zero, List.append_assoc]
    rw [this, List.take_length]
    simp
  simp only [client_chat_line, if_neg hle, hchat, hsub]
  have hget : (p ++ [NL, 0]).getD p.length 0 = NL := by
    rw [List.getD_eq_getElem?_getD, List.getElem?_append_right (le_refl _)]
    simp
  have hset : (p ++ [NL, 0]).set p.length 0 = p ++ 0 :: [0] := by
    rw [List.set_append_right _ _ (le_refl _)]
    simp
  rw [if_pos ⟨hpos, hget⟩, hset, c_string_payload p [0] hp]
  simp [in_addr_t.bytes, in_port_t.bytes]

/-- The client's loop over a buffer that holds exactly one relay frame whose six
header bytes and payload have no `'\n'` and whose payload has no NUL logs one
line, with the sender's address, port and payload. -/
theorem client_decode_relay (ip : in_addr_t) (port : in_port_t) (p : List Nat)
    (hh : ∀ b ∈ ip.bytes ++ port.bytes, b ≠ NL) (hp : ∀ b ∈ p, b ≠ NL ∧ b ≠ 0)
    (hlen : p.length ≤ 1023) :
    client_decode ([0] ++ ip.bytes ++ port.bytes ++ p ++ [NL]) =
      ([{ ip := ip, port := ntohs port, chat := p }], p.length + 8, false) := by
  have hline := client_chat_line_relay ip port p (fun b hb => (hp b hb).2) hlen
  have hflen : ([0] ++ ip.bytes ++ port.bytes ++ p ++ [NL]).length = (p.length + 7) + 1 := by
    simp [in_addr_t.bytes, in_port_t.bytes]
  have hq : ∀ b ∈ ip.bytes ++ port.bytes ++ p, b ≠ NL := by
    intro b hb
    rcases List.mem_append.mp hb with h | h
    · exact hh b h
    · exact (hp b h).1
  have hscan : scan_nl (([0] ++ ip.bytes ++ port.bytes ++ p ++ [NL]).drop (0 + 1)) (0 + 1) =
      some (p.length + 7) := by
    have := scan_nl_found (ip.bytes ++ port.bytes ++ p) [] 1 hq
    have e : ([0] ++ ip.bytes ++ port.bytes ++ p ++ [NL]).drop (0 + 1) =
        ip.bytes ++ port.bytes ++ p ++ [NL] := by simp
    rw [e, this]
    simp [in_addr_t.bytes, in_port_t.bytes]
    omega
  unfold client_decode
  rw [hflen, client_loop]
  have h1 : 0 < ([0] ++ ip.bytes ++ port.bytes ++ p ++ [NL]).length := by rw [hflen]; omega
  have h2 : ¬ (0 + 1 > ([0] ++ ip.bytes ++ port.bytes ++ p ++ [NL]).length) := by
    rw [hflen]; omega
  have h3 : ([0] ++ ip.bytes ++ port.bytes ++ p ++ [NL]).getD 0 0 = 0 := by simp
  have h4 : p.length + 7 - (0 + 1) + 1 = p.length + 7 := by omega
  have h5 : ¬ (p.length + 7 < 6) := by omega
  rw [if_pos h1, if_neg h2]
  simp only [hscan, h3, h4, if_true, if_neg h5, hline, List.nil_append]
  rw [client_loop]
  have h6 : ¬ (p.length + 7 + 1 < ([0] ++ ip.bytes ++ port.bytes ++ p ++ [NL]).length) := by
    rw [hflen]; omega
  rw [if_neg h6]

theorem relay_frame_chat_item (s : State) (c : Nat) (p : List Nat) (hlen : p.length ≤ 1023) :
    relay_frame (chat_item s c (0 :: p ++ [NL]) 0 (p.length + 1)) =
      [0] ++ (client s.cmem c).addr.s_addr.bytes ++ (client s.cmem c).addr.sin_port.bytes ++
        p ++ [NL] := by
  have hle : ¬ (p.length + 1 > MAX_MSG_SIZE) := by
    have : MAX_MSG_SIZE = 1024 := rfl
    omega
  simp only [relay_frame, chat_item, if_neg hle, zero_add, List.cons_append,
    List.drop_succ_cons, List.drop_zero]
  rw [List.take_of_length_le (l := p ++ [NL]) (by simp),
    List.take_of_length_le (l := p ++ [NL]) (by simp)]
  simp

theorem remove_loop_absent (mem : List client_t) (fd : Int) (l : List Nat)
    (h : ∀ p ∈ l, (client mem p).fd ≠ fd) : remove_loop mem fd l = (l, []) := by
  induction l with
  | nil => rfl
  | cons p rest ih =>
    have hp := h p (List.mem_cons_self p rest)
    rw [remove_loop, if_neg hp, ih (fun q hq => h q (List.mem_cons_of_mem p hq))]

theorem remove_loop_nodup (mem : List client_t) (fd : Int) (l : List Nat)
    (hnd : (l.map fun p => (client mem p).fd).Nodup) :
    (remove_loop mem fd l).1 = l.filter (fun p => (client mem p).fd ≠ fd) ∧
      (remove_loop mem fd l).2 =
        (if fd ∈ l.map (fun p => (client mem p).fd) then [fd] else []) := by
  induction l with
  | nil => simp [remove_loop]
  | cons p rest ih =>
    rw [List.map_cons, List.nodup_cons] at hnd
    by_cases hp : (client mem p).fd = fd
    · have habs : ∀ q ∈ rest, (client mem q).fd ≠ fd := by
        intro q hq e
        apply hnd.1
        rw [hp, ← e]
        exact List.mem_map_of_mem _ hq
      rw [remove_loop, if_pos hp]
      refine ⟨?_, by simp [hp]⟩
      have hf : rest.filter (fun p => decide ((client mem p).fd ≠ fd)) = rest := by
        rw [List.filter_eq_self]
        intro q hq
        simpa using habs q hq
      rw [List.filter_cons, hf]
      simp [hp]
    · obtain ⟨i1, i2⟩ := ih hnd.2
      rw [remove_loop, if_neg hp]
      refine ⟨?_, ?_⟩
      · simp only [i1, List.filter_cons, hp, ne_eq, not_false_eq_true, decide_True, if_true]
      · simp only [i2, List.map_cons, List.mem_cons]
        have : ¬ fd = (client mem p).fd := fun e => hp e.symm
        simp [this]

/-! ## Lemmas on the broadcaster -/

theorem exists_loop_ne_zero (mem : List client_t) (fd : Int) (l : List Nat) :
    exists_loop mem fd l ≠ 0 ↔ fd ∈ l.map (fun p => (client mem p).fd) := by
  induction l with
  | nil => simp [exists_loop]
  | cons p rest ih =>
    by_cases hp : (client mem p).fd = fd
    · simp [exists_loop, hp]
    · have : ¬ fd = (client mem p).fd := fun e => hp e.symm
      simp [exists_loop, hp, ih, this]

/-- The loop of `robust_send` returns either after everything was sent, or `-1`. -/
theorem robust_send_loop_result (len : Nat) (rs : List send_result) (left0 : Nat) (v : Int)
    (left : Nat) (h : robust_send_loop len rs left0 = (some v, left)) :
    (v = to_ssize_t len ∧ left = 0) ∨ v = -1 := by
  induction rs generalizing left0 with
  | nil =>
    unfold robust_send_loop at h
    split at h
    · simp at h
    · simp only [Prod.mk.injEq, Option.some.injEq] at h
      left
      exact ⟨h.1.symm, by omega⟩
  | cons r rs ih =>
    unfold robust_send_loop at h
    split at h
    · split at h
      · split at h
        · exact ih _ h
        · simp only [Prod.mk.injEq, Option.some.injEq] at h
          right
          exact h.1.symm
      · exact ih _ h
    · simp only [Prod.mk.injEq, Option.some.injEq] at h
      left
      exact ⟨h.1.symm, by omega⟩

/-- Entered with `clients_mtx` held, the loop over the clients makes every one of
its `robust_send` calls with the mutex held, and ends with it held. -/
theorem send_all_held (buf : List Nat) (total : Nat) (l : List Nat)
    (net : List (List send_result)) (s : State) (hm : s.clients_mtx = true) :
    Run.ends
      (fun t => t.clients_mtx = true ∧ ∃ k,
        t.held_at_send = s.held_at_send ++ List.replicate k true ∧
          t.wire.length = s.wire.length + k)
      Prod.fst (send_all buf total l net s) := by
  induction l generalizing net s with
  | nil => exact ⟨hm, 0, by simp, rfl⟩
  | cons c rest ih =>
    have hlog : ∀ b, (log_send s (client s.cmem c).fd b).clients_mtx = true ∧
        (log_send s (client s.cmem c).fd b).held_at_send = s.held_at_send ++ [true] ∧
        (log_send s (client s.cmem c).fd b).wire.length = s.wire.length + 1 := by
      intro b
      simp [log_send, hm]
    have hstep : ∀ b (t : State), (t.clients_mtx = true ∧ ∃ k,
        t.held_at_send = (log_send s (client s.cmem c).fd b).held_at_send ++
            List.replicate k true ∧
          t.wire.length = (log_send s (client s.cmem c).fd b).wire.length + k) →
        (t.clients_mtx = true ∧ ∃ k,
          t.held_at_send = s.held_at_send ++ List.replicate k true ∧
            t.wire.length = s.wire.length + k) := by
      rintro b t ⟨h1, k, h2, h3⟩
      obtain ⟨_, l2, l3⟩ := hlog b
      refine ⟨h1, k + 1, ?_, by rw [h3, l3]; omega⟩
      rw [h2, l2, List.append_assoc, List.replicate_succ]
      rfl
    unfold send_all
    simp only
    cases robust_send total (net.headD []) with
    | mk v left =>
      cases v with
      | none =>
        obtain ⟨l1, l2, l3⟩ := hlog (buf.take (total - left))
        exact ⟨l1, 1, by rw [l2]; rfl, l3⟩
      | some v =>
        obtain ⟨l1, l2, l3⟩ := hlog (buf.take (total - left))
        simp only
        split
        · simp only [remove_client_by_fd, l1, if_true]
          exact ⟨l1, 1, by rw [l2]; rfl, l3⟩
        · have := ih net.tail (log_send s (client s.cmem c).fd (buf.take (total - left))) l1
          revert this
          cases send_all buf total rest net.tail
            (log_send s (client s.cmem c).fd (buf.take (total - left))) with
          | ret r => exact fun this => hstep _ _ this
          | blocked r => exact fun this => hstep _ _ this

/-! ## Lemmas on the accept loop -/

/-- Successful accepts while the server runs each add one registry entry. -/
theorem accept_turns_register (conns : List (Int × sockaddr_in)) (s : State)
    (hfd : ∀ c ∈ conns, 0 ≤ c.1) (hmain : s.main_status = .running)
    (hrun : s.server_running = true) (halloc : s.alloc_fail = []) (hm : s.clients_mtx = false) :
    let t := (conns.map fun c => Event.accept c.1 c.2 0).foldl step s
    t.clients.length = s.clients.length + conns.length ∧
      t.client_id = s.client_id + conns.length ∧
      t.closed = s.closed ∧ t.expected_clients = s.expected_clients ∧
      t.main_status = .running := by
  induction conns generalizing s with
  | nil => simp [hmain]
  | cons c rest ih =>
    have hc : ¬ c.1 < 0 := by
      have := hfd c (List.mem_cons_self _ _)
      omega
    have hstep : step s (Event.accept c.1 c.2 0) =
        { s with cmem := (s.cmem ++ [zero_client]).set s.cmem.length
                   { client (s.cmem ++ [zero_client]) s.cmem.length with
                     fd := c.1, addr := c.2, id := s.client_id, sent_type1 := 0 },
                 client_id := s.client_id + 1,
                 clients := s.cmem.length :: s.clients,
                 rx := s.rx ++ [{ buf := [], status := .running }] } := by
      simp [step, accept_turn, hmain, hc, calloc_client, halloc, add_client, hm,
        accept_loop_test, hrun]
    have e1 : (step s (Event.accept c.1 c.2 0)).clients.length = s.clients.length + 1 := by
      rw [hstep]; rfl
    have e2 : (step s (Event.accept c.1 c.2 0)).client_id = s.client_id + 1 := by
      rw [hstep]
    have e3 : (step s (Event.accept c.1 c.2 0)).closed = s.closed := by rw [hstep]
    have e4 : (step s (Event.accept c.1 c.2 0)).expected_clients = s.expected_clients := by
      rw [hstep]
    have h := ih (step s (Event.accept c.1 c.2 0))
      (fun d hd => hfd d (List.mem_cons_of_mem _ hd))
      (by rw [hstep]; exact hmain) (by rw [hstep]; exact hrun) (by rw [hstep]; exact halloc)
      (by rw [hstep]; exact hm)
    simp only [List.map_cons, List.foldl_cons, List.length_cons]
    simp only [e1, e2, e3, e4] at h
    refine ⟨by omega, ?_, h.2.2.1, h.2.2.2.1, h.2.2.2.2⟩
    have := h.2.1
    push_cast at this ⊢
    omega

/-! ## Lemmas on `robust_send` -/

theorem to_ssize_t_small (len : Nat) (h : len < 2 ^ 63) : to_ssize_t len = (len : Int) := by
  unfold to_ssize_t
  omega

theorem robust_send_loop_zero (len : Nat) (rs : List send_result) :
    robust_send_loop len rs 0 = (some (to_ssize_t len), 0) := by
  cases rs <;> simp [robust_send_loop]

theorem left_sub (left : Nat) (n : Int) (h0 : 0 < n) (hn : n ≤ (left : Int))
    (hl : left < 2 ^ 64) : (((left : Int) - n) % 2 ^ 64).toNat = left - n.toNat := by
  omega

theorem results_ok_append_left (left : Nat) (a b : List send_result)
    (h : results_ok left (a ++ b) = true) : results_ok left a = true := by
  induction a generalizing left with
  | nil => rfl
  | cons r a ih =>
    simp only [List.cons_append, results_ok] at h ⊢
    by_cases hn : r.n < 0
    · simp only [hn, if_true] at h ⊢
      exact ih left h
    · simp only [hn, if_false, Bool.and_eq_true, decide_eq_true_eq] at h ⊢
      exact ⟨h.1, ih _ h.2⟩

/-- The loop returns `(ssize_t)len` once the counts of a prefix without fatal
error sum to the bytes left. -/
theorem robust_send_loop_complete (len : Nat) (pre post : List send_result) (left : Nat)
    (hl : left < 2 ^ 64) (hok : results_ok left (pre ++ post) = true)
    (hnf : no_fatal pre = true) (hacc : accepted pre = left) :
    robust_send_loop len (pre ++ post) left = (some (to_ssize_t len), 0) := by
  induction pre generalizing left with
  | nil =>
    simp only [accepted] at hacc
    subst hacc
    exact robust_send_loop_zero len _
  | cons r pre ih =>
    by_cases h0 : left = 0
    · subst h0
      exact robust_send_loop_zero len _
    · have hpos : left > 0 := Nat.pos_of_ne_zero h0
      simp only [no_fatal, List.all_cons, Bool.and_eq_true, decide_eq_true_eq] at hnf
      simp only [List.cons_append, results_ok] at hok
      simp only [List.cons_append, robust_send_loop, hpos, if_true]
      simp only [accepted] at hacc
      by_cases hn : r.n < 0
      · simp only [hn, if_true] at hok ⊢
        simp only [hnf.1 hn, if_true]
        have : r.n.toNat = 0 := by omega
        exact ih left hl hok hnf.2 (by omega)
      · simp only [hn, if_false, Bool.and_eq_true, decide_eq_true_eq] at hok ⊢
        rw [left_sub left r.n hok.1.1 hok.1.2 hl]
        exact ih _ (by omega) hok.2 hnf.2 (by omega)

/-- The loop returns `-1` at the first fatal error, with the bytes left at that
point. -/
theorem robust_send_loop_fatal (len : Nat) (pre : List send_result) (e : send_result)
    (post : List send_result) (left : Nat)
    (hl : left < 2 ^ 64) (hok : results_ok left (pre ++ e :: post) = true)
    (hnf : no_fatal pre = true) (hacc : accepted pre < left) (he : e.n < 0)
    (hfatal : e.errno ≠ EINTR) :
    robust_send_loop len (pre ++ e :: post) left = (some (-1), left - accepted pre) := by
  induction pre generalizing left with
  | nil =>
    simp only [accepted] at hacc
    simp [robust_send_loop, hacc, he, hfatal, accepted]
  | cons r pre ih =>
    simp only [accepted] at hacc
    have hpos : left > 0 := by omega
    simp only [no_fatal, List.all_cons, Bool.and_eq_true, decide_eq_true_eq] at hnf
    simp only [List.cons_append, results_ok] at hok
    simp only [List.cons_append, robust_send_loop, hpos, if_true, accepted]
    by_cases hn : r.n < 0
    · simp only [hn, if_true] at hok ⊢
      simp only [hnf.1 hn, if_true]
      have : r.n.toNat = 0 := by omega
      have hih := ih left hl hok hnf.2 (by omega)
      rw [this, Nat.zero_add]
      exact hih
    · simp only [hn, if_false, Bool.and_eq_true, decide_eq_true_eq] at hok ⊢
      rw [left_sub left r.n hok.1.1 hok.1.2 hl]
      have hih := ih _ (by omega) hok.2 hnf.2 (by omega)
      have harith : left - (r.n.toNat + accepted pre) = left - r.n.toNat - accepted pre := by
        omega
      rw [harith]
      exact hih

/-- Whatever the loop returns, it returns it for one of the two reasons above. -/
theorem robust_send_loop_cases (len : Nat) (rs : List send_result) (left : Nat) (v : Int)
    (l : Nat) (hl : left < 2 ^ 64) (hok : results_ok left rs = true)
    (h : robust_send_loop len rs left = (some v, l)) :
    (v = to_ssize_t len ∧
        ∃ pre post, rs = pre ++ post ∧ no_fatal pre = true ∧ accepted pre = left) ∨
      (v = -1 ∧ ∃ pre e post, rs = pre ++ e :: post ∧ no_fatal pre = true ∧
        accepted pre < left ∧ e.n < 0 ∧ e.errno ≠ EINTR) := by
  induction rs generalizing left with
  | nil =>
    by_cases h0 : left > 0
    · simp [robust_send_loop, h0] at h
    · simp only [robust_send_loop, h0, if_false, Prod.mk.injEq, Option.some.injEq] at h
      exact Or.inl ⟨h.1.symm, [], [], rfl, rfl, by simp only [accepted]; omega⟩
  | cons r rs ih =>
    by_cases h0 : left > 0
    · simp only [robust_send_loop, h0, if_true] at h
      simp only [results_ok] at hok
      by_cases hn : r.n < 0
      · simp only [hn, if_true] at h hok
        have hz : r.n.toNat = 0 := by omega
        by_cases he : r.errno = EINTR
        · simp only [he, if_true] at h
          rcases ih left hl hok h with ⟨hv, pre, post, e1, e2, e3⟩ | ⟨hv, pre, e, post, e1, e2, e3, e4⟩
          · refine Or.inl ⟨hv, r :: pre, post, by rw [e1]; rfl, ?_, ?_⟩
            · simp only [no_fatal, List.all_cons, Bool.and_eq_true, decide_eq_true_eq]
              exact ⟨fun _ => he, e2⟩
            · simp only [accepted, hz, e3, Nat.zero_add]
          · refine Or.inr ⟨hv, r :: pre, e, post, by rw [e1]; rfl, ?_, ?_, e4⟩
            · simp only [no_fatal, List.all_cons, Bool.and_eq_true, decide_eq_true_eq]
              exact ⟨fun _ => he, e2⟩
            · simp only [accepted, hz, Nat.zero_add]
              exact e3
        · simp only [he, if_false, Prod.mk.injEq, Option.some.injEq] at h
          exact Or.inr ⟨h.1.symm, [], r, rs, rfl, rfl, by simp only [accepted]; omega, hn, he⟩
      · simp only [hn, if_false, Bool.and_eq_true, decide_eq_true_eq] at h hok
        rw [left_sub left r.n hok.1.1 hok.1.2 hl] at h
        have hnf : no_fatal (r :: ([] : List send_result)) = true := by
          simp [no_fatal, hn]
        rcases ih _ (by omega) hok.2 h with ⟨hv, pre, post, e1, e2, e3⟩ | ⟨hv, pre, e, post, e1, e2, e3, e4⟩
        · refine Or.inl ⟨hv, r :: pre, post, by rw [e1]; rfl, ?_, ?_⟩
          · simp only [no_fatal, List.all_cons, Bool.and_eq_true, decide_eq_true_eq]
            exact ⟨fun hneg => absurd hneg hn, e2⟩
          · simp only [accepted, e3]
            omega
        · refine Or.inr ⟨hv, r :: pre, e, post, by rw [e1]; rfl, ?_, ?_, e4⟩
          · simp only [no_fatal, List.all_cons, Bool.and_eq_true, decide_eq_true_eq]
            exact ⟨fun hneg => absurd hneg hn, e2⟩
          · simp only [accepted]
            omega
    · have hz : left = 0 := by omega
      subst hz
      rw [robust_send_loop_zero] at h
      simp only [Prod.mk.injEq, Option.some.injEq] at h
      exact Or.inl ⟨h.1.symm, [], r :: rs, rfl, rfl, rfl⟩

/-! ## Lemmas on the loop over the buffer -/

theorem process_loop_succ (k : Nat) (s : State) (c : Nat) (buf : List Nat) (pos : Nat)
    (h : pos < buf.length) :
    process_loop (k + 1) s c buf pos =
      match scan_nl (buf.drop (pos + 1)) (pos + 1) with
      | none => .ret (s, pos)
      | some i =>
        match process_message s c (buf.getD pos 0) buf pos (i - (pos + 1) + 1) with
        | .ret s1 => process_loop k s1 c buf (i + 1)
        | .blocked s1 => .blocked s1 := by
  have h2 : ¬ pos + 1 > buf.length := by omega
  simp only [process_loop, h, h2, if_true, if_false]

theorem process_loop_done (k : Nat) (s : State) (c : Nat) (buf : List Nat) (pos : Nat)
    (h : ¬ pos < buf.length) : process_loop k s c buf pos = .ret (s, pos) := by
  cases k with
  | zero => rfl
  | succ k => simp only [process_loop, h, if_false]

theorem scan_nl_bounds (bs : List Nat) (i j : Nat) (h : scan_nl bs i = some j) :
    i ≤ j ∧ j < i + bs.length := by
  induction bs generalizing i with
  | nil => simp [scan_nl] at h
  | cons b bs ih =>
    simp only [scan_nl] at h
    by_cases hb : b = NL
    · simp only [hb, if_true, Option.some.injEq] at h
      simp only [List.length_cons]
      omega
    · simp only [hb, if_false] at h
      have := ih (i + 1) h
      simp only [List.length_cons]
      omega

theorem scan_nl_append (bs d : List Nat) (i j : Nat) (h : scan_nl bs i = some j) :
    scan_nl (bs ++ d) i = some j := by
  induction bs generalizing i with
  | nil => simp [scan_nl] at h
  | cons b bs ih =>
    simp only [scan_nl, List.cons_append] at h ⊢
    by_cases hb : b = NL
    · simpa only [hb, if_true] using h
    · simp only [hb, if_false] at h ⊢
      exact ih (i + 1) h

theorem scan_nl_shift (bs : List Nat) (i n : Nat) :
    scan_nl bs (n + i) = (scan_nl bs i).map (fun j => n + j) := by
  induction bs generalizing i with
  | nil => rfl
  | cons b bs ih =>
    simp only [scan_nl]
    by_cases hb : b = NL
    · simp only [hb, if_true, Option.map_some']
    · simp only [hb, if_false]
      exact ih (i + 1)

theorem process_chat_congr (s : State) (c : Nat) (buf buf2 : List Nat) (pos pos2 msglen : Nat)
    (h : (buf.drop (pos + 1)).take msglen = (buf2.drop (pos2 + 1)).take msglen) :
    process_chat s c buf pos msglen = process_chat s c buf2 pos2 msglen := by
  have h2 : ∀ m, m ≤ msglen →
      (buf.drop (pos + 1)).take m = (buf2.drop (pos2 + 1)).take m := by
    intro m hm
    have := congrArg (List.take m) h
    simpa only [List.take_take, Nat.min_eq_left hm] using this
  unfold process_chat
  by_cases hbig : msglen > MAX_MSG_SIZE
  · simp only [hbig, if_true]
    rw [h2 MAX_MSG_SIZE (by omega)]
  · simp only [hbig, if_false]
    rw [h]

theorem process_message_congr (s : State) (c type : Nat) (buf buf2 : List Nat)
    (pos pos2 msglen : Nat)
    (h : (buf.drop (pos + 1)).take msglen = (buf2.drop (pos2 + 1)).take msglen) :
    process_message s c type buf pos msglen = process_message s c type buf2 pos2 msglen := by
  unfold process_message
  rw [process_chat_congr s c buf buf2 pos pos2 msglen h]

/-- The loop gives the same result for every number of turns that is at least
the number of bytes after `pos`. -/
theorem process_loop_fuel (k k2 : Nat) (s : State) (c : Nat) (buf : List Nat) (pos : Nat)
    (hk : buf.length - pos ≤ k) (hk2 : buf.length - pos ≤ k2) :
    process_loop k s c buf pos = process_loop k2 s c buf pos := by
  induction k generalizing k2 s pos with
  | zero =>
    have : ¬ pos < buf.length := by omega
    rw [process_loop_done _ _ _ _ _ this, process_loop_done _ _ _ _ _ this]
  | succ k ih =>
    by_cases hp : pos < buf.length
    · obtain ⟨k3, rfl⟩ : ∃ k3, k2 = k3 + 1 := ⟨k2 - 1, by omega⟩
      rw [process_loop_succ _ _ _ _ _ hp, process_loop_succ _ _ _ _ _ hp]
      rcases hs : scan_nl (buf.drop (pos + 1)) (pos + 1) with _ | i
      · rfl
      · have hb := scan_nl_bounds _ _ _ hs
        simp only
        rcases process_message s c (buf.getD pos 0) buf pos (i - (pos + 1) + 1) with s1 | s1
        · exact ih k3 s1 (i + 1) (by omega) (by omega)
        · rfl
    · rw [process_loop_done _ _ _ _ _ hp, process_loop_done _ _ _ _ _ hp]

/-- The loop over a buffer with the bytes `pre` put in front, started after
them, does what it does without them. -/
theorem process_loop_shift (pre buf : List Nat) (k : Nat) (s : State) (c pos : Nat) :
    process_loop k s c (pre ++ buf) (pre.length + pos) =
      match process_loop k s c buf pos with
      | .ret (t, p) => .ret (t, pre.length + p)
      | .blocked t => .blocked t := by
  induction k generalizing s pos with
  | zero => rfl
  | succ k ih =>
    by_cases hp : pos < buf.length
    · have hp2 : pre.length + pos < (pre ++ buf).length := by
        rw [List.length_append]; omega
      rw [process_loop_succ _ _ _ _ _ hp, process_loop_succ _ _ _ _ _ hp2]
      have hdrop : (pre ++ buf).drop (pre.length + pos + 1) = buf.drop (pos + 1) := by
        rw [Nat.add_assoc, List.drop_append]
      have hget : (pre ++ buf).getD (pre.length + pos) 0 = buf.getD pos 0 := by
        simp [List.getD_eq_getElem?_getD, List.getElem?_append_right]
      rw [hdrop, hget, Nat.add_assoc, scan_nl_shift]
      rcases hs : scan_nl (buf.drop (pos + 1)) (pos + 1) with _ | i
      · rfl
      · have hb := scan_nl_bounds _ _ _ hs
        simp only [Option.map_some']
        have hlen : pre.length + i - (pre.length + (pos + 1)) + 1 = i - (pos + 1) + 1 := by
          omega
        rw [hlen, process_message_congr s c (buf.getD pos 0) (pre ++ buf) buf
          (pre.length + pos) pos _ (by rw [hdrop])]
        rcases process_message s c (buf.getD pos 0) buf pos (i - (pos + 1) + 1) with s1 | s1
        · exact ih s1 (i + 1)
        · rfl
    · have hp2 : ¬ pre.length + pos < (pre ++ buf).length := by
        rw [List.length_append]; omega
      rw [process_loop_done _ _ _ _ _ hp, process_loop_done _ _ _ _ _ hp2]

/-- The loop over a buffer with bytes added behind first does what it does
without them, then goes on from where that ends. -/
theorem process_loop_append (k : Nat) (s : State) (c : Nat) (buf d : List Nat) (pos : Nat)
    (t : State) (p : Nat) (h : process_loop k s c buf pos = .ret (t, p))
    (k2 k3 : Nat) (hk2 : (buf ++ d).length - pos ≤ k2) (hk3 : (buf ++ d).length - p ≤ k3) :
    process_loop k2 s c (buf ++ d) pos = process_loop k3 t c (buf ++ d) p := by
  induction k generalizing s pos k2 with
  | zero =>
    simp only [process_loop, Run.ret.injEq, Prod.mk.injEq] at h
    obtain ⟨rfl, rfl⟩ := h
    exact process_loop_fuel _ _ _ _ _ _ hk2 hk3
  | succ k ih =>
    by_cases hp : pos < buf.length
    · rw [process_loop_succ _ _ _ _ _ hp] at h
      rcases hs : scan_nl (buf.drop (pos + 1)) (pos + 1) with _ | i
      · rw [hs] at h
        simp only [Run.ret.injEq, Prod.mk.injEq] at h
        obtain ⟨rfl, rfl⟩ := h
        exact process_loop_fuel _ _ _ _ _ _ hk2 hk3
      · rw [hs] at h
        simp only at h
        have hb := scan_nl_bounds _ _ _ hs
        rw [List.length_drop] at hb
        have hp2 : pos < (buf ++ d).length := by rw [List.length_append]; omega
        rw [List.length_append] at hk2
        obtain ⟨k4, rfl⟩ : ∃ k4, k2 = k4 + 1 := ⟨k2 - 1, by omega⟩
        rw [process_loop_succ _ _ _ _ _ hp2]
        have hdrop : (buf ++ d).drop (pos + 1) = buf.drop (pos + 1) ++ d :=
          List.drop_append_of_le_length (by omega)
        have hget : (buf ++ d).getD pos 0 = buf.getD pos 0 := by
          simp [List.getD_eq_getElem?_getD, List.getElem?_append_left hp]
        rw [hdrop, scan_nl_append _ d _ _ hs, hget]
        simp only
        rw [process_message_congr s c (buf.getD pos 0) (buf ++ d) buf pos pos _
          (by rw [hdrop, List.take_append_of_le_length (by rw [List.length_drop]; omega)])]
        rcases hm : process_message s c (buf.getD pos 0) buf pos (i - (pos + 1) + 1) with s1 | s1
        · rw [hm] at h
          simp only at h ⊢
          exact ih s1 (i + 1) h k4 (by rw [List.length_append]; omega)
        · rw [hm] at h
          simp at h
    · rw [process_loop_done _ _ _ _ _ hp] at h
      simp only [Run.ret.injEq, Prod.mk.injEq] at h
      obtain ⟨rfl, rfl⟩ := h
      exact process_loop_fuel _ _ _ _ _ _ hk2 hk3

/-! ## Lemmas on what the receiver leaves alone -/

theorem Untouched_same (s : State) : Untouched s s := ⟨rfl, rfl, rfl, rfl, fun _ => rfl⟩

theorem Untouched_chain {s t u : State} (h1 : Untouched s t) (h2 : Untouched t u) :
    Untouched s u :=
  ⟨h2.clients.trans h1.clients, h2.mtx.trans h1.mtx, h2.closed.trans h1.closed,
    h2.rx.trans h1.rx, fun p => (h2.fds p).trans (h1.fds p)⟩

theorem process_chat_untouched (s : State) (c : Nat) (buf : List Nat) (pos msglen : Nat) :
    Untouched s (process_chat s c buf pos msglen) := by
  rcases s with ⟨cmem, qmem, af, cl, mtx, qh, qt, ec, rc, sr, lf, ci, ms, bs, rx, closed, wire,
    enq, held⟩
  rcases af with _ | ⟨_ | _, rest⟩ <;> cases qt <;> exact ⟨rfl, rfl, rfl, rfl, fun _ => rfl⟩

theorem enqueue_echo_untouched (s : State) (c : Nat) : Untouched s (enqueue_echo s c) := by
  rcases s with ⟨cmem, qmem, af, cl, mtx, qh, qt, ec, rc, sr, lf, ci, ms, bs, rx, closed, wire,
    enq, held⟩
  rcases af with _ | ⟨_ | _, rest⟩ <;> cases qt <;> exact ⟨rfl, rfl, rfl, rfl, fun _ => rfl⟩

theorem enqueue_global_untouched (s : State) : Untouched s (enqueue_global s) := by
  rcases s with ⟨cmem, qmem, af, cl, mtx, qh, qt, ec, rc, sr, lf, ci, ms, bs, rx, closed, wire,
    enq, held⟩
  rcases af with _ | ⟨_ | _, rest⟩ <;> cases qt <;> exact ⟨rfl, rfl, rfl, rfl, fun _ => rfl⟩

theorem client_set_fd (mem : List client_t) (c p : Nat) (v : Int) :
    (client (mem.set c { client mem c with sent_type1 := v }) p).fd = (client mem p).fd := by
  simp only [client, List.getD_eq_getElem?_getD, List.getElem?_set]
  by_cases hcp : c = p
  · subst hcp
    by_cases hc : c < mem.length
    · simp [hc]
    · simp [hc, List.getElem?_eq_none (Nat.le_of_not_lt hc)]
  · simp [hcp]

theorem mark_done_untouched (s : State) (c : Nat) : Untouched s (mark_done s c) := by
  unfold mark_done
  split
  · exact ⟨rfl, rfl, rfl, rfl, fun p => client_set_fd s.cmem c p 1⟩
  · exact Untouched_same s

theorem process_done_untouched (s : State) (c : Nat) (hm : s.clients_mtx = false) :
    ∃ t, process_done s c = .ret t ∧ Untouched s t := by
  have h1 := mark_done_untouched s c
  have h2 := Untouched_chain h1 (enqueue_echo_untouched (mark_done s c) c)
  have h3 := Untouched_chain h2 (enqueue_global_untouched (enqueue_echo (mark_done s c) c))
  unfold process_done
  simp only [hm, Bool.false_eq_true, if_false]
  split
  · exact ⟨_, rfl, h3⟩
  · exact ⟨_, rfl, h2⟩

theorem process_message_untouched (s : State) (c type : Nat) (buf : List Nat) (pos msglen : Nat)
    (hm : s.clients_mtx = false) :
    ∃ t, process_message s c type buf pos msglen = .ret t ∧ Untouched s t := by
  unfold process_message
  split
  · exact ⟨_, rfl, process_chat_untouched s c buf pos msglen⟩
  · split
    · exact process_done_untouched s c hm
    · exact ⟨_, rfl, Untouched_same s⟩

/-- With `clients_mtx` free the loop over the buffer returns, at a position
within the buffer, and leaves the registry and the receiver locals alone. -/
theorem process_loop_untouched (k : Nat) (s : State) (c : Nat) (buf : List Nat) (pos : Nat)
    (hm : s.clients_mtx = false) :
    ∃ t p, process_loop k s c buf pos = .ret (t, p) ∧ Untouched s t ∧ pos ≤ p ∧
      (pos ≤ buf.length → p ≤ buf.length) := by
  induction k generalizing s pos with
  | zero => exact ⟨s, pos, rfl, Untouched_same s, Nat.le_refl _, fun h => h⟩
  | succ k ih =>
    by_cases hp : pos < buf.length
    · rw [process_loop_succ _ _ _ _ _ hp]
      rcases hs : scan_nl (buf.drop (pos + 1)) (pos + 1) with _ | i
      · exact ⟨s, pos, rfl, Untouched_same s, Nat.le_refl _, fun h => h⟩
      · have hb := scan_nl_bounds _ _ _ hs
        rw [List.length_drop] at hb
        obtain ⟨s1, h1, hu⟩ :=
          process_message_untouched s c (buf.getD pos 0) buf pos (i - (pos + 1) + 1) hm
        simp only [h1]
        obtain ⟨t, p, h2, hu2, hle, hin⟩ := ih s1 (i + 1) (hu.mtx.trans hm)
        exact ⟨t, p, h2, Untouched_chain hu hu2, by omega, fun _ => hin (by omega)⟩
    · rw [process_loop_done _ _ _ _ _ hp]
      exact ⟨s, pos, rfl, Untouched_same s, Nat.le_refl _, fun h => h⟩

theorem enqueue_echo_with_rx (s : State) (c : Nat) (r : List rx_locals) :
    enqueue_echo { s with rx := r } c = { enqueue_echo s c with rx := r } := by
  rcases s with ⟨cmem, qmem, af, cl, mtx, qh, qt, ec, rc, sr, lf, ci, ms, bs, rx, closed, wire,
    enq, held⟩
  rcases af with _ | ⟨_ | _, rest⟩ <;> cases qt <;> rfl

theorem enqueue_global_with_rx (s : State) (r : List rx_locals) :
    enqueue_global { s with rx := r } = { enqueue_global s with rx := r } := by
  rcases s with ⟨cmem, qmem, af, cl, mtx, qh, qt, ec, rc, sr, lf, ci, ms, bs, rx, closed, wire,
    enq, held⟩
  rcases af with _ | ⟨_ | _, rest⟩ <;> cases qt <;> rfl

theorem mark_done_with_rx (s : State) (c : Nat) (r : List rx_locals) :
    mark_done { s with rx := r } c = { mark_done s c with rx := r } := by
  unfold mark_done
  simp only
  split <;> rfl

theorem mark_done_expected (s : State) (c : Nat) :
    (mark_done s c).expected_clients = s.expected_clients := by
  unfold mark_done
  split <;> rfl

theorem process_message_with_rx (s : State) (c type : Nat) (buf : List Nat) (pos msglen : Nat)
    (r : List rx_locals) (t : State) (h : process_message s c type buf pos msglen = .ret t) :
    process_message { s with rx := r } c type buf pos msglen = .ret { t with rx := r } := by
  unfold process_message at h ⊢
  by_cases h0 : type = 0
  · simp only [h0, if_true, Run.ret.injEq] at h ⊢
    rw [process_chat_with_rx, h]
  · simp only [h0, if_false] at h ⊢
    by_cases h1 : type = 1
    · simp only [h1, if_true] at h ⊢
      unfold process_done at h ⊢
      simp only at h ⊢
      rw [mark_done_with_rx, enqueue_echo_with_rx, enqueue_global_with_rx]
      by_cases hm : s.clients_mtx = true
      · simp [hm] at h
      · simp only [hm, Bool.false_eq_true, if_false] at h ⊢
        by_cases hd : decide ((mark_done s c).received_type1_count ≥
            (mark_done s c).expected_clients) = true
        · rw [if_pos hd] at h ⊢
          rw [Run.ret.injEq] at h
          rw [h]
        · rw [if_neg hd] at h ⊢
          rw [Run.ret.injEq] at h
          rw [h]
    · simp only [h1, if_false, Run.ret.injEq] at h ⊢
      rw [h]

/-- The loop over the buffer does not look at the receiver locals. -/
theorem process_loop_with_rx (k : Nat) (s : State) (c : Nat) (buf : List Nat) (pos : Nat)
    (r : List rx_locals) (t : State) (p : Nat) (h : process_loop k s c buf pos = .ret (t, p)) :
    process_loop k { s with rx := r } c buf pos = .ret ({ t with rx := r }, p) := by
  induction k generalizing s pos with
  | zero =>
    simp only [process_loop, Run.ret.injEq, Prod.mk.injEq] at h ⊢
    obtain ⟨rfl, rfl⟩ := h
    exact ⟨rfl, rfl⟩
  | succ k ih =>
    by_cases hp : pos < buf.length
    · rw [process_loop_succ _ _ _ _ _ hp] at h ⊢
      rcases hs : scan_nl (buf.drop (pos + 1)) (pos + 1) with _ | i
      · rw [hs] at h
        simp only [Run.ret.injEq, Prod.mk.injEq] at h ⊢
        obtain ⟨rfl, rfl⟩ := h
        exact ⟨rfl, rfl⟩
      · rw [hs] at h
        simp only at h ⊢
        rcases hmsg : process_message s c (buf.getD pos 0) buf pos (i - (pos + 1) + 1) with s1 | s1
        · rw [hmsg] at h
          simp only at h
          rw [process_message_with_rx s c _ buf pos _ r s1 hmsg]
          exact ih s1 (i + 1) h
        · rw [hmsg] at h
          simp at h
    · rw [process_loop_done _ _ _ _ _ hp] at h ⊢
      simp only [Run.ret.injEq, Prod.mk.injEq] at h ⊢
      obtain ⟨rfl, rfl⟩ := h
      exact ⟨rfl, rfl⟩

/-! ## Lemmas on reads that split a stream -/

theorem rx_after_nil (s : State) (c : Nat)
    (hloc : rx_of s c = { buf := [], status := .running }) : rx_after s c [] = s := by
  have hc := rx_of_running_lt s c [] hloc
  simp only [rx_after, process_buffer, List.length_nil, process_loop, List.drop_nil]
  rw [rx_set_self s c _ hloc hc]

/-- One more read: the receiver that has taken the bytes `stream` in fitting
reads and now reads `d` is where it would be had it taken `stream ++ d`. -/
theorem recv_turn_rx_after (s : State) (c : Nat) (stream d : List Nat)
    (hloc : rx_of s c = { buf := [], status := .running }) (hm : s.clients_mtx = false)
    (hd : d ≠ [])
    (hfit : d.length ≤ RX_BUF_SIZE - (rx_of (rx_after s c stream) c).buf.length) :
    recv_turn (rx_after s c stream) c (.data d) = rx_after s c (stream ++ d) := by
  have hc := rx_of_running_lt s c [] hloc
  obtain ⟨s1, pos, h1, hu1, -, hin1⟩ := process_loop_untouched stream.length s c stream 0 hm
  have hpos : pos ≤ stream.length := hin1 (Nat.zero_le _)
  have hc1 : c < s1.rx.length := by rw [hu1.rx]; exact hc
  have hA : rx_after s c stream =
      { s1 with rx := s1.rx.set c { buf := stream.drop pos, status := .running } } := by
    simp only [rx_after, process_buffer, h1]
  rw [hA] at hfit ⊢
  rw [rx_of_set s1 c _ hc1] at hfit
  simp only at hfit
  obtain ⟨s2, p2, h2, hu2, -, hin2⟩ :=
    process_loop_untouched (stream.drop pos ++ d).length s1 c (stream.drop pos ++ d) 0
      (hu1.mtx.trans hm)
  have hp2 : p2 ≤ (stream.drop pos ++ d).length := hin2 (Nat.zero_le _)
  have hdpos : 0 < d.length := List.length_pos.mpr hd
  -- the left side
  have hL : recv_turn
      { s1 with rx := s1.rx.set c { buf := stream.drop pos, status := .running } } c (.data d) =
      { s2 with rx := s1.rx.set c { buf := (stream.drop pos ++ d).drop p2, status := .running } } := by
    unfold recv_turn
    simp only [rx_of_set s1 c _ hc1, ne_eq, not_true_eq_false, if_false, recv_result.n,
      recv_result.stored]
    rw [List.take_of_length_le hfit]
    have hn : ¬ ((d.length : Int) ≤ 0) := by omega
    simp only [hn, if_false]
    have h3 := process_loop_with_rx _ s1 c (stream.drop pos ++ d) 0
      (s1.rx.set c { buf := stream.drop pos, status := .running }) s2 p2 h2
    simp only [process_buffer, h3]
    by_cases hlt : p2 < (stream.drop pos ++ d).length
    · simp only [hlt, if_true, List.set_set]
    · simp only [hlt, if_false, List.set_set]
      rw [List.drop_of_length_le (by omega)]
  rw [hL]
  -- the right side
  have hR : process_buffer s c (stream ++ d) = .ret (s2, pos + p2) := by
    unfold process_buffer
    rw [process_loop_append stream.length s c stream d 0 s1 pos h1 (stream ++ d).length
      (stream ++ d).length (by omega) (by omega)]
    have hsplit : stream ++ d = stream.take pos ++ (stream.drop pos ++ d) := by
      rw [← List.append_assoc, List.take_append_drop]
    have hlen : (stream.take pos).length = pos := by
      rw [List.length_take]; omega
    have h4 := process_loop_shift (stream.take pos) (stream.drop pos ++ d) (stream ++ d).length
      s1 c 0
    rw [hlen, ← hsplit, Nat.add_zero] at h4
    rw [h4, process_loop_fuel (stream ++ d).length (stream.drop pos ++ d).length s1 c
      (stream.drop pos ++ d) 0 (by simp only [List.length_append, List.length_drop]; omega)
      (by omega), h2]
  simp only [rx_after, hR]
  have hdrop : (stream ++ d).drop (pos + p2) = (stream.drop pos ++ d).drop p2 := by
    rw [← List.drop_drop, List.drop_append_of_le_length hpos]
  rw [hdrop, hu2.rx]

/-- Any fitting reads: the receiver that takes the bytes `stream` in the reads
`chunks` ends where a single pass of the loop over all of `stream` ends. -/
theorem recv_turns_rx_after (chunks : List (List Nat)) (s : State) (c : Nat) (stream : List Nat)
    (hloc : rx_of s c = { buf := [], status := .running }) (hm : s.clients_mtx = false)
    (hfit : reads_fit (rx_after s c stream) c chunks = true) :
    recv_turns (rx_after s c stream) c (chunks.map .data) =
      rx_after s c (stream ++ chunks.flatten) := by
  induction chunks generalizing stream with
  | nil => simp [recv_turns]
  | cons d rest ih =>
    simp only [reads_fit, Bool.and_eq_true, decide_eq_true_eq] at hfit
    have h1 := recv_turn_rx_after s c stream d hloc hm hfit.1.1 hfit.1.2
    rw [h1] at hfit
    have h2 := ih (stream ++ d) hfit.2
    simp only [recv_turns, List.map_cons, List.foldl_cons, List.flatten_cons] at h2 ⊢
    rw [h1, h2, List.append_assoc]

/-- The first turn of the loop on a buffer that starts with a complete frame. -/
theorem process_buffer_frame (s : State) (c : Nat) (f : Nat × List Nat) (rest : List Nat)
    (hf : ∀ b ∈ f.2, b ≠ NL) :
    process_buffer s c (frame_bytes f ++ rest) =
      match process_message s c f.1 (frame_bytes f) 0 (f.2.length + 1) with
      | .ret s1 =>
        match process_buffer s1 c rest with
        | .ret (t, p) => .ret (t, (frame_bytes f).length + p)
        | .blocked t => .blocked t
      | .blocked s1 => .blocked s1 := by
  have hlen : (frame_bytes f).length = f.2.length + 2 := by simp [frame_bytes]
  have hbuf : frame_bytes f ++ rest = f.1 :: (f.2 ++ NL :: rest) := by simp [frame_bytes]
  unfold process_buffer
  have hpos : 0 < (frame_bytes f ++ rest).length := by
    rw [List.length_append, hlen]; omega
  obtain ⟨k, hk⟩ : ∃ k, (frame_bytes f ++ rest).length = k + 1 := ⟨_, (Nat.succ_pred_eq_of_pos hpos).symm⟩
  rw [hk, process_loop_succ _ _ _ _ _ (by omega)]
  have hscan : scan_nl ((frame_bytes f ++ rest).drop (0 + 1)) (0 + 1) = some (f.2.length + 1) := by
    rw [hbuf]
    simp only [Nat.zero_add, List.drop_succ_cons, List.drop_zero]
    have := scan_nl_found f.2 rest 1 hf
    rw [this, Nat.add_comm]
  have hget : (frame_bytes f ++ rest).getD 0 0 = f.1 := by rw [hbuf]; rfl
  rw [hscan, hget]
  simp only
  have hml : f.2.length + 1 - (0 + 1) + 1 = f.2.length + 1 := by omega
  rw [hml, process_message_congr s c f.1 (frame_bytes f ++ rest) (frame_bytes f) 0 0 _
    (by
      rw [hbuf]
      simp only [frame_bytes, Nat.zero_add, List.drop_succ_cons, List.drop_zero,
        List.cons_append]
      rw [show f.2 ++ NL :: rest = (f.2 ++ [NL]) ++ rest by simp,
        List.take_append_of_le_length (by simp)])]
  rcases process_message s c f.1 (frame_bytes f) 0 (f.2.length + 1) with s1 | s1
  · simp only
    have h4 := process_loop_shift (frame_bytes f) rest k s1 c 0
    rw [Nat.add_zero, hlen] at h4
    rw [h4, process_loop_fuel k rest.length s1 c rest 0
      (by rw [List.length_append, hlen] at hk; omega) (by omega), hlen]
  · rfl

/-- A buffer of complete frames is processed to its end. -/
theorem process_buffer_frames (frames : List (Nat × List Nat)) (s : State) (c : Nat)
    (hm : s.clients_mtx = false) (hf : ∀ f ∈ frames, ∀ b ∈ f.2, b ≠ NL) :
    ∃ t, process_buffer s c (frames.map frame_bytes).flatten =
        .ret (t, (frames.map frame_bytes).flatten.length) ∧ Untouched s t := by
  induction frames generalizing s with
  | nil => exact ⟨s, rfl, Untouched_same s⟩
  | cons f rest ih =>
    simp only [List.map_cons, List.flatten_cons, List.length_append]
    rw [process_buffer_frame s c f _ (hf f (List.mem_cons_self _ _))]
    obtain ⟨s1, h1, hu1⟩ :=
      process_message_untouched s c f.1 (frame_bytes f) 0 (f.2.length + 1) hm
    obtain ⟨t, h2, hu2⟩ := ih s1 (hu1.mtx.trans hm)
      (fun g hg => hf g (List.mem_cons_of_mem _ hg))
    simp only [h1, h2]
    exact ⟨t, rfl, Untouched_chain hu1 hu2⟩

/-! ## C1: the queue is first-in first-out -/

/-- C1: for every well-formed queue state (its chain holds the messages `old`)
and every sequence `ms` of distinct allocated messages not yet queued, after
`enqueue_msg` on `ms` in order, repeated `dequeue_msg` returns `old` and then `ms`
in exactly that order, every returned object still carries the fields it was
enqueued with, and the queue is then empty: `q_head = q_tail = NULL`. -/
theorem C1_enqueue_then_dequeue_fifo (s : State) (old ms : List Nat) (hq : QueueRep s old)
    (hnd : ms.Nodup) (hfresh : ∀ m ∈ ms, m ∉ old) (halloc : ∀ m ∈ ms, m < s.qmem.length) :
    (drain (old ++ ms).length (ms.foldl enqueue_msg s)).1 = old ++ ms ∧
      (drain (old ++ ms).length (ms.foldl enqueue_msg s)).2.q_head = none ∧
      (drain (old ++ ms).length (ms.foldl enqueue_msg s)).2.q_tail = none ∧
      ∀ a, same_item (node (drain (old ++ ms).length (ms.foldl enqueue_msg s)).2.qmem a)
        (node s.qmem a) := by
  obtain ⟨h1, h2⟩ := QueueRep_enqueue_all ms s old hq hnd hfresh halloc
  obtain ⟨d1, d2, d3, d4⟩ := QueueRep_drain (old ++ ms) _ h1
  refine ⟨d1, d2, d3, fun a => ?_⟩
  rw [d4]
  exact h2 a

/-- C1 at a queue that holds message `0`, with messages `1` and `2` enqueued. -/
theorem C1_enqueue_then_dequeue_fifo_witness :
    QueueRep queue_example [0] ∧
      (drain ([0] ++ [1, 2]).length ([1, 2].foldl enqueue_msg queue_example)).1 = [0] ++ [1, 2] ∧
      (drain ([0] ++ [1, 2]).length ([1, 2].foldl enqueue_msg queue_example)).2.q_head = none ∧
      (drain ([0] ++ [1, 2]).length ([1, 2].foldl enqueue_msg queue_example)).2.q_tail = none ∧
      ∀ a, same_item
        (node (drain ([0] ++ [1, 2]).length ([1, 2].foldl enqueue_msg queue_example)).2.qmem a)
        (node queue_example.qmem a) :=
  have hq : QueueRep queue_example [0] := ⟨⟨rfl, by decide, rfl⟩, rfl, by decide⟩
  ⟨hq, C1_enqueue_then_dequeue_fifo queue_example [0] [1, 2] hq (by decide) (by decide)
    (by decide)⟩

/-! ## C2: when the global-shutdown item is enqueued -/

/-- C2, counterexample: with `expected_clients = 2` and two clients accepted,
the Done frames of client 0, of client 1 and again of client 1 make the
receivers enqueue the global-shutdown item twice: the second Done of client 1,
sent after the count was reached, causes a second item. -/
theorem C2_counterexample_second_done_second_item :
    shutdown_items_of (handle_frames (two_clients 2) done_twice) = 2 ∧
      shutdown_items_of (handle_frames (two_clients 2) (done_twice.take 2)) = 1 := by
  decide

/-- C2, amended: from a state with no Done recorded, over every sequence of
complete frames from the accepted clients (allocation succeeding), (1) a
global-shutdown item has been enqueued only if `expected_clients` distinct
clients have each sent a Done frame, and (2) each frame adds exactly one
global-shutdown item when it is a Done frame and the distinct Done senders,
it included, number at least `expected_clients`, and adds none otherwise: the
item is enqueued once per Done frame handled from the moment the count is
reached. -/
theorem C2_shutdown_item_per_done_once_count_reached (s0 : State)
    (frames : List (Nat × Nat × List Nat)) (h0 : s0.received_type1_count = 0)
    (hflags : ∀ x ∈ s0.cmem, x.sent_type1 = 0) (hfd : ∀ x ∈ s0.cmem, 0 ≤ x.fd)
    (hmtx : s0.clients_mtx = false) (halloc : s0.alloc_fail = []) (hlog : s0.enqueued = [])
    (hvalid : ∀ f ∈ frames, f.1 < s0.cmem.length) :
    (∃ s, handle_frames s0 frames = .ret s ∧
        (0 < shutdown_items s →
          s0.expected_clients ≤ ((done_senders frames).length : Int))) ∧
      ∀ pre f post, frames = pre ++ f :: post →
        ∃ s1 s2, handle_frames s0 pre = .ret s1 ∧ handle_frames s0 (pre ++ [f]) = .ret s2 ∧
          shutdown_items s2 = shutdown_items s1 +
            if f.2.1 = 1 ∧ s0.expected_clients ≤ ((done_senders (pre ++ [f])).length : Int)
            then 1 else 0 := by
  have hinit := DoneInv_init s0 h0 hflags hfd hmtx halloc hlog
  constructor
  · obtain ⟨s, hs, hinv⟩ := DoneInv_handle_frames s0 frames hinit hvalid
    exact ⟨s, hs, fun hpos => by
      have := hinv.items hpos
      rwa [hinv.expected] at this⟩
  · intro pre f post hsplit
    have hpre : ∀ g ∈ pre, g.1 < s0.cmem.length := fun g hg =>
      hvalid g (by rw [hsplit]; exact List.mem_append_left _ hg)
    have hf : f.1 < s0.cmem.length :=
      hvalid f (by rw [hsplit]; exact List.mem_append_right _ (List.mem_cons_self f post))
    obtain ⟨s1, hs1, hinv⟩ := DoneInv_handle_frames s0 pre hinit hpre
    obtain ⟨s2, hs2, _, hcount⟩ := DoneInv_step s0 s1 pre f hinv hf
    exact ⟨s1, s2, hs1, by rw [handle_frames_snoc, hs1]; exact hs2, hcount⟩

/-- C2, amended, at two accepted clients with `expected_clients = 2` and the
frames `done_twice`. -/
theorem C2_shutdown_item_per_done_once_count_reached_witness :
    (two_clients 2).received_type1_count = 0 ∧ (two_clients 2).enqueued = [] ∧
      ((∃ s, handle_frames (two_clients 2) done_twice = .ret s ∧
          (0 < shutdown_items s →
            (two_clients 2).expected_clients ≤ ((done_senders done_twice).length : Int))) ∧
        ∀ pre f post, done_twice = pre ++ f :: post →
          ∃ s1 s2, handle_frames (two_clients 2) pre = .ret s1 ∧
            handle_frames (two_clients 2) (pre ++ [f]) = .ret s2 ∧
            shutdown_items s2 = shutdown_items s1 +
              if f.2.1 = 1 ∧
                (two_clients 2).expected_clients ≤ ((done_senders (pre ++ [f])).length : Int)
              then 1 else 0) :=
  ⟨by decide, by decide,
    C2_shutdown_item_per_done_once_count_reached (two_clients 2) done_twice (by decide)
      (by decide) (by decide) (by decide) (by decide) (by decide) (by decide)⟩

/-! ## C3: the Done counter and `expected_clients` -/

/-- C3, counterexample: with `expected_clients = 1` the server accepts two
connections, each client sends a Done frame, and the state reached has
`received_type1_count = 2 > 1 = expected_clients`. -/
theorem C3_counterexample_count_exceeds_expected :
    (run 1 [] two_done_events).received_type1_count = 2 ∧
      (run 1 [] two_done_events).expected_clients = 1 ∧
      ¬ (run 1 [] two_done_events).received_type1_count ≤
          (run 1 [] two_done_events).expected_clients := by
  decide

/-- C3, amended: in every state reachable by accepting connections, receiving
frames and running the broadcaster, `received_type1_count` is the number of
accepted clients whose `sent_type1` flag is set, so it is at most the number of
connections accepted (the value of `client_id`), whatever `expected_clients`
is. -/
theorem C3_count_at_most_accepted (expected : Int) (allocs : List Bool) (evs : List Event) :
    (run expected allocs evs).received_type1_count =
        ((run expected allocs evs).cmem.countP has_sent_done : Int) ∧
      (run expected allocs evs).received_type1_count ≤ (run expected allocs evs).client_id ∧
      (run expected allocs evs).client_id = ((run expected allocs evs).cmem.length : Int) := by
  have h := run_CountInv expected allocs evs
  refine ⟨h.count, ?_, h.ids⟩
  rw [h.count, h.ids]
  exact_mod_cast List.countP_le_length has_sent_done

/-! ## C4: a chat payload of exactly 1024 bytes -/

/-- C4, the code at the failing input: client 0 (peer 192.168.0.7, port bytes
195 80) sends the frame `[0x00] p [0x0A]` with `p` made of 1024 bytes `'a'`.
The one item enqueued gives the relay buffer `[0x00][ip][port] p`, 1031 bytes
long: `p` is carried unmodified, but the closing `0x0A` is cut off, the last
byte is `'a'`. -/
theorem C4_full_payload_relayed_unterminated :
    ∃ m, (recv_turns (two_clients 2) 0 [.data (0 :: full_payload ++ [NL])]).enqueued = [m] ∧
      relay_frame m = [0] ++ peer_a.s_addr.bytes ++ peer_a.sin_port.bytes ++ full_payload ∧
      relay_total m = 1031 ∧ (relay_frame m).length = 1031 ∧
      (relay_frame m).getLast? = some 97 := by
  have hp : ∀ b ∈ full_payload, b ≠ NL := by
    intro b hb
    rw [full_payload, List.mem_replicate] at hb
    rw [hb.2]
    decide
  have hl : full_payload.length = 1024 := by rw [full_payload, List.length_replicate]
  have h := recv_turns_chat_frame [0 :: full_payload ++ [NL]] (two_clients 2) 0 full_payload
    (by decide) hp (by rw [hl]; decide) (by simp) (by simp)
  have hs := (process_chat_spec (two_clients 2) 0 (0 :: full_payload ++ [NL]) 0
    (full_payload.length + 1) (by decide)).1
  have hpay : ((0 :: full_payload ++ [NL]).drop (0 + 1)).take MAX_MSG_SIZE = full_payload := by
    simp only [List.cons_append, zero_add, List.drop_succ_cons, List.drop_zero]
    exact List.take_left' hl
  have hframe : relay_frame (chat_item (two_clients 2) 0 (0 :: full_payload ++ [NL]) 0
      (full_payload.length + 1)) =
      [0] ++ peer_a.s_addr.bytes ++ peer_a.sin_port.bytes ++ full_payload := by
    have hgt : full_payload.length + 1 > MAX_MSG_SIZE := by rw [hl]; decide
    simp only [relay_frame, chat_item, if_pos hgt, hpay]
    rw [List.take_of_length_le (by rw [hl]; decide)]
    rfl
  refine ⟨chat_item (two_clients 2) 0 (0 :: full_payload ++ [NL]) 0 (full_payload.length + 1),
    ?_, hframe, ?_, ?_, ?_⟩
  · simp only [List.map_cons, List.map_nil] at h
    rw [h]
    simp only [hs]
    rfl
  · have hgt : full_payload.length + 1 > MAX_MSG_SIZE := by rw [hl]; decide
    simp only [relay_total, chat_item, if_pos hgt]
    rfl
  · rw [hframe]
    simp [hl, in_addr_t.bytes, in_port_t.bytes]
  · rw [hframe]
    have : full_payload = List.replicate 1023 97 ++ [97] := by
      rw [full_payload]
      exact List.replicate_succ' 1023 97
    rw [this, ← List.append_assoc]
    exact List.getLast?_concat _

/-! ## C5: a chat payload longer than the buffer -/

/-- C5, the code at the failing input: client 0 sends `[0x00] p [0x0A]` with `p`
made of 2000 bytes `'a'`. The first `recv` fills the 1040-byte buffer, no `'\n'`
is in it, the next `recv` is asked for 0 bytes: the receiver enqueues nothing,
removes client 0 from the registry (only client 1 stays), closes its descriptor
`4` and returns. -/
theorem C5_oversized_payload_drops_client :
    (recv_turns (two_clients 2) 0
        [.data ((0 :: long_payload ++ [NL]).take 1040),
         .data ((0 :: long_payload ++ [NL]).drop 1040)]).enqueued = [] ∧
      (two_clients 2).clients = [1, 0] ∧
      (recv_turns (two_clients 2) 0
        [.data ((0 :: long_payload ++ [NL]).take 1040),
         .data ((0 :: long_payload ++ [NL]).drop 1040)]).clients = [1] ∧
      (recv_turns (two_clients 2) 0
        [.data ((0 :: long_payload ++ [NL]).take 1040),
         .data ((0 :: long_payload ++ [NL]).drop 1040)]).closed = [4] ∧
      (rx_of (recv_turns (two_clients 2) 0
        [.data ((0 :: long_payload ++ [NL]).take 1040),
         .data ((0 :: long_payload ++ [NL]).drop 1040)]) 0).status = .returned := by
  have hp : ∀ b ∈ long_payload, b ≠ NL := by
    intro b hb
    rw [long_payload, List.mem_replicate] at hb
    rw [hb.2]
    decide
  have hl : long_payload.length = 2000 := by rw [long_payload, List.length_replicate]
  have htake : (0 :: long_payload ++ [NL]).take 1040 = (0 :: long_payload).take RX_BUF_SIZE := by
    show ((0 :: long_payload) ++ [NL]).take 1040 = _
    rw [List.take_append_of_le_length (by rw [List.length_cons, hl]; decide)]
    rfl
  have hne : (0 :: long_payload).take RX_BUF_SIZE ≠ [] := by
    intro h
    have := congrArg List.length h
    rw [List.length_take, List.length_cons, hl] at this
    revert this
    decide
  have h := recv_turns_oversized [(0 :: long_payload).take RX_BUF_SIZE] (two_clients 2) 0
    long_payload (.data ((0 :: long_payload ++ [NL]).drop 1040)) (by decide) (by decide) hp
    (by rw [hl]; decide) (by simpa using hne) (by simp)
  simp only [List.map_cons, List.map_nil, List.singleton_append] at h
  rw [htake, h]
  refine ⟨by decide, by decide, by decide, by decide, ?_⟩
  simp [rx_of, two_clients, run, step, accept_turn, init, calloc_client, add_client,
    accept_loop_test]

/-! ## C6: the client decodes the relay frame -/

/-- C6, counterexample: (1) client 1 has the peer address 10.0.0.1 and sends the
chat `"hi"`; the relay frame built for the item enqueued is
`00 0A 00 00 01 1F 90 'h' 'i' 0A`; the client finds `'\n'` in the address, skips
a two-byte message and logs address 0.1.31.144, port 26729 and an empty chat.
(2) client 0 (192.168.0.7, port 50000) sends the payload `'h' 00 'i'`; the chat
the client logs stops at the NUL: it is `"h"`. -/
theorem C6_counterexample_newline_in_header :
    (recv_turns (two_clients 2) 1 [.data [0, 104, 105, NL]]).enqueued.map
        (fun m => (relay_frame m, client_decode (relay_frame m))) =
        [([0, 10, 0, 0, 1, 31, 144, 104, 105, 10],
          ([{ ip := ⟨0, 1, 31, 144⟩, port := 26729, chat := [] }], 10, false))] ∧
      (recv_turns (two_clients 2) 0 [.data [0, 104, 0, 105, NL]]).enqueued.map
        (fun m => client_decode (relay_frame m)) =
        [([{ ip := ⟨192, 168, 0, 7⟩, port := 50000, chat := [104] }], 11, false)] := by
  decide

/-- C6, amended: for every sender whose six address and port bytes (network
order) are all different from `0x0A`, and every payload `p` of at most 1023
bytes with no `0x0A` and no NUL byte: when the sender's receiver reads the chat
frame `[0x00] p [0x0A]`, the relay frame the server builds for the item it
enqueues is decoded by the client's receive loop as exactly one log line, with
the sender's address, the sender's port and the chat `p`, and the loop stops at
the end of the frame. -/
theorem C6_client_decodes_relay_frame (s : State) (c : Nat) (p : List Nat)
    (chunks : List (List Nat)) (hloc : rx_of s c = { buf := [], status := .running })
    (halloc : s.alloc_fail = [])
    (hh : ∀ b ∈ (client s.cmem c).addr.s_addr.bytes ++ (client s.cmem c).addr.sin_port.bytes,
      b ≠ NL)
    (hp : ∀ b ∈ p, b ≠ NL ∧ b ≠ 0) (hlen : p.length ≤ 1023) (hne : ∀ d ∈ chunks, d ≠ [])
    (hchunks : chunks.flatten = 0 :: p ++ [NL]) :
    ∃ m, (recv_turns s c (chunks.map .data)).enqueued = s.enqueued ++ [m] ∧
      client_decode (relay_frame m) =
        ([{ ip := (client s.cmem c).addr.s_addr, port := ntohs (client s.cmem c).addr.sin_port,
            chat := p }], (relay_frame m).length, false) := by
  have h := recv_turns_chat_frame chunks s c p hloc (fun b hb => (hp b hb).1)
    (by have : RX_BUF_SIZE = 1040 := rfl; omega) hne hchunks
  have hs := (process_chat_spec s c (0 :: p ++ [NL]) 0 (p.length + 1) halloc).1
  have hf := relay_frame_chat_item s c p hlen
  refine ⟨chat_item s c (0 :: p ++ [NL]) 0 (p.length + 1), by rw [h]; exact hs, ?_⟩
  rw [hf, client_decode_relay _ _ p hh hp hlen]
  simp [in_addr_t.bytes, in_port_t.bytes]

/-- C6, amended, at the sender 192.168.0.7 port 50000 (client 0) and the
payload `"hi"`, read in one piece. -/
theorem C6_client_decodes_relay_frame_witness :
    ∃ m, (recv_turns (two_clients 2) 0 ([[0, 104, 105, NL]].map .data)).enqueued =
        (two_clients 2).enqueued ++ [m] ∧
      client_decode (relay_frame m) =
        ([{ ip := (client (two_clients 2).cmem 0).addr.s_addr,
            port := ntohs (client (two_clients 2).cmem 0).addr.sin_port, chat := [104, 105] }],
          (relay_frame m).length, false) :=
  C6_client_decodes_relay_frame (two_clients 2) 0 [104, 105] [[0, 104, 105, NL]] (by decide)
    (by decide) (by decide) (by decide) (by decide) (by decide) (by decide)

/-! ## C7: the layout of the relay buffer -/

/-- C8: in a registry in which no two entries share a descriptor, for a caller
that does not hold `clients_mtx`: `remove_client_by_fd(fd)` with no entry for
`fd` returns the state as it was (nothing changed, nothing closed); and a second
`remove_client_by_fd(fd)` right after a first one changes nothing more: the
registry is the one the first call left (the entries for other descriptors, in
order), and over both calls `fd` is closed exactly once when it was registered
and not at all when it was not. -/
theorem C8_remove_client_by_fd_idempotent (s : State) (fd : Int)
    (hnd : (s.clients.map fun p => (client s.cmem p).fd).Nodup) (hm : s.clients_mtx = false) :
    ((∀ p ∈ s.clients, (client s.cmem p).fd ≠ fd) → remove_client_by_fd s fd = .ret s) ∧
      ∃ s1, remove_client_by_fd s fd = .ret s1 ∧ remove_client_by_fd s1 fd = .ret s1 ∧
        s1.clients = s.clients.filter (fun p => (client s.cmem p).fd ≠ fd) ∧
        s1.closed = s.closed ++
          (if fd ∈ s.clients.map (fun p => (client s.cmem p).fd) then [fd] else []) := by
  obtain ⟨n1, n2⟩ := remove_loop_nodup s.cmem fd s.clients hnd
  constructor
  · intro habs
    have hne : ¬ (s.clients_mtx = true) := by rw [hm]; decide
    unfold remove_client_by_fd
    rw [if_neg hne, remove_loop_absent s.cmem fd s.clients habs, List.append_nil]
  · have habs2 : ∀ p ∈ (remove_loop s.cmem fd s.clients).1, (client s.cmem p).fd ≠ fd := by
      intro p hp
      rw [n1] at hp
      simpa using (List.mem_filter.mp hp).2
    refine ⟨{ s with clients := (remove_loop s.cmem fd s.clients).1,
                     closed := s.closed ++ (remove_loop s.cmem fd s.clients).2 }, ?_, ?_, n1, ?_⟩
    · simp [remove_client_by_fd, hm]
    · have hne : ¬ (s.clients_mtx = true) := by rw [hm]; decide
      unfold remove_client_by_fd
      simp only
      rw [if_neg hne, remove_loop_absent s.cmem fd (remove_loop s.cmem fd s.clients).1 habs2,
        List.append_nil]
    · simp only [n2]

/-- C8 at the registry of two clients (descriptors 5 and 4) and `fd = 4`. -/
theorem C8_remove_client_by_fd_idempotent_witness :
    ((two_clients 2).clients.map fun p => (client (two_clients 2).cmem p).fd) = [5, 4] ∧
      (((∀ p ∈ (two_clients 2).clients, (client (two_clients 2).cmem p).fd ≠ 4) →
          remove_client_by_fd (two_clients 2) 4 = .ret (two_clients 2)) ∧
        ∃ s1, remove_client_by_fd (two_clients 2) 4 = .ret s1 ∧
          remove_client_by_fd s1 4 = .ret s1 ∧
          s1.clients =
            (two_clients 2).clients.filter (fun p => (client (two_clients 2).cmem p).fd ≠ 4) ∧
          s1.closed = (two_clients 2).closed ++
            (if (4 : Int) ∈ (two_clients 2).clients.map
                (fun p => (client (two_clients 2).cmem p).fd) then [4] else [])) :=
  ⟨by decide, C8_remove_client_by_fd_idempotent (two_clients 2) 4 (by decide) (by decide)⟩

/-! ## C9: every live client is written every item -/

/-- C9, the code at the failing input: two Broadcast items (`"hi"`, `"ok"`) are
queued, the registry is client 1 (descriptor 5) then client 0 (descriptor 4).
For the first item the write to descriptor 5 succeeds and the write to
descriptor 4 fails. The broadcaster then blocks for good in
`remove_client_by_fd`, on `clients_mtx` which it holds itself: client 1 stays
registered and its only write succeeded, yet it is never written the frame of
the second item, which stays in the queue. When no write fails, both clients
are written both frames, in order. -/
theorem C9_live_client_misses_later_item :
    (broadcaster 3 two_chats [send_ok 10, send_fails, send_ok 10, send_ok 10]).1.wire =
        [(5, [0, 192, 168, 0, 7, 195, 80, 104, 105, 10]), (4, [])] ∧
      (broadcaster 3 two_chats [send_ok 10, send_fails, send_ok 10, send_ok 10]).1.clients =
        [1, 0] ∧
      (broadcaster 3 two_chats [send_ok 10, send_fails, send_ok 10, send_ok 10]).1.bc_status =
        .stuck ∧
      (broadcaster 3 two_chats [send_ok 10, send_fails, send_ok 10, send_ok 10]).1.q_head =
        some 1 ∧
      (broadcaster 3 two_chats [send_ok 10, send_ok 10, send_ok 10, send_ok 10]).1.wire =
        [(5, [0, 192, 168, 0, 7, 195, 80, 104, 105, 10]),
         (4, [0, 192, 168, 0, 7, 195, 80, 104, 105, 10]),
         (5, [0, 192, 168, 0, 7, 195, 80, 111, 107, 10]),
         (4, [0, 192, 168, 0, 7, 195, 80, 111, 107, 10])] := by
  decide

/-! ## C10: a failed write during a broadcast -/

/-- C10, the code at the failing input: with the registry client 1 (descriptor
5) then client 0 (descriptor 4) and two Broadcast items queued, the write to
descriptor 5 fails. The broadcaster calls `remove_client_by_fd` while it holds
`clients_mtx` and blocks for good at the lock: client 1 is still registered,
descriptor 4 is never written, nothing is closed, the mutex stays held and the
second item is never dequeued. -/
theorem C10_failed_write_blocks_broadcaster :
    (broadcaster 3 two_chats [send_fails, send_ok 10, send_ok 10, send_ok 10]).1.bc_status =
        .stuck ∧
      (broadcaster 3 two_chats [send_fails, send_ok 10, send_ok 10, send_ok 10]).1.clients =
        [1, 0] ∧
      (broadcaster 3 two_chats [send_fails, send_ok 10, send_ok 10, send_ok 10]).1.wire =
        [(5, [])] ∧
      (broadcaster 3 two_chats [send_fails, send_ok 10, send_ok 10, send_ok 10]).1.closed = [] ∧
      (broadcaster 3 two_chats [send_fails, send_ok 10, send_ok 10, send_ok 10]).1.clients_mtx =
        true ∧
      (broadcaster 3 two_chats [send_fails, send_ok 10, send_ok 10, send_ok 10]).1.q_head =
        some 1 := by
  decide

/-! ## C11: the Ack item -/

/-- C11: for every registry in which no two entries share a descriptor and every
Ack item (type 1, `sender_fd = h >= 0`) whose target `h` is registered, when the
broadcaster (not holding `clients_mtx`) processes the item and its `robust_send`
returns, with success or with failure: the item is done, `h` is no longer in the
registry, which keeps its other entries in order, no client object is changed,
`h` is closed, and the one write made is to `h`, of the bytes of `0x01 0x0A` that
got out (both when the write succeeded), outside the lock. -/
theorem C11_ack_removes_target (s : State) (m : Nat) (net : List (List send_result)) (h : Int)
    (v : Int) (left : Nat) (htype : (node s.qmem m).type = 1)
    (hfd : (node s.qmem m).sender_fd = h) (hh : 0 ≤ h)
    (hreg : h ∈ s.clients.map (fun p => (client s.cmem p).fd))
    (hnd : (s.clients.map fun p => (client s.cmem p).fd).Nodup) (hm : s.clients_mtx = false)
    (hsend : robust_send 2 (net.headD []) = (some v, left)) :
    ∃ s', broadcaster_item s m net = .ret (s', net.tail) ∧
      h ∉ s'.clients.map (fun p => (client s'.cmem p).fd) ∧
      s'.clients = s.clients.filter (fun p => (client s.cmem p).fd ≠ h) ∧
      s'.cmem = s.cmem ∧ s'.closed = s.closed ++ [h] ∧
      s'.wire = s.wire ++ [(h, [1, NL].take (2 - left))] ∧
      s'.held_at_send = s.held_at_send ++ [false] ∧
      (0 ≤ v → [1, NL].take (2 - left) = [1, NL]) := by
  obtain ⟨n1, n2⟩ := remove_loop_nodup s.cmem h s.clients hnd
  have hex : exists_loop s.cmem h s.clients ≠ 0 := (exists_loop_ne_zero _ _ _).mpr hreg
  have hne1 : ¬ (h = -1) := by omega
  have hmt : ¬ (s.clients_mtx = true) := by rw [hm]; decide
  refine ⟨{ log_send s h ([1, NL].take (2 - left)) with
      clients := (remove_loop s.cmem h s.clients).1,
      closed := s.closed ++ (remove_loop s.cmem h s.clients).2 }, ?_, ?_, n1, rfl, ?_, rfl, ?_, ?_⟩
  · unfold broadcaster_item
    simp only [htype, hfd, hne1, hh, hsend, client_fd_exists, hm, remove_client_by_fd,
      log_send]
    simp [hex]
  · simp only [log_send, n1, List.mem_map, List.mem_filter]
    rintro ⟨p, ⟨_, hp⟩, hp'⟩
    simp [hp'] at hp
  · simp only [log_send, n2, if_pos hreg]
  · simp [log_send, hm]
  · intro hv
    rcases robust_send_loop_result 2 _ 2 v left hsend with ⟨_, hl⟩ | hneg
    · rw [hl]
      rfl
    · omega

/-- C11 at the Ack item for descriptor 4, its write succeeding. -/
theorem C11_ack_removes_target_witness :
    ∃ s', broadcaster_item one_done 0 [send_ok 2] = .ret (s', [send_ok 2].tail) ∧
      (4 : Int) ∉ s'.clients.map (fun p => (client s'.cmem p).fd) ∧
      s'.clients = one_done.clients.filter (fun p => (client one_done.cmem p).fd ≠ 4) ∧
      s'.cmem = one_done.cmem ∧ s'.closed = one_done.closed ++ [4] ∧
      s'.wire = one_done.wire ++ [(4, [1, NL].take (2 - 0))] ∧
      s'.held_at_send = one_done.held_at_send ++ [false] ∧
      ((0 : Int) ≤ 2 → [1, NL].take (2 - 0) = [1, NL]) :=
  C11_ack_removes_target one_done 0 [send_ok 2] 4 2 0 (by decide) (by decide) (by decide)
    (by decide) (by decide) (by decide) (by decide)

/-! ## C12: the ShutdownAll item -/

/-- C12, the code at the failing input: the queue holds the Ack for descriptor
4, the ShutdownAll item and a Broadcast item; after the Ack the registry is
descriptor 6 then descriptor 5. When the ShutdownAll write to descriptor 6
fails, the broadcaster blocks for good in `remove_client_by_fd`, on
`clients_mtx` which it holds itself: descriptor 5 is never written,
`server_running` stays set and the listening socket stays open. When no write
fails, both clients are written `0x01 0x0A`, `server_running` is cleared, the
loop returns and the Broadcast item behind stays in the queue. -/
theorem C12_failed_write_blocks_shutdown :
    (shutdown_queued.enqueued.map fun m => (m.type, m.sender_fd)) = [(1, 4), (1, -1), (0, -2)] ∧
      (broadcaster 4 shutdown_queued [send_ok 2, send_fails, send_ok 2, send_ok 10]).1.wire =
        [(4, [1, 10]), (6, [])] ∧
      (broadcaster 4 shutdown_queued [send_ok 2, send_fails, send_ok 2, send_ok 10]).1.clients =
        [2, 1] ∧
      (broadcaster 4 shutdown_queued
        [send_ok 2, send_fails, send_ok 2, send_ok 10]).1.server_running = true ∧
      (broadcaster 4 shutdown_queued [send_ok 2, send_fails, send_ok 2, send_ok 10]).1.bc_status =
        .stuck ∧
      (broadcaster 4 shutdown_queued [send_ok 2, send_fails, send_ok 2, send_ok 10]).1.closed =
        [4] ∧
      (broadcaster 4 shutdown_queued [send_ok 2, send_ok 2, send_ok 2, send_ok 10]).1.wire =
        [(4, [1, 10]), (6, [1, 10]), (5, [1, 10])] ∧
      (broadcaster 4 shutdown_queued
        [send_ok 2, send_ok 2, send_ok 2, send_ok 10]).1.server_running = false ∧
      (broadcaster 4 shutdown_queued [send_ok 2, send_ok 2, send_ok 2, send_ok 10]).1.bc_status =
        .returned ∧
      (broadcaster 4 shutdown_queued [send_ok 2, send_ok 2, send_ok 2, send_ok 10]).1.q_head =
        some 2 := by
  decide

/-! ## C13: the registry lock during network writes -/

/-- C13, counterexample: for a Broadcast item with two registered clients, and
for the ShutdownAll item with two registered clients, every `robust_send` call
of the loop over the clients is made with `clients_mtx` held; only the Ack
write (the first entry of the second log) is made with the lock released. -/
theorem C13_counterexample_writes_under_lock :
    (broadcaster 1 two_chats [send_ok 10, send_ok 10]).1.wire =
        [(5, [0, 192, 168, 0, 7, 195, 80, 104, 105, 10]),
         (4, [0, 192, 168, 0, 7, 195, 80, 104, 105, 10])] ∧
      (broadcaster 1 two_chats [send_ok 10, send_ok 10]).1.held_at_send = [true, true] ∧
      (broadcaster 2 shutdown_queued [send_ok 2, send_ok 2, send_ok 2]).1.wire =
        [(4, [1, 10]), (6, [1, 10]), (5, [1, 10])] ∧
      (broadcaster 2 shutdown_queued [send_ok 2, send_ok 2, send_ok 2]).1.held_at_send =
        [false, true, true] := by
  decide

/-- C13, amended: when the broadcaster, not holding `clients_mtx`, processes a
Broadcast or a ShutdownAll item, every `robust_send` call it makes (one per
entry added to `wire`) is made while it holds `clients_mtx`: the lock is taken
before the loop over the clients and released only after it. When it processes
an Ack item it makes at most one `robust_send` call, without the lock. This
holds whether the processing returns or blocks. -/
theorem C13_broadcast_writes_hold_lock (s : State) (m : Nat) (net : List (List send_result))
    (hm : s.clients_mtx = false) :
    ((node s.qmem m).type = 0 ∨ ((node s.qmem m).type = 1 ∧ (node s.qmem m).sender_fd = -1) →
        Run.ends
          (fun t => ∃ k, t.held_at_send = s.held_at_send ++ List.replicate k true ∧
            t.wire.length = s.wire.length + k)
          Prod.fst (broadcaster_item s m net)) ∧
      ((node s.qmem m).type = 1 ∧ 0 ≤ (node s.qmem m).sender_fd →
        Run.ends
          (fun t => ∃ k, k ≤ 1 ∧ t.held_at_send = s.held_at_send ++ List.replicate k false ∧
            t.wire.length = s.wire.length + k)
          Prod.fst (broadcaster_item s m net)) := by
  constructor
  · rintro (h0 | ⟨h1, hg⟩)
    · have ha : (malloc_buf s).2.clients_mtx = false ∧
          (malloc_buf s).2.held_at_send = s.held_at_send ∧
          (malloc_buf s).2.wire = s.wire := by
        unfold malloc_buf
        split <;> exact ⟨hm, rfl, rfl⟩
      unfold broadcaster_item
      simp only [h0, if_true]
      rcases hmb : malloc_buf s with ⟨ok, s1⟩
      rw [hmb] at ha
      obtain ⟨a1, a2, a3⟩ := ha
      simp only at a1 a2 a3
      cases ok with
      | false =>
        simp only [Run.ends]
        exact ⟨0, by simp [a2], by simp [a3]⟩
      | true =>
        simp only [a1, Bool.false_eq_true, if_false]
        have hs := send_all_held (relay_frame (node s.qmem m)) (relay_total (node s.qmem m))
          s1.clients net { s1 with clients_mtx := true } rfl
        rcases hsa : send_all (relay_frame (node s.qmem m)) (relay_total (node s.qmem m))
          s1.clients net { s1 with clients_mtx := true } with r | r
        · rw [hsa] at hs
          simp only [Run.ends] at hs ⊢
          obtain ⟨_, k, h2, h3⟩ := hs
          exact ⟨k, by rw [h2, a2], by rw [h3, a3]⟩
        · rw [hsa] at hs
          simp only [Run.ends] at hs ⊢
          obtain ⟨_, k, h2, h3⟩ := hs
          exact ⟨k, by rw [h2, a2], by rw [h3, a3]⟩
    · have h10 : ¬ ((node s.qmem m).type = 0) := by rw [h1]; decide
      unfold broadcaster_item
      simp only [h10, if_false]
      simp only [h1, hg, if_true, if_false, hm, Bool.false_eq_true]
      have hs := send_all_held [1, NL] 2 s.clients net { s with clients_mtx := true } rfl
      rcases hsa : send_all [1, NL] 2 s.clients net { s with clients_mtx := true } with r | r
      · rw [hsa] at hs
        simp only [Run.ends] at hs
        obtain ⟨_, k, h2, h3⟩ := hs
        simp only
        split <;> (simp only [Run.ends]; exact ⟨k, h2, h3⟩)
      · rw [hsa] at hs
        simp only [Run.ends] at hs ⊢
        obtain ⟨_, k, h2, h3⟩ := hs
        exact ⟨k, h2, h3⟩
  · rintro ⟨h1, hg⟩
    have h10 : ¬ ((node s.qmem m).type = 0) := by rw [h1]; decide
    have hg1 : ¬ ((node s.qmem m).sender_fd = -1) := by omega
    unfold broadcaster_item
    simp only [h10, hg1, if_false]
    simp only [h1, hg, if_true, if_false, client_fd_exists, hm, Bool.false_eq_true]
    split
    · rcases hrs : robust_send 2 (net.headD []) with ⟨v, left⟩
      cases v with
      | none =>
        simp only [Run.ends]
        exact ⟨1, le_refl _, by simp [log_send, hm], by simp [log_send]⟩
      | some v =>
        simp only [remove_client_by_fd, log_send, hm, Bool.false_eq_true, if_false]
        split <;> (simp only [Run.ends]; exact ⟨1, le_refl _, by simp, by simp⟩)
    · simp only [Run.ends]
      exact ⟨0, by omega, by simp, rfl⟩

/-- C13, amended, at the first Broadcast item of `two_chats`. -/
theorem C13_broadcast_writes_hold_lock_witness :
    ((node two_chats.qmem 0).type = 0 ∨
          ((node two_chats.qmem 0).type = 1 ∧ (node two_chats.qmem 0).sender_fd = -1) →
        Run.ends
          (fun t => ∃ k, t.held_at_send = two_chats.held_at_send ++ List.replicate k true ∧
            t.wire.length = two_chats.wire.length + k)
          Prod.fst (broadcaster_item two_chats 0 [send_ok 10, send_ok 10])) ∧
      ((node two_chats.qmem 0).type = 1 ∧ 0 ≤ (node two_chats.qmem 0).sender_fd →
        Run.ends
          (fun t => ∃ k, k ≤ 1 ∧
            t.held_at_send = two_chats.held_at_send ++ List.replicate k false ∧
            t.wire.length = two_chats.wire.length + k)
          Prod.fst (broadcaster_item two_chats 0 [send_ok 10, send_ok 10])) :=
  C13_broadcast_writes_hold_lock two_chats 0 [send_ok 10, send_ok 10] (by decide)

/-! ## C14: how many connections the acceptor registers -/

/-- C14, counterexample: with `expected_clients = 1`, after `accept` has returned
two connections both are in the registry. -/
theorem C14_counterexample_registers_past_expected :
    (run 1 [] [.accept 4 peer_a 0, .accept 5 peer_b 0]).expected_clients = 1 ∧
      (run 1 [] [.accept 4 peer_a 0, .accept 5 peer_b 0]).clients.length = 2 ∧
      (run 1 [] [.accept 4 peer_a 0, .accept 5 peer_b 0]).clients.map
        (fun p => (client (run 1 [] [.accept 4 peer_a 0, .accept 5 peer_b 0]).cmem p).fd)
        = [5, 4] ∧
      (run 1 [] [.accept 4 peer_a 0, .accept 5 peer_b 0]).client_id = 2 ∧
      (run 1 [] [.accept 4 peer_a 0, .accept 5 peer_b 0]).main_status = .running := by
  decide

/-- C14, amended: the accept loop tests only `server_running`, so the acceptor
registers every connection that `accept` returns, whatever `expected_clients`
is: from the start of `main`, after `accept` has returned the connections
`conns` (allocations succeeding), the registry holds `conns.length` entries,
that many identifiers were handed out, no descriptor was closed and the
acceptor is still in its loop. -/
theorem C14_accept_registers_every_connection (expected : Int) (conns : List (Int × sockaddr_in))
    (hfd : ∀ c ∈ conns, 0 ≤ c.1) :
    (run expected [] (conns.map fun c => Event.accept c.1 c.2 0)).clients.length = conns.length ∧
      (run expected [] (conns.map fun c => Event.accept c.1 c.2 0)).client_id = conns.length ∧
      (run expected [] (conns.map fun c => Event.accept c.1 c.2 0)).closed = [] ∧
      (run expected [] (conns.map fun c => Event.accept c.1 c.2 0)).expected_clients = expected ∧
      (run expected [] (conns.map fun c => Event.accept c.1 c.2 0)).main_status = .running := by
  have h := accept_turns_register conns { init expected with alloc_fail := [] } hfd rfl rfl rfl rfl
  simp only at h
  simpa [run, init] using h

/-- C14, amended, at three connections with `expected_clients = 1`. -/
theorem C14_accept_registers_every_connection_witness :
    (∀ c ∈ [((4 : Int), peer_a), (5, peer_b), (6, peer_a)], 0 ≤ c.1) ∧
      (run 1 [] ([((4 : Int), peer_a), (5, peer_b), (6, peer_a)].map
        fun c => Event.accept c.1 c.2 0)).clients.length = 3 :=
  ⟨by decide, (C14_accept_registers_every_connection 1 [(4, peer_a), (5, peer_b), (6, peer_a)]
    (by decide)).1⟩

/-! ## C15: a frame of unknown type -/

/-- A complete frame that lies whole in the buffer and whose type byte `t` is
neither 0 nor 1 changes nothing:
the loop over a buffer that holds just this frame returns with the state as it
was (no item enqueued, registry, Done counter and closed descriptors as before)
and with the frame consumed; over a buffer in which bytes `rest` follow the
frame, the loop does with `rest` what it does when the buffer holds `rest`
alone, every position moved by the length of the frame. For the receiver thread
(buffer empty, frame within the buffer size): the read that brings the frame
leaves the whole server state as it was, the client still registered and the
thread in its loop; and, `clients_mtx` being free, the read that brings the
frame followed by `rest` leaves the state that the read of `rest` alone
leaves. -/
theorem unknown_type_ignored (s : State) (c t : Nat) (body rest : List Nat)
    (ht0 : t ≠ 0) (ht1 : t ≠ 1) (hbody : ∀ b ∈ body, b ≠ NL) :
    process_buffer s c (frame_bytes (t, body)) = .ret (s, body.length + 2) ∧
      process_buffer s c (frame_bytes (t, body) ++ rest) =
        (match process_buffer s c rest with
         | .ret (u, p) => .ret (u, body.length + 2 + p)
         | .blocked u => .blocked u) ∧
      (rx_of s c = { buf := [], status := .running } → body.length + 2 ≤ RX_BUF_SIZE →
        recv_turn s c (.data (frame_bytes (t, body))) = s) ∧
      (rx_of s c = { buf := [], status := .running } → s.clients_mtx = false → rest ≠ [] →
        body.length + 2 + rest.length ≤ RX_BUF_SIZE →
        recv_turn s c (.data (frame_bytes (t, body) ++ rest)) = recv_turn s c (.data rest)) := by
  have hlen : (frame_bytes (t, body)).length = body.length + 2 := by simp [frame_bytes]
  have hmsg : process_message s c t (frame_bytes (t, body)) 0 (body.length + 1) = .ret s := by
    simp [process_message, ht0, ht1]
  have hgen : ∀ rest2, process_buffer s c (frame_bytes (t, body) ++ rest2) =
      (match process_buffer s c rest2 with
       | .ret (u, p) => .ret (u, body.length + 2 + p)
       | .blocked u => .blocked u) := by
    intro rest2
    have h := process_buffer_frame s c (t, body) rest2 hbody
    simp only [hmsg, hlen] at h
    exact h
  have hone : process_buffer s c (frame_bytes (t, body)) = .ret (s, body.length + 2) := by
    have h := hgen []
    rw [List.append_nil] at h
    rw [h]
    rfl
  refine ⟨hone, hgen rest, ?_, ?_⟩
  · intro hloc hfit
    have hc := rx_of_running_lt s c [] hloc
    unfold recv_turn
    simp only [hloc, ne_eq, not_true_eq_false, if_false, recv_result.n, recv_result.stored,
      List.length_nil, Nat.sub_zero, List.nil_append]
    rw [List.take_of_length_le (by rw [hlen]; exact hfit), hlen]
    have hn : ¬ (((body.length + 2 : Nat) : Int) ≤ 0) := by omega
    simp only [hn, if_false, hone, Nat.lt_irrefl]
    rw [rx_set_self s c _ hloc hc]
  · intro hloc hm hrest hfit
    have hc := rx_of_running_lt s c [] hloc
    have hrpos : 0 < rest.length := List.length_pos.mpr hrest
    obtain ⟨u, p, h2, hu, -, hin⟩ := process_loop_untouched rest.length s c rest 0 hm
    have h2b : process_buffer s c rest = .ret (u, p) := h2
    have hp : p ≤ rest.length := hin (Nat.zero_le _)
    unfold recv_turn
    simp only [hloc, ne_eq, not_true_eq_false, if_false, recv_result.n, recv_result.stored,
      List.length_nil, Nat.sub_zero, List.nil_append]
    rw [List.take_of_length_le (by rw [List.length_append, hlen]; exact hfit),
      List.take_of_length_le (by omega), List.length_append, hlen]
    have hn1 : ¬ (((body.length + 2 + rest.length : Nat) : Int) ≤ 0) := by omega
    have hn2 : ¬ ((rest.length : Int) ≤ 0) := by omega
    simp only [hn1, hn2, if_false, hgen rest, h2b]
    have hdrop : (frame_bytes (t, body) ++ rest).drop (body.length + 2 + p) = rest.drop p := by
      rw [← hlen, List.drop_append]
    by_cases hlt : p < rest.length
    · have hlt2 : body.length + 2 + p < body.length + 2 + rest.length := by omega
      simp only [hlt, hlt2, if_true, hdrop]
    · have hlt2 : ¬ body.length + 2 + p < body.length + 2 + rest.length := by omega
      simp only [hlt, hlt2, if_false]

/-- C15, the code at the failing inputs: a complete frame `[t] p [0x0A]` whose
type byte `t` is neither 0 nor 1 and whose newline-free body `p` has 1039 bytes
or more does not fit the 1040-byte buffer. When its first 1040 bytes have
arrived, in any non-empty reads, the buffer is full without a `'\n'`; the next
`recv` is asked for 0 bytes and, whatever it brings, the receiver removes its
client from the registry, closes its descriptor and returns, so that the frame
that follows is never decoded. A frame of unknown type that fits the buffer
(body of at most 1038 bytes) is ignored, the state staying as it was. -/
theorem C15_oversized_unknown_frame_drops_client (s : State) (c t : Nat) (p : List Nat)
    (chunks : List (List Nat)) (r : recv_result) (ht0 : t ≠ 0) (ht1 : t ≠ 1)
    (hloc : rx_of s c = { buf := [], status := .running }) (hm : s.clients_mtx = false)
    (hp : ∀ b ∈ p, b ≠ NL) (hlen : RX_BUF_SIZE - 1 ≤ p.length)
    (hne : ∀ d ∈ chunks, d ≠ []) (hchunks : chunks.flatten = (t :: p).take RX_BUF_SIZE) :
    recv_turns s c (chunks.map .data ++ [r]) =
        { s with clients := (remove_loop s.cmem (client s.cmem c).fd s.clients).1,
                 closed := s.closed ++ (remove_loop s.cmem (client s.cmem c).fd s.clients).2,
                 rx := s.rx.set c { buf := (t :: p).take RX_BUF_SIZE, status := .returned } } ∧
      ∀ body : List Nat, (∀ b ∈ body, b ≠ NL) → body.length + 2 ≤ RX_BUF_SIZE →
        recv_turn s c (.data (frame_bytes (t, body))) = s :=
  ⟨recv_turns_oversized_any chunks s c t p r hloc hm hp hlen hne hchunks,
    fun body hb hfit => (unknown_type_ignored s c t body [] ht0 ht1 hb).2.2.1 hloc hfit⟩

/-- C15, the code, for client 0 of two accepted clients and the frame
`[0x07] p [0x0A]` with `p` made of 2000 bytes `'a'`: after the read that fills
the buffer the next read makes the receiver drop the client (only client 1
stays registered) and close descriptor `4`; nothing was enqueued. -/
theorem C15_oversized_unknown_frame_drops_client_witness :
    (7 : Nat) ≠ 0 ∧ (7 : Nat) ≠ 1 ∧
      rx_of (two_clients 2) 0 = { buf := [], status := .running } ∧
      (two_clients 2).clients_mtx = false ∧ (∀ b ∈ long_payload, b ≠ NL) ∧
      RX_BUF_SIZE - 1 ≤ long_payload.length ∧
      (∀ d ∈ [(7 :: long_payload).take RX_BUF_SIZE], d ≠ []) ∧
      [(7 :: long_payload).take RX_BUF_SIZE].flatten = (7 :: long_payload).take RX_BUF_SIZE ∧
      (two_clients 2).clients = [1, 0] ∧
      (recv_turns (two_clients 2) 0
        ([(7 :: long_payload).take RX_BUF_SIZE].map .data ++
          [.data ((7 :: long_payload ++ [NL]).drop 1040)])).clients = [1] ∧
      (recv_turns (two_clients 2) 0
        ([(7 :: long_payload).take RX_BUF_SIZE].map .data ++
          [.data ((7 :: long_payload ++ [NL]).drop 1040)])).closed = [4] ∧
      (recv_turns (two_clients 2) 0
        ([(7 :: long_payload).take RX_BUF_SIZE].map .data ++
          [.data ((7 :: long_payload ++ [NL]).drop 1040)])).enqueued = [] := by
  have hp : ∀ b ∈ long_payload, b ≠ NL := by
    intro b hb
    rw [long_payload, List.mem_replicate] at hb
    rw [hb.2]
    decide
  have hl : long_payload.length = 2000 := by rw [long_payload, List.length_replicate]
  have hlen : RX_BUF_SIZE - 1 ≤ long_payload.length := by rw [hl]; decide
  have hne : ∀ d ∈ [(7 :: long_payload).take RX_BUF_SIZE], d ≠ [] := by
    intro d hd
    rw [List.mem_singleton] at hd
    intro h
    have := congrArg List.length (hd.symm.trans h)
    rw [List.length_take, List.length_cons, hl] at this
    revert this
    decide
  have hfl : [(7 :: long_payload).take RX_BUF_SIZE].flatten =
      (7 :: long_payload).take RX_BUF_SIZE := by simp
  have h := (C15_oversized_unknown_frame_drops_client (two_clients 2) 0 7 long_payload
    [(7 :: long_payload).take RX_BUF_SIZE] (.data ((7 :: long_payload ++ [NL]).drop 1040))
    (by decide) (by decide) (by decide) (by decide) hp hlen hne hfl).1
  rw [h]
  exact ⟨by decide, by decide, by decide, by decide, hp, hlen, hne, hfl, by decide, by decide,
    by decide, by decide⟩

/-! ## C16: a failed read -/

/-- C16, counterexample: a `recv` of client 0 that fails with `EAGAIN` (the same
value as `EWOULDBLOCK`) is not retried: the receiver removes the client from the
registry, closes its descriptor `4` and returns. -/
theorem C16_counterexample_eagain_removes_client :
    (two_clients 2).clients = [1, 0] ∧
      (recv_turn (two_clients 2) 0 (.error EAGAIN)).clients = [1] ∧
      (recv_turn (two_clients 2) 0 (.error EAGAIN)).closed = [4] ∧
      (rx_of (recv_turn (two_clients 2) 0 (.error EAGAIN)) 0).status = .returned := by
  decide

/-- C16, amended: in the receiver thread of client `c` (in its loop, with
`clients_mtx` free), a `recv` that returns zero bytes or fails with an error
other than `EINTR`, `EAGAIN` and `EWOULDBLOCK` included, is not retried: the
receiver removes the client from the registry, closes its descriptor and
returns. A `recv` that brings bytes, the buffer having room, leaves the
registry, the descriptors of the client objects and the closed descriptors as
they were, and the thread in its loop. -/
theorem C16_failed_read_removes_client (s : State) (c : Nat) (b0 : List Nat)
    (hloc : rx_of s c = { buf := b0, status := .running }) (hm : s.clients_mtx = false) :
    (∀ r : recv_result, (r = .data [] ∨ ∃ e, r = .error e ∧ e ≠ EINTR) →
        recv_turn s c r =
          { s with clients := (remove_loop s.cmem (client s.cmem c).fd s.clients).1,
                   closed := s.closed ++ (remove_loop s.cmem (client s.cmem c).fd s.clients).2,
                   rx := s.rx.set c { buf := b0, status := .returned } }) ∧
      (∀ d : List Nat, d ≠ [] → b0.length < RX_BUF_SIZE →
        (recv_turn s c (.data d)).clients = s.clients ∧
          (recv_turn s c (.data d)).closed = s.closed ∧
          (∀ p, (client (recv_turn s c (.data d)).cmem p).fd = (client s.cmem p).fd) ∧
          (rx_of (recv_turn s c (.data d)) c).status = .running) := by
  have hc := rx_of_running_lt s c b0 hloc
  constructor
  · intro r hr
    have hn : r.n (RX_BUF_SIZE - b0.length) ≤ 0 := by
      rcases hr with rfl | ⟨e, rfl, _⟩ <;> simp [recv_result.n]
    unfold recv_turn
    simp only [hloc, hn, if_true, remove_client_by_fd, hm, ne_eq, not_true_eq_false, if_false]
    rfl
  · intro d hd hroom
    have hdpos : 0 < d.length := List.length_pos.mpr hd
    have hn : ¬ ((recv_result.data d).n (RX_BUF_SIZE - b0.length) ≤ 0) := by
      simp only [recv_result.n, List.length_take]
      omega
    obtain ⟨u, p, h2, hu, -, -⟩ := process_loop_untouched
      (b0 ++ (recv_result.data d).stored (RX_BUF_SIZE - b0.length)).length s c
      (b0 ++ (recv_result.data d).stored (RX_BUF_SIZE - b0.length)) 0 hm
    have hcu : c < u.rx.length := by rw [hu.rx]; exact hc
    have hturn : ∃ rest : List Nat, recv_turn s c (.data d) =
        { u with rx := u.rx.set c ⟨rest, .running⟩ } := by
      unfold recv_turn
      simp only [hloc, hn, if_false, ne_eq, not_true_eq_false, process_buffer, h2]
      exact ⟨_, rfl⟩
    obtain ⟨rest, hturn⟩ := hturn
    rw [hturn]
    refine ⟨hu.clients, hu.closed, hu.fds, ?_⟩
    rw [rx_of_set u c _ hcu]

/-- C16, amended, at client 0 of two accepted clients: a zero-byte read. -/
theorem C16_failed_read_removes_client_witness :
    rx_of (two_clients 2) 0 = { buf := [], status := .running } ∧
      (two_clients 2).clients_mtx = false ∧
      (recv_turn (two_clients 2) 0 (.data [])).clients = [1] :=
  ⟨by decide, by decide, by
    rw [(C16_failed_read_removes_client (two_clients 2) 0 [] (by decide) (by decide)).1
      (.data []) (Or.inl rfl)]
    decide⟩

/-! ## C17: what `robust_send` returns -/

/-- C17: for a buffer of `len` bytes (an object in memory, so `len < 2 ^ 63`) and `send` results each of which is an
error or a positive count no larger than the bytes still unsent, `robust_send`
returns `len` exactly when the results it consumed are a prefix `pre` without
fatal error (every error in it is `EINTR`, retried by the loop) whose positive
counts sum to `len` (after a short write the loop sends again with the smaller
`left`); and it returns `-1` exactly when a first error other than `EINTR` comes
before `len` bytes were accepted, and then with the bytes after that prefix
still unsent: the results after the error are not consumed. -/
theorem C17_robust_send_result (len : Nat) (rs : List send_result) (hlen : len < 2 ^ 63)
    (hok : results_ok len rs = true) :
    ((robust_send len rs).1 = some (len : Int) ↔
        ∃ pre post, rs = pre ++ post ∧ no_fatal pre = true ∧ accepted pre = len) ∧
      ((robust_send len rs).1 = some (-1) ↔
        ∃ pre e post, rs = pre ++ e :: post ∧ no_fatal pre = true ∧ accepted pre < len ∧
          e.n < 0 ∧ e.errno ≠ EINTR) ∧
      (∀ pre e post, rs = pre ++ e :: post → no_fatal pre = true → accepted pre < len →
        e.n < 0 → e.errno ≠ EINTR →
        robust_send len rs = (some (-1), len - accepted pre) ∧
          robust_send len (pre ++ [e]) = (some (-1), len - accepted pre)) := by
  have hl : len < 2 ^ 64 := by omega
  have hs := to_ssize_t_small len hlen
  have hfat : ∀ pre e post, rs = pre ++ e :: post → no_fatal pre = true → accepted pre < len →
      e.n < 0 → e.errno ≠ EINTR → robust_send len rs = (some (-1), len - accepted pre) := by
    intro pre e post e1 e2 e3 e4 e5
    subst e1
    exact robust_send_loop_fatal len pre e post len hl hok e2 e3 e4 e5
  have hcomp : ∀ pre post, rs = pre ++ post → no_fatal pre = true → accepted pre = len →
      robust_send len rs = (some (len : Int), 0) := by
    intro pre post e1 e2 e3
    subst e1
    rw [← hs]
    exact robust_send_loop_complete len pre post len hl hok e2 e3
  refine ⟨⟨?_, ?_⟩, ⟨?_, ?_⟩, ?_⟩
  · intro h
    rcases hr : robust_send len rs with ⟨v, l⟩
    rw [hr] at h
    simp only at h
    subst h
    rcases robust_send_loop_cases len rs len _ l hl hok hr with ⟨_, h2⟩ | ⟨hv, _⟩
    · exact h2
    · omega
  · rintro ⟨pre, post, e1, e2, e3⟩
    rw [hcomp pre post e1 e2 e3]
  · intro h
    rcases hr : robust_send len rs with ⟨v, l⟩
    rw [hr] at h
    simp only at h
    subst h
    rcases robust_send_loop_cases len rs len _ l hl hok hr with ⟨hv, _⟩ | ⟨_, h2⟩
    · omega
    · exact h2
  · rintro ⟨pre, e, post, e1, e2, e3, e4, e5⟩
    rw [hfat pre e post e1 e2 e3 e4 e5]
  · intro pre e post e1 e2 e3 e4 e5
    refine ⟨hfat pre e post e1 e2 e3 e4 e5, ?_⟩
    have hok2 : results_ok len (pre ++ e :: []) = true := by
      subst e1
      apply results_ok_append_left len (pre ++ e :: []) post
      simpa using hok
    exact robust_send_loop_fatal len pre e [] len hl hok2 e2 e3 e4 e5

/-- C17 for a buffer of ten bytes: a short write of four bytes, an `EINTR`, then
the six bytes left; the call returns `10`. -/
theorem C17_robust_send_result_witness :
    (10 : Nat) < 2 ^ 63 ∧ results_ok 10 [⟨4, 0⟩, ⟨-1, EINTR⟩, ⟨6, 0⟩] = true ∧
      (robust_send 10 [⟨4, 0⟩, ⟨-1, EINTR⟩, ⟨6, 0⟩]).1 = some 10 :=
  ⟨by decide, by decide,
    ((C17_robust_send_result 10 [⟨4, 0⟩, ⟨-1, EINTR⟩, ⟨6, 0⟩] (by decide) (by decide)).1).2
      ⟨[⟨4, 0⟩, ⟨-1, EINTR⟩, ⟨6, 0⟩], [], by decide, by decide, by decide⟩⟩

/-! ## C18: where the reads split the stream -/

/-- C18: let the receiver thread of client `c` be in its loop with an empty
buffer and `clients_mtx` free, and let a stream of complete frames, each at most
1040 bytes long, reach it split in two ways into non-empty reads that fit the
free space of the buffer. Both ways leave the same server state, so the same
items were passed to `enqueue_msg` in the same order and with the same contents,
and the Done counter is the same. That state is the one a single pass of the
loop over the whole stream gives, with every byte consumed. -/
theorem C18_split_independent (s : State) (c : Nat) (frames : List (Nat × List Nat))
    (chunks1 chunks2 : List (List Nat))
    (hloc : rx_of s c = { buf := [], status := .running }) (hm : s.clients_mtx = false)
    (hframes : ∀ f ∈ frames, (∀ b ∈ f.2, b ≠ NL) ∧ (frame_bytes f).length ≤ 1040)
    (h1 : chunks1.flatten = (frames.map frame_bytes).flatten)
    (h2 : chunks2.flatten = (frames.map frame_bytes).flatten)
    (hfit1 : reads_fit s c chunks1 = true) (hfit2 : reads_fit s c chunks2 = true) :
    (recv_turns s c (chunks1.map .data)).enqueued =
        (recv_turns s c (chunks2.map .data)).enqueued ∧
      (recv_turns s c (chunks1.map .data)).received_type1_count =
        (recv_turns s c (chunks2.map .data)).received_type1_count ∧
      recv_turns s c (chunks1.map .data) = recv_turns s c (chunks2.map .data) ∧
      process_buffer s c (frames.map frame_bytes).flatten =
        .ret (recv_turns s c (chunks1.map .data), (frames.map frame_bytes).flatten.length) := by
  have hc := rx_of_running_lt s c [] hloc
  obtain ⟨t, ht, hu⟩ := process_buffer_frames frames s c hm (fun f hf => (hframes f hf).1)
  have hkey : ∀ chunks : List (List Nat), chunks.flatten = (frames.map frame_bytes).flatten →
      reads_fit s c chunks = true → recv_turns s c (chunks.map .data) = t := by
    intro chunks hflat hfit
    have h := recv_turns_rx_after chunks s c [] hloc hm (by rw [rx_after_nil s c hloc]; exact hfit)
    rw [rx_after_nil s c hloc, List.nil_append, hflat] at h
    rw [h]
    simp only [rx_after, ht, List.drop_length]
    have hloc2 : rx_of t c = { buf := [], status := .running } := by
      rw [← hloc]
      simp only [rx_of, hu.rx]
    exact congrArg (fun r => { t with rx := r })
      (rx_set_self t c _ hloc2 (by rw [hu.rx]; exact hc))
  rw [hkey chunks1 h1 hfit1, hkey chunks2 h2 hfit2]
  exact ⟨rfl, rfl, rfl, ht⟩

/-- C18 for a chat frame and a Done frame: byte by byte, and in one read. -/
theorem C18_split_independent_witness :
    rx_of (two_clients 2) 0 = { buf := [], status := .running } ∧
      (two_clients 2).clients_mtx = false ∧
      (∀ f ∈ chat_then_done, (∀ b ∈ f.2, b ≠ NL) ∧ (frame_bytes f).length ≤ 1040) ∧
      [[0], [104], [105], [NL], [1], [NL]].flatten = (chat_then_done.map frame_bytes).flatten ∧
      [[0, 104, 105, NL, 1, NL]].flatten = (chat_then_done.map frame_bytes).flatten ∧
      reads_fit (two_clients 2) 0 [[0], [104], [105], [NL], [1], [NL]] = true ∧
      reads_fit (two_clients 2) 0 [[0, 104, 105, NL, 1, NL]] = true ∧
      (recv_turns (two_clients 2) 0 ([[0], [104], [105], [NL], [1], [NL]].map .data)).enqueued =
        (recv_turns (two_clients 2) 0 ([[0, 104, 105, NL, 1, NL]].map .data)).enqueued :=
  ⟨by decide, by decide, by decide, by decide, by decide, by decide, by decide,
    (C18_split_independent (two_clients 2) 0 chat_then_done
      [[0], [104], [105], [NL], [1], [NL]] [[0, 104, 105, NL, 1, NL]]
      (by decide) (by decide) (by decide) (by decide) (by decide) (by decide) (by decide)).1⟩

end Serve

namespace Lab7

/-! ## Lemmas on `broadcast_raw` -/

/-- While every `send` returns a positive count the inner loop is not left. -/
theorem send_loop_all_sent (len : Nat) (sock : Int) (rs : List Serve.send_result)
    (log : List (Int × Int)) (hlen : 0 < Serve.to_ssize_t len) (hok : all_sent rs = true) :
    send_loop len sock 0 rs log = (none, log ++ rs.map (fun r => (sock, r.n))) := by
  induction rs generalizing log with
  | nil => simp [send_loop, hlen]
  | cons r rs ih =>
    simp only [all_sent, List.all_cons, Bool.and_eq_true, decide_eq_true_eq] at hok
    have hr : ¬ r.n ≤ 0 := by omega
    simp only [send_loop, hlen, if_true, hr, if_false]
    rw [ih _ hok.2]
    simp

/-! ## C19: `broadcast_raw` with sends that succeed -/

/-- C19, the code: with a first registered client (`sock >= 0`), a message of
`len > 0` bytes and `send` calls that all succeed, `broadcast_raw` does not
return however many calls `rs` have succeeded: since `off` is never advanced,
every call is made on the first client's socket, for the whole message again,
and `clients_lock` stays held. No later client is written. -/
theorem C19_broadcast_raw_never_returns (s : State) (c0 : client_info)
    (rest : List client_info) (len : Nat) (rs : List Serve.send_result)
    (hcl : s.clients = c0 :: rest) (hsock : 0 ≤ c0.sock) (hlock : s.clients_lock = false)
    (hlen : 0 < len) (hobj : len < 2 ^ 63) (hok : all_sent rs = true) :
    broadcast_raw s len rs =
      (none, { s with clients_lock := true,
                      sent := s.sent ++ rs.map (fun r => (c0.sock, r.n)) }) := by
  have hl : 0 < Serve.to_ssize_t len := by
    unfold Serve.to_ssize_t
    omega
  have hs : c0.sock ≥ 0 := hsock
  simp only [broadcast_raw, hlock, Bool.false_eq_true, if_false, hcl, broadcast_loop, hs, if_true,
    send_loop_all_sent len c0.sock rs s.sent hl hok]

/-- C19, the code, at two registered clients and a message of two bytes: after
three successful `send` calls the function has not returned, and all three
were made on the socket of the first client. -/
theorem C19_broadcast_raw_never_returns_witness :
    (run 2 two_started).clients = ⟨4, Serve.peer_a, 0⟩ :: [⟨5, Serve.peer_b, 0⟩] ∧
      (broadcast_raw (run 2 two_started) 2 [⟨2, 0⟩, ⟨2, 0⟩, ⟨2, 0⟩]).1 = none ∧
      (broadcast_raw (run 2 two_started) 2 [⟨2, 0⟩, ⟨2, 0⟩, ⟨2, 0⟩]).2.sent =
        [(4, 2), (4, 2), (4, 2)] := by
  have h := C19_broadcast_raw_never_returns (run 2 two_started) ⟨4, Serve.peer_a, 0⟩
    [⟨5, Serve.peer_b, 0⟩] 2 [⟨2, 0⟩, ⟨2, 0⟩, ⟨2, 0⟩] (by decide) (by decide) (by decide)
    (by decide) (by decide) (by decide)
  exact ⟨by decide, by rw [h], by rw [h]; decide⟩

/-! ## C20: the Done of a client whose roster position changed -/

/-- C20, the code at the failing input: two clients are expected and connect
(sockets 4 and 5, roster positions 0 and 1) and both handlers start. The Done
of the first is counted. The first then disconnects and is removed, which
moves the second to position 0 while its handler keeps `my_index = 1`. The
first Done of the second, still registered, is acknowledged but not counted:
`finished_count` stays 1, below `expected_clients`, and its `finished` flag
stays 0. Without the disconnection the same Done is counted. -/
theorem C20_shifted_client_done_not_counted :
    (run 2 (two_started ++ [.done 0 ack_sent])).finished_count = 1 ∧
      (run 2 (two_started ++ [.done 0 ack_sent, .hangup 0])).clients =
        [⟨5, Serve.peer_b, 0⟩] ∧
      handler (run 2 (two_started ++ [.done 0 ack_sent, .hangup 0])) 1 =
        ⟨5, 1, Serve.peer_b, .reading⟩ ∧
      (run 2 (two_started ++ [.done 0 ack_sent, .hangup 0, .done 1 ack_sent])).finished_count
        = 1 ∧
      (run 2 (two_started ++ [.done 0 ack_sent, .hangup 0, .done 1 ack_sent])).expected_clients
        = 2 ∧
      (run 2 (two_started ++ [.done 0 ack_sent, .hangup 0, .done 1 ack_sent])).clients =
        [⟨5, Serve.peer_b, 0⟩] ∧
      (run 2 (two_started ++ [.done 0 ack_sent, .hangup 0, .done 1 ack_sent])).sent =
        [(4, 1), (4, 1), (5, 1), (5, 1)] ∧
      (run 2 (two_started ++ [.done 0 ack_sent, .done 1 ack_sent])).finished_count = 2 := by
  decide

end Lab7

namespace Lab7Map

/-! ## Lemmas on the groups as printed -/

theorem mem_first_keys (l : List Int) (a : Int) : a ∈ first_keys l ↔ a ∈ l := by
  induction l with
  | nil => simp [first_keys]
  | cons k ks ih =>
    simp only [first_keys, List.mem_cons, List.mem_filter, ih, decide_eq_true_eq]
    by_cases h : a = k
    · simp [h]
    · simp [h]

theorem nodup_first_keys (l : List Int) : (first_keys l).Nodup := by
  induction l with
  | nil => simp [first_keys]
  | cons k ks ih =>
    simp only [first_keys, List.nodup_cons, List.mem_filter, decide_eq_true_eq]
    exact ⟨fun h => h.2 rfl, ih.filter _⟩

theorem first_keys_snoc (pre : List Int) (x : Int) :
    first_keys (pre ++ [x]) = if x ∈ pre then first_keys pre else first_keys pre ++ [x] := by
  induction pre with
  | nil => simp [first_keys]
  | cons k ks ih =>
    rw [show (k :: ks) ++ [x] = k :: (ks ++ [x]) from rfl]
    simp only [first_keys, List.mem_cons]
    rw [ih]
    by_cases hk : x = k
    · subst hk
      by_cases hm : x ∈ ks
      · simp [hm]
      · simp [hm, List.filter_append]
    · by_cases hm : x ∈ ks
      · simp [hm, hk]
      · simp [hm, hk, List.filter_append]

theorem first_keys_length_le (l : List Int) : (first_keys l).length ≤ l.length := by
  induction l with
  | nil => simp [first_keys]
  | cons k ks ih =>
    simp only [first_keys, List.length_cons]
    have := List.length_filter_le (fun x => decide (x ≠ k)) (first_keys ks)
    omega

theorem positions_snoc (key : Int) (pre : List Int) (x : Int) (base : Int) :
    positions key (pre ++ [x]) base =
      positions key pre base ++ (if x = key then [base + pre.length + 1] else []) := by
  induction pre generalizing base with
  | nil => by_cases h : x = key <;> simp [positions, h]
  | cons d ds ih =>
    rw [show (d :: ds) ++ [x] = d :: (ds ++ [x]) from rfl]
    simp only [positions, List.length_cons]
    rw [ih]
    have e : base + 1 + (ds.length : Int) + 1 = base + ((ds.length + 1 : Nat) : Int) + 1 := by
      push_cast
      omega
    by_cases h : d = key
    · simp only [h, if_true, List.cons_append, e]
    · simp only [h, if_false, e]

theorem positions_not_mem (key : Int) (l : List Int) (base : Int) (h : key ∉ l) :
    positions key l base = [] := by
  induction l generalizing base with
  | nil => rfl
  | cons d ds ih =>
    simp only [List.mem_cons, not_or] at h
    have hd : ¬ d = key := fun e => h.1 e.symm
    simp only [positions, hd, if_false]
    exact ih _ h.2

theorem mem_positions (key : Int) (l : List Int) (base m : Int) :
    m ∈ positions key l base ↔ ∃ i : Nat, l[i]? = some key ∧ m = base + (i : Int) + 1 := by
  induction l generalizing base with
  | nil => simp [positions]
  | cons d ds ih =>
    have hstep : (∃ i : Nat, (d :: ds)[i]? = some key ∧ m = base + (i : Int) + 1) ↔
        (d = key ∧ m = base + 1) ∨ ∃ i : Nat, ds[i]? = some key ∧ m = base + 1 + (i : Int) + 1 := by
      constructor
      · rintro ⟨i, h1, h2⟩
        cases i with
        | zero =>
          simp only [List.getElem?_cons_zero, Option.some.injEq] at h1
          exact Or.inl ⟨h1, by simpa using h2⟩
        | succ j =>
          simp only [List.getElem?_cons_succ] at h1
          exact Or.inr ⟨j, h1, by push_cast at h2; omega⟩
      · rintro (⟨h1, h2⟩ | ⟨j, h1, h2⟩)
        · exact ⟨0, by simp [h1], by simpa using h2⟩
        · exact ⟨j + 1, by simpa using h1, by push_cast; omega⟩
    rw [hstep, ← ih (base + 1)]
    by_cases h : d = key
    · simp [positions, h]
    · simp [positions, h]

theorem positions_gt (key : Int) (l : List Int) (base m : Int) (h : m ∈ positions key l base) :
    base < m := by
  obtain ⟨i, -, rfl⟩ := (mem_positions key l base m).mp h
  omega

theorem positions_pairwise (key : Int) (l : List Int) (base : Int) :
    (positions key l base).Pairwise (· < ·) := by
  induction l generalizing base with
  | nil => simp [positions]
  | cons d ds ih =>
    by_cases h : d = key
    · simp only [positions, h, if_true, List.pairwise_cons]
      exact ⟨fun a ha => positions_gt key ds (base + 1) a ha, ih _⟩
    · simp only [positions, h, if_false]
      exact ih _

theorem add_line_none (key ln : Int) (G : List (Int × List Int)) (h : ∀ g ∈ G, g.1 ≠ key) :
    add_line key ln G = G ++ [(key, [ln])] := by
  induction G with
  | nil => rfl
  | cons g gs ih =>
    have hg := h g (List.mem_cons_self _ _)
    simp only [add_line, hg, if_false, List.cons_append]
    rw [ih (fun x hx => h x (List.mem_cons_of_mem _ hx))]

theorem add_line_some (key ln : Int) (G1 G2 : List (Int × List Int)) (l : List Int)
    (h : ∀ g ∈ G1, g.1 ≠ key) :
    add_line key ln (G1 ++ (key, l) :: G2) = G1 ++ (key, l ++ [ln]) :: G2 := by
  induction G1 with
  | nil => simp [add_line]
  | cons g gs ih =>
    have hg := h g (List.mem_cons_self _ _)
    rw [show (g :: gs) ++ (key, l) :: G2 = g :: (gs ++ (key, l) :: G2) from rfl]
    simp only [add_line, hg, if_false]
    rw [ih (fun x hx => h x (List.mem_cons_of_mem _ hx))]
    rfl

theorem add_line_length (key ln : Int) (G : List (Int × List Int)) :
    (add_line key ln G).length ≤ G.length + 1 := by
  induction G with
  | nil => simp [add_line]
  | cons g gs ih =>
    simp only [add_line]
    split
    · simp
    · simp only [List.length_cons]
      omega

theorem add_line_bound (key ln : Int) (G : List (Int × List Int)) (b : Nat)
    (h : ∀ g ∈ G, g.2.length ≤ b) : ∀ g ∈ add_line key ln G, g.2.length ≤ b + 1 := by
  induction G with
  | nil =>
    intro g hg
    simp only [add_line, List.mem_singleton] at hg
    subst hg
    simp
  | cons g0 gs ih =>
    intro g hg
    simp only [add_line] at hg
    split at hg
    · rcases List.mem_cons.mp hg with rfl | hg
      · have := h g0 (List.mem_cons_self _ _)
        simp only [List.length_append, List.length_singleton]
        omega
      · have := h g (List.mem_cons_of_mem _ hg)
        omega
    · rcases List.mem_cons.mp hg with rfl | hg
      · have := h g (List.mem_cons_self _ _)
        omega
      · exact ih (fun x hx => h x (List.mem_cons_of_mem _ hx)) g hg

theorem add_line_sum (key ln : Int) (G : List (Int × List Int)) :
    ((add_line key ln G).map fun g => (g.2.length : Int)).sum =
      (G.map fun g => (g.2.length : Int)).sum + 1 := by
  induction G with
  | nil => simp [add_line]
  | cons g gs ih =>
    simp only [add_line]
    split
    · simp only [List.map_cons, List.sum_cons, List.length_append, List.length_singleton]
      push_cast
      omega
    · simp only [List.map_cons, List.sum_cons, ih]
      omega

/-- The groups after the values `pre`: one for each distinct value, in order of
first occurrence, with the positions of the value. -/
theorem add_line_closed (pre : List Int) (x : Int) :
    add_line x ((pre.length : Int) + 1)
        ((first_keys pre).map fun k => (k, positions k pre 0)) =
      (first_keys (pre ++ [x])).map fun k => (k, positions k (pre ++ [x]) 0) := by
  rw [first_keys_snoc]
  by_cases hx : x ∈ pre
  · rw [if_pos hx]
    have hk : x ∈ first_keys pre := (mem_first_keys pre x).mpr hx
    obtain ⟨k1, k2, hsplit⟩ := List.append_of_mem hk
    have hnd := nodup_first_keys pre
    rw [hsplit] at hnd ⊢
    have hn1 : x ∉ k1 := fun h => by
      have := (List.nodup_append.mp hnd).2.2 h (List.mem_cons_self _ _)
      exact this
    have hn2 : x ∉ k2 := (List.nodup_cons.mp (List.nodup_append.mp hnd).2.1).1
    simp only [List.map_append, List.map_cons]
    rw [add_line_some x _ _ _ _ (by
      intro g hg
      obtain ⟨k, hk, rfl⟩ := List.mem_map.mp hg
      exact fun e => hn1 (e ▸ hk))]
    have hcongr : ∀ ks : List Int, x ∉ ks →
        ks.map (fun k => (k, positions k pre 0)) =
          ks.map (fun k => (k, positions k (pre ++ [x]) 0)) := by
      intro ks hks
      apply List.map_congr_left
      intro k hk
      have : ¬ x = k := fun e => hks (e ▸ hk)
      rw [positions_snoc, if_neg this, List.append_nil]
    rw [hcongr k1 hn1, hcongr k2 hn2, positions_snoc, if_pos rfl, Int.zero_add]
  · rw [if_neg hx]
    have hnk : ∀ g ∈ (first_keys pre).map (fun k => (k, positions k pre 0)), g.1 ≠ x := by
      intro g hg
      obtain ⟨k, hk, rfl⟩ := List.mem_map.mp hg
      exact fun e => hx ((mem_first_keys pre x).mp (e ▸ hk))
    rw [add_line_none x _ _ hnk, List.map_append, List.map_cons, List.map_nil]
    have hcongr : (first_keys pre).map (fun k => (k, positions k pre 0)) =
        (first_keys pre).map (fun k => (k, positions k (pre ++ [x]) 0)) := by
      apply List.map_congr_left
      intro k hk
      have : ¬ x = k := fun e => hx ((mem_first_keys pre x).mp (e ▸ hk))
      rw [positions_snoc, if_neg this, List.append_nil]
    rw [hcongr, positions_snoc, if_pos rfl, positions_not_mem x pre 0 hx, Int.zero_add,
      List.nil_append]

theorem first_keys_index_pairwise (l : List Int) :
    ((first_keys l).map fun k => l.indexOf k).Pairwise (· < ·) := by
  induction l with
  | nil => simp [first_keys]
  | cons k ks ih =>
    simp only [first_keys, List.map_cons, List.indexOf_cons_self, List.pairwise_cons]
    have hcongr : ((first_keys ks).filter fun x => decide (x ≠ k)).map
          (fun a => (k :: ks).indexOf a) =
        ((first_keys ks).filter fun x => decide (x ≠ k)).map (fun a => ks.indexOf a + 1) := by
      apply List.map_congr_left
      intro a ha
      have hne : a ≠ k := by simpa using (List.mem_filter.mp ha).2
      exact List.indexOf_cons_ne ks (fun e => hne e.symm)
    rw [hcongr]
    constructor
    · intro a ha
      obtain ⟨b, -, rfl⟩ := List.mem_map.mp ha
      omega
    · have hsub := (List.filter_sublist (p := fun x => decide (x ≠ k)) (first_keys ks)).map
        (fun a => ks.indexOf a)
      have := (ih.sublist hsub).map (fun n => n + 1) (fun a b hab => Nat.succ_lt_succ hab)
      simpa [List.map_map] using this

/-! ## Lemmas on `groupByKey` -/

theorem find_loop_none (key : Int) (act rest : List Output) (i0 : Nat)
    (h : ∀ o ∈ act, o.doubled_value ≠ key) :
    find_loop key ((i0 + act.length : Nat) : Int) (act ++ rest) i0 = some none := by
  induction act generalizing i0 with
  | nil =>
    cases rest <;> simp [find_loop]
  | cons o os ih =>
    have ho := h o (List.mem_cons_self _ _)
    have hlt : (i0 : Int) < ((i0 + (o :: os).length : Nat) : Int) := by
      simp only [List.length_cons]
      omega
    rw [show (o :: os) ++ rest = o :: (os ++ rest) from rfl]
    simp only [find_loop, hlt, if_true, ho, if_false]
    have e : i0 + (o :: os).length = (i0 + 1) + os.length := by
      simp only [List.length_cons]
      omega
    rw [e]
    exact ih (i0 + 1) (fun x hx => h x (List.mem_cons_of_mem _ hx))

theorem find_loop_some (key : Int) (a1 : List Output) (o : Output) (tl : List Output)
    (i0 k : Nat) (h : ∀ x ∈ a1, x.doubled_value ≠ key) (ho : o.doubled_value = key) :
    find_loop key ((i0 + a1.length + 1 + k : Nat) : Int) (a1 ++ o :: tl) i0 =
      some (some (i0 + a1.length)) := by
  induction a1 generalizing i0 with
  | nil =>
    have hlt : (i0 : Int) < ((i0 + ([] : List Output).length + 1 + k : Nat) : Int) := by
      simp only [List.length_nil]
      omega
    simp only [List.length_nil, Nat.add_zero] at hlt
    simp only [List.nil_append, find_loop, ho, List.length_nil, Nat.add_zero, hlt, if_true]
  | cons y ys ih =>
    have hy := h y (List.mem_cons_self _ _)
    have hlt : (i0 : Int) < ((i0 + (y :: ys).length + 1 + k : Nat) : Int) := by
      simp only [List.length_cons]
      omega
    rw [show (y :: ys) ++ o :: tl = y :: (ys ++ o :: tl) from rfl]
    simp only [find_loop, hlt, if_true, hy, if_false]
    have e : i0 + (y :: ys).length + 1 + k = (i0 + 1) + ys.length + 1 + k := by
      simp only [List.length_cons]
      omega
    have e2 : i0 + (y :: ys).length = (i0 + 1) + ys.length := by
      simp only [List.length_cons]
      omega
    rw [e, e2]
    exact ih (i0 + 1) (fun x hx => h x (List.mem_cons_of_mem _ hx))

theorem first_match_split (key : Int) (act : List Output) :
    (∀ o ∈ act, o.doubled_value ≠ key) ∨
      ∃ a1 o a2, act = a1 ++ o :: a2 ∧ (∀ x ∈ a1, x.doubled_value ≠ key) ∧
        o.doubled_value = key := by
  induction act with
  | nil => exact Or.inl (fun _ h => absurd h (List.not_mem_nil _))
  | cons y ys ih =>
    by_cases hy : y.doubled_value = key
    · exact Or.inr ⟨[], y, ys, rfl, fun _ h => absurd h (List.not_mem_nil _), hy⟩
    · rcases ih with h | ⟨a1, o, a2, e, h1, h2⟩
      · exact Or.inl (fun x hx => by
          rcases List.mem_cons.mp hx with rfl | hx
          · exact hy
          · exact h x hx)
      · refine Or.inr ⟨y :: a1, o, a2, by rw [e]; rfl, fun x hx => ?_, h2⟩
        rcases List.mem_cons.mp hx with rfl | hx
        · exact hy
        · exact h1 x hx

theorem take_set_succ (l : List Int) (n : Nat) (x : Int) (h : n < l.length) :
    (l.set n x).take (n + 1) = l.take n ++ [x] := by
  induction l generalizing n with
  | nil => simp at h
  | cons a t ih =>
    cases n with
    | zero => simp
    | succ m =>
      simp only [List.length_cons] at h
      simp only [List.set_cons_succ, List.take_succ_cons, List.cons_append]
      rw [ih m (by omega)]

/-- One call of `groupByKey` with room in the arrays: on the groups in use it
adds the line to the first group with the key, or a new group at the end. -/
theorem groupByKey_explicit (act rest : List Output) (x : IntermediateInput) (n : Nat)
    (hsize : (act ++ rest).length = MAX_INPUTS)
    (hrows : ∀ o ∈ act ++ rest, o.line_numbers.length = MAX_LINE_NUMS)
    (hcounts : ∀ o ∈ act, 1 ≤ o.line_count)
    (hroom1 : act.length + (n + 1) ≤ MAX_INPUTS)
    (hroom2 : ∀ o ∈ act, o.line_count + ((n + 1 : Nat) : Int) ≤ (MAX_LINE_NUMS : Int)) :
    ∃ act2 rest2, groupByKey ⟨act ++ rest, (act.length : Int)⟩ x =
        some ⟨act2 ++ rest2, (act2.length : Int)⟩ ∧
      (act2 ++ rest2).length = MAX_INPUTS ∧
      (∀ o ∈ act2 ++ rest2, o.line_numbers.length = MAX_LINE_NUMS) ∧
      (∀ o ∈ act2, 1 ≤ o.line_count) ∧
      act2.length + n ≤ MAX_INPUTS ∧
      (∀ o ∈ act2, o.line_count + (n : Int) ≤ (MAX_LINE_NUMS : Int)) ∧
      act2.map reduce = add_line x.doubled_value x.line_number (act.map reduce) := by
  have hM : MAX_INPUTS = 100 := rfl
  have hL : MAX_LINE_NUMS = 100 := rfl
  rcases first_match_split x.doubled_value act with hno | ⟨a1, o, a2, hact, h1, h2⟩
  · -- a new group
    have hfind := find_loop_none x.doubled_value act rest 0 hno
    rw [Nat.zero_add] at hfind
    have hrest : rest ≠ [] := by
      intro e
      rw [e, List.append_nil] at hsize
      omega
    obtain ⟨r0, rest1, rfl⟩ := List.exists_cons_of_ne_nil hrest
    have hr0 : r0.line_numbers.length = MAX_LINE_NUMS := hrows r0 (by simp)
    have hget : (act ++ r0 :: rest1)[act.length]? = some r0 := by
      rw [List.getElem?_append_right (Nat.le_refl _), Nat.sub_self, List.getElem?_cons_zero]
    have hset : ∀ y, (act ++ r0 :: rest1).set act.length y = (act ++ [y]) ++ rest1 := by
      intro y
      rw [List.set_append_right _ _ (Nat.le_refl _), Nat.sub_self, List.set_cons_zero,
        List.append_assoc]
      rfl
    have hnn : (0 : Int) ≤ (act.length : Int) := Int.ofNat_nonneg _
    have hpos : 0 < r0.line_numbers.length := by omega
    refine ⟨act ++ [⟨x.doubled_value, r0.line_numbers.set 0 x.line_number, 1⟩], rest1, ?_, ?_, ?_,
      ?_, ?_, ?_, ?_⟩
    · simp only [groupByKey, hfind, hnn, if_true, Int.toNat_ofNat, hget, hpos, hset,
        List.length_append, List.length_singleton, Nat.cast_add, Nat.cast_one]
    · simp only [List.length_append, List.length_cons, List.length_nil] at hsize ⊢
      omega
    · intro p hp
      simp only [List.mem_append, List.mem_singleton] at hp
      rcases hp with (hp | rfl) | hp
      · exact hrows p (by simp [hp])
      · simp only [List.length_set]
        exact hr0
      · exact hrows p (by simp [hp])
    · intro p hp
      simp only [List.mem_append, List.mem_singleton] at hp
      rcases hp with hp | rfl
      · exact hcounts p hp
      · exact Int.le_refl _
    · simp only [List.length_append, List.length_singleton]
      omega
    · intro p hp
      simp only [List.mem_append, List.mem_singleton] at hp
      rcases hp with hp | rfl
      · have := hroom2 p hp
        push_cast at this
        omega
      · simp only [hL]
        push_cast
        omega
    · rw [add_line_none _ _ _ (by
        intro g hg
        obtain ⟨p, hp, rfl⟩ := List.mem_map.mp hg
        exact hno p hp)]
      simp only [List.map_append, List.map_cons, List.map_nil, reduce]
      obtain ⟨a, t, hat⟩ := List.exists_cons_of_ne_nil (List.ne_nil_of_length_pos hpos)
      rw [hat]
      rfl
  · -- an existing group
    subst hact
    have hfind := find_loop_some x.doubled_value a1 o (a2 ++ rest) 0 a2.length h1 h2
    have hlen : ((0 + a1.length + 1 + a2.length : Nat) : Int) = ((a1 ++ o :: a2).length : Int) := by
      simp only [List.length_append, List.length_cons]
      push_cast
      omega
    rw [hlen, Nat.zero_add] at hfind
    have happ : (a1 ++ o :: a2) ++ rest = a1 ++ o :: (a2 ++ rest) := by simp
    have hget : (a1 ++ o :: (a2 ++ rest))[a1.length]? = some o := by
      rw [List.getElem?_append_right (Nat.le_refl _), Nat.sub_self, List.getElem?_cons_zero]
    have hset : ∀ y, (a1 ++ o :: (a2 ++ rest)).set a1.length y = (a1 ++ y :: a2) ++ rest := by
      intro y
      rw [List.set_append_right _ _ (Nat.le_refl _), Nat.sub_self, List.set_cons_zero]
      simp
    have ho1 : 1 ≤ o.line_count := hcounts o (by simp)
    have ho2 := hroom2 o (by simp)
    have horow : o.line_numbers.length = MAX_LINE_NUMS := hrows o (by simp)
    have hnn : 0 ≤ o.line_count := by omega
    have hlt : o.line_count.toNat < o.line_numbers.length := by
      rw [horow, hL]
      push_cast at ho2
      omega
    refine ⟨a1 ++ ⟨o.doubled_value, o.line_numbers.set o.line_count.toNat x.line_number,
      o.line_count + 1⟩ :: a2, rest, ?_, ?_, ?_, ?_, ?_, ?_, ?_⟩
    · rw [happ]
      unfold groupByKey
      dsimp only
      rw [hfind]
      simp only [hget, hnn, hlt, and_self, if_true, hset, List.length_append, List.length_cons]
    · simp only [List.length_append, List.length_cons] at hsize ⊢
      omega
    · intro p hp
      simp only [List.mem_append, List.mem_cons] at hp
      rcases hp with (hp | rfl | hp) | hp
      · exact hrows p (by simp [hp])
      · simp only [List.length_set]
        exact horow
      · exact hrows p (by simp [hp])
      · exact hrows p (by simp [hp])
    · intro p hp
      simp only [List.mem_append, List.mem_cons] at hp
      rcases hp with hp | rfl | hp
      · exact hcounts p (by simp [hp])
      · show 1 ≤ o.line_count + 1
        omega
      · exact hcounts p (by simp [hp])
    · simp only [List.length_append, List.length_cons] at hroom1 ⊢
      omega
    · intro p hp
      simp only [List.mem_append, List.mem_cons] at hp
      rcases hp with hp | rfl | hp
      · have := hroom2 p (by simp [hp])
        push_cast at this
        omega
      · show o.line_count + 1 + (n : Int) ≤ (MAX_LINE_NUMS : Int)
        push_cast at ho2
        omega
      · have := hroom2 p (by simp [hp])
        push_cast at this
        omega
    · simp only [List.map_append, List.map_cons]
      have hred : reduce o = (x.doubled_value, (reduce o).2) := by
        simp only [reduce, h2]
      rw [hred, add_line_some _ _ _ _ _ (by
        intro g hg
        obtain ⟨p, hp, rfl⟩ := List.mem_map.mp hg
        exact h1 p hp)]
      simp only [reduce, h2]
      have e : (o.line_count + 1).toNat = o.line_count.toNat + 1 := by omega
      rw [e, take_set_succ _ _ _ hlt]

/-- The loop over all entries, with room in the arrays for all of them. -/
theorem group_all_explicit (xs : List IntermediateInput) (act rest : List Output)
    (hsize : (act ++ rest).length = MAX_INPUTS)
    (hrows : ∀ o ∈ act ++ rest, o.line_numbers.length = MAX_LINE_NUMS)
    (hcounts : ∀ o ∈ act, 1 ≤ o.line_count)
    (hroom1 : act.length + xs.length ≤ MAX_INPUTS)
    (hroom2 : ∀ o ∈ act, o.line_count + (xs.length : Int) ≤ (MAX_LINE_NUMS : Int)) :
    ∃ act2 rest2, group_all ⟨act ++ rest, (act.length : Int)⟩ xs =
        some ⟨act2 ++ rest2, (act2.length : Int)⟩ ∧
      (∀ o ∈ act2, 1 ≤ o.line_count ∧ o.line_count ≤ (MAX_LINE_NUMS : Int)) ∧
      (∀ o ∈ act2, o.line_numbers.length = MAX_LINE_NUMS) ∧
      act2.map reduce =
        xs.foldl (fun G x => add_line x.doubled_value x.line_number G) (act.map reduce) := by
  induction xs generalizing act rest with
  | nil =>
    refine ⟨act, rest, rfl, fun o ho => ⟨hcounts o ho, ?_⟩,
      fun o ho => hrows o (List.mem_append_left _ ho), rfl⟩
    have := hroom2 o ho
    simpa using this
  | cons x xs ih =>
    obtain ⟨a2, r2, hstep, g1, g2, g3, g4, g5, g6⟩ :=
      groupByKey_explicit act rest x xs.length hsize hrows hcounts
        (by simpa using hroom1) (by simpa using hroom2)
    obtain ⟨a3, r3, hrun, k1, k2, k3⟩ := ih a2 r2 g1 g2 g3 g4 g5
    refine ⟨a3, r3, ?_, k1, k2, ?_⟩
    · simp only [group_all, hstep, hrun]
    · rw [k3, g6]
      rfl

/-! ## Lemmas on the loops of `main` -/

theorem to_int_of_range (x : Int) (h1 : -2 ^ 31 ≤ x) (h2 : x < 2 ^ 31) : to_int x = x := by
  unfold to_int
  omega

theorem read_inputs_length (vs : List Int) (base : Int) :
    (read_inputs vs base).length = vs.length := by
  induction vs generalizing base with
  | nil => rfl
  | cons v vs ih => simp only [read_inputs, List.length_cons, ih]

theorem fold_add_line_sum (xs : List IntermediateInput) (G : List (Int × List Int)) :
    ((xs.foldl (fun G x => add_line x.doubled_value x.line_number G) G).map
        fun g => (g.2.length : Int)).sum =
      (G.map fun g => (g.2.length : Int)).sum + xs.length := by
  induction xs generalizing G with
  | nil => simp
  | cons x xs ih =>
    simp only [List.foldl_cons, ih, add_line_sum, List.length_cons]
    push_cast
    omega

/-- Mapping and grouping the values `vs`, read after the values `pre`, takes the
groups of `pre` to the groups of `pre` followed by the doubles of `vs`. -/
theorem fold_add_line_closed (vs : List Int) (pre : List Int)
    (hov : ∀ v ∈ vs, -2 ^ 31 ≤ v * 2 ∧ v * 2 < 2 ^ 31) :
    ((read_inputs vs (pre.length : Int)).map map).foldl
        (fun G x => add_line x.doubled_value x.line_number G)
        ((first_keys pre).map fun k => (k, positions k pre 0)) =
      (first_keys (pre ++ vs.map (· * 2))).map
        fun k => (k, positions k (pre ++ vs.map (· * 2)) 0) := by
  induction vs generalizing pre with
  | nil => simp [read_inputs]
  | cons v vs ih =>
    have hv := hov v (List.mem_cons_self _ _)
    simp only [read_inputs, List.map_cons, List.foldl_cons, map, to_int_of_range _ hv.1 hv.2]
    rw [add_line_closed pre (v * 2)]
    have h := ih (pre ++ [v * 2]) (fun w hw => hov w (List.mem_cons_of_mem _ hw))
    simp only [List.length_append, List.length_singleton, Nat.cast_add, Nat.cast_one,
      List.append_assoc, List.singleton_append] at h
    exact h

/-! ## C21: the groups that `main` builds -/

/-- C21: for every input of at most 100 integers whose doubles fit `int`, and
whatever the array `outputs` holds at the start, the map and group loops of
`main` end without leaving an array, and of the groups in use (the ones `reduce`
prints): the keys are pairwise distinct; they are the doubled values of the
input, in the order of their first occurrence in it; the line numbers of each
group are in ascending order and are exactly the 1-based positions of the
inputs whose double is the group's key; each `line_count` is the number of
those line numbers, and the `line_count` values sum to the number of inputs. -/
theorem C21_groups_by_doubled_value (values : List Int) (outputs0 : List Output)
    (hlen : values.length ≤ 100)
    (hov : ∀ v ∈ values, -2 ^ 31 ≤ v * 2 ∧ v * 2 < 2 ^ 31)
    (harr : outputs0.length = MAX_INPUTS)
    (hrow : ∀ o ∈ outputs0, o.line_numbers.length = MAX_LINE_NUMS) :
    ∃ s, main_groups values outputs0 = some s ∧
      ((printed s).map Prod.fst).Nodup ∧
      (∀ k, k ∈ (printed s).map Prod.fst ↔ k ∈ values.map (· * 2)) ∧
      ((printed s).map fun g => (values.map (· * 2)).indexOf g.1).Pairwise (· < ·) ∧
      (∀ g ∈ printed s, g.2.Pairwise (· < ·) ∧
        ∀ m : Int, m ∈ g.2 ↔
          ∃ i : Nat, (values.map (· * 2))[i]? = some g.1 ∧ m = (i : Int) + 1) ∧
      line_counts s = (printed s).map (fun g => (g.2.length : Int)) ∧
      (line_counts s).sum = (values.length : Int) := by
  have hM : MAX_INPUTS = 100 := rfl
  have hL : MAX_LINE_NUMS = 100 := rfl
  have hxs : ((read_inputs values 0).map map).length = values.length := by
    rw [List.length_map, read_inputs_length]
  obtain ⟨act, rest, hrun, hcounts, hrows, hfold⟩ :=
    group_all_explicit ((read_inputs values 0).map map) [] outputs0 harr hrow
      (fun o ho => absurd ho (List.not_mem_nil _))
      (by rw [hxs, hM]; simpa using hlen)
      (fun o ho => absurd ho (List.not_mem_nil _))
  have hclosed := fold_add_line_closed values [] hov
  simp only [List.length_nil, Nat.cast_zero, first_keys, List.map_nil, List.nil_append]
    at hclosed
  simp only [List.map_nil] at hfold
  rw [hclosed] at hfold
  have hsum := fold_add_line_sum ((read_inputs values 0).map map) []
  rw [hclosed, hxs] at hsum
  simp only [List.map_nil, List.sum_nil, Int.zero_add] at hsum
  have hprinted : printed ⟨act ++ rest, (act.length : Int)⟩ =
      (first_keys (values.map (· * 2))).map
        fun k => (k, positions k (values.map (· * 2)) 0) := by
    simp only [printed, Int.toNat_ofNat, List.take_left]
    exact hfold
  have hcountsEq : line_counts ⟨act ++ rest, (act.length : Int)⟩ =
      (printed ⟨act ++ rest, (act.length : Int)⟩).map (fun g => (g.2.length : Int)) := by
    simp only [line_counts, printed, Int.toNat_ofNat, List.take_left, List.map_map]
    apply List.map_congr_left
    intro o ho
    have h1 := hcounts o ho
    have h2 := hrows o ho
    simp only [Function.comp, reduce, List.length_take, h2, hL]
    have h3 := h1.2
    simp only [hL] at h3
    push_cast at h3
    omega
  refine ⟨⟨act ++ rest, (act.length : Int)⟩, ?_, ?_, ?_, ?_, ?_, hcountsEq, ?_⟩
  · have hnot : ¬ values.length > MAX_INPUTS := by rw [hM]; omega
    simp only [main_groups, hnot, if_false]
    exact hrun
  · rw [hprinted, List.map_map]
    have : (Prod.fst ∘ fun k => (k, positions k (values.map (· * 2)) 0)) = id := rfl
    rw [this, List.map_id]
    exact nodup_first_keys _
  · intro k
    rw [hprinted, List.map_map]
    have : (Prod.fst ∘ fun k => (k, positions k (values.map (· * 2)) 0)) = id := rfl
    rw [this, List.map_id]
    exact mem_first_keys _ k
  · rw [hprinted, List.map_map]
    exact first_keys_index_pairwise _
  · intro g hg
    rw [hprinted] at hg
    obtain ⟨k, -, rfl⟩ := List.mem_map.mp hg
    refine ⟨positions_pairwise k _ 0, fun m => ?_⟩
    rw [mem_positions]
    simp only [Int.zero_add]
  · rw [hcountsEq, hprinted, hsum]

/-- C21 for the six inputs 3, 5, 3, -1, 5, 3 and an `outputs` array full of
other values: the groups are `(6, [1, 3, 6])`, `(10, [2, 5])`, `(-2, [4])`. -/
theorem C21_groups_by_doubled_value_witness :
    ([3, 5, 3, -1, 5, 3] : List Int).length ≤ 100 ∧
      (∀ v ∈ ([3, 5, 3, -1, 5, 3] : List Int), -2 ^ 31 ≤ v * 2 ∧ v * 2 < 2 ^ 31) ∧
      stack_garbage.length = MAX_INPUTS ∧
      (∀ o ∈ stack_garbage, o.line_numbers.length = MAX_LINE_NUMS) ∧
      ∃ s, main_groups [3, 5, 3, -1, 5, 3] stack_garbage = some s ∧
        ((printed s).map Prod.fst).Nodup ∧
        (line_counts s).sum = 6 ∧
        printed s = [(6, [1, 3, 6]), (10, [2, 5]), (-2, [4])] :=
  have h1 : ([3, 5, 3, -1, 5, 3] : List Int).length ≤ 100 := by decide
  have h2 : ∀ v ∈ ([3, 5, 3, -1, 5, 3] : List Int), -2 ^ 31 ≤ v * 2 ∧ v * 2 < 2 ^ 31 := by
    decide
  have h3 : stack_garbage.length = MAX_INPUTS := by
    simp [stack_garbage, MAX_INPUTS]
  have h4 : ∀ o ∈ stack_garbage, o.line_numbers.length = MAX_LINE_NUMS := by
    intro o ho
    rw [List.eq_of_mem_replicate ho]
    simp [MAX_LINE_NUMS]
  ⟨h1, h2, h3, h4,
    (C21_groups_by_doubled_value [3, 5, 3, -1, 5, 3] stack_garbage h1 h2 h3 h4).imp
      fun s h => ⟨h.1, h.2.1, h.2.2.2.2.2.2, by
        have e : main_groups [3, 5, 3, -1, 5, 3] stack_garbage = some s := h.1
        have d : (main_groups [3, 5, 3, -1, 5, 3] stack_garbage).map printed =
            some [(6, [1, 3, 6]), (10, [2, 5]), (-2, [4])] := by decide
        rw [e] at d
        exact Option.some.inj d⟩⟩

end Lab7Map

namespace Lab10

/-! ## Lemmas on the list -/

theorem node_set_other (nodes : List list_node) (a b : Nat) (x : list_node) (h : b ≠ a) :
    node (nodes.set a x) b = node nodes b := by
  simp only [node, List.getD_eq_getElem?_getD, List.getElem?_set]
  simp [Ne.symm h]

theorem node_set_this (nodes : List list_node) (a : Nat) (x : list_node) (h : a < nodes.length) :
    node (nodes.set a x) a = x := by
  simp [node, List.getD_eq_getElem?_getD, List.getElem?_set, h]

theorem list_chain_bound (nodes : List list_node) (p : node_ptr) (l : List Nat)
    (hc : chain nodes p l) : ∀ a ∈ l, a < nodes.length := by
  induction l generalizing p with
  | nil => exact fun _ h => absurd h (List.not_mem_nil _)
  | cons a l ih =>
    intro b hb
    rcases List.mem_cons.mp hb with rfl | hb
    · exact hc.2.1
    · exact ih _ hc.2.2 b hb

theorem list_chain_congr (nodes nodes2 : List list_node) (l : List Nat) (p : node_ptr)
    (hlen : nodes2.length = nodes.length)
    (hsame : ∀ a ∈ l, node nodes2 a = node nodes a)
    (hc : chain nodes p l) : chain nodes2 p l := by
  induction l generalizing p with
  | nil => exact hc
  | cons a l ih =>
    obtain ⟨h1, h2, h3⟩ := hc
    refine ⟨h1, by omega, ?_⟩
    rw [hsame a (List.mem_cons_self a l)]
    exact ih _ (fun b hb => hsame b (List.mem_cons_of_mem a hb)) h3

/-- Writing the address of a new node into the `next` field of the last node
extends the chain by that node. -/
theorem list_chain_snoc (nodes : List list_node) (l : List Nat) (t a : Nat) (p : node_ptr)
    (hc : chain nodes p (l ++ [t])) (hnd : (l ++ [t]).Nodup) (ha : a ∉ l ++ [t])
    (hlt : a < nodes.length) (hnull : (node nodes a).next = .null) :
    chain (nodes.set t { node nodes t with next := .heap a }) p (l ++ [t] ++ [a]) := by
  have hat : a ≠ t := fun e => ha (by simp [e])
  induction l generalizing p with
  | nil =>
    obtain ⟨h1, h2, _⟩ := hc
    refine ⟨h1, by simpa using h2, ?_⟩
    rw [node_set_this _ _ _ h2]
    refine ⟨rfl, by simpa using hlt, ?_⟩
    rw [node_set_other _ _ _ _ hat]
    exact hnull
  | cons b l ih =>
    obtain ⟨h1, h2, h3⟩ := hc
    have hnd2 : (l ++ [t]).Nodup := (List.nodup_cons.mp hnd).2
    have hbt : b ≠ t := by
      intro e
      have := (List.nodup_cons.mp hnd).1
      exact this (by simp [e])
    refine ⟨h1, by simpa using h2, ?_⟩
    rw [node_set_other _ _ _ _ hbt]
    exact ih _ h3 hnd2 (fun hmem => ha (List.mem_cons_of_mem b hmem))

theorem last_ptr_snoc (l : List Nat) (a : Nat) : last_ptr (l ++ [a]) = .heap a := by
  simp [last_ptr]

/-- One call of `add_to_list` on a node that is not in the list and has
`next == NULL`. -/
theorem ListRep_add (s : State) (l : List Nat) (a : Nat) (hq : ListRep s l) (ha : a ∉ l)
    (hlt : a < s.nodes.length) (hnull : (node s.nodes a).next = .null) :
    ∃ s2, add_to_list s (.heap a) = some s2 ∧ ListRep s2 (l ++ [a]) ∧
      s2.nodes.length = s.nodes.length ∧ ∀ b, b ∉ l → node s2.nodes b = node s.nodes b := by
  obtain ⟨hc, hlast, hnd, hcount⟩ := hq
  have hnd2 : (l ++ [a]).Nodup := by
    rw [List.nodup_append]
    exact ⟨hnd, List.nodup_singleton a, by
      intro b hb hb2
      rw [List.mem_singleton] at hb2
      exact ha (hb2 ▸ hb)⟩
  have hcount2 : (s.count + 1) % 2 ^ 32 = (l ++ [a]).length % 2 ^ 32 := by
    rw [hcount, List.length_append, List.length_singleton]
    omega
  rcases List.eq_nil_or_concat l with hl | ⟨l0, t, hl⟩
  · subst hl
    have hl2 : s.last = .head := hlast
    refine ⟨{ s with head := { s.head with next := .heap a }, last := .heap a,
                     count := (s.count + 1) % 2 ^ 32 },
      by simp only [add_to_list, hl2], ⟨?_, ?_, hnd2, hcount2⟩, rfl, fun _ _ => rfl⟩
    · exact ⟨rfl, hlt, hnull⟩
    · rfl
  · rw [List.concat_eq_append] at hl
    subst hl
    have hl2 : s.last = .heap t := by rw [hlast, last_ptr_snoc]
    have ht : t < s.nodes.length := list_chain_bound _ _ _ hc t (by simp)
    refine ⟨{ s with nodes := s.nodes.set t { node s.nodes t with next := .heap a },
                     last := .heap a, count := (s.count + 1) % 2 ^ 32 },
      by simp only [add_to_list, hl2, ht, if_true], ⟨?_, ?_, hnd2, hcount2⟩, ?_, ?_⟩
    · exact list_chain_snoc s.nodes l0 t a s.head.next hc hnd ha hlt hnull
    · rw [last_ptr_snoc]
    · simp
    · intro b hb
      exact node_set_other _ _ _ _ (fun e => hb (by simp [e]))

/-- A sequence of `add_to_list` calls on distinct nodes that are not in the list
and have `next == NULL`. -/
theorem ListRep_add_all (as : List Nat) (s : State) (l : List Nat) (hq : ListRep s l)
    (hnd : as.Nodup) (hfresh : ∀ a ∈ as, a ∉ l) (hlt : ∀ a ∈ as, a < s.nodes.length)
    (hnull : ∀ a ∈ as, (node s.nodes a).next = .null) :
    ∃ s2, add_all s as = some s2 ∧ ListRep s2 (l ++ as) ∧ s2.nodes.length = s.nodes.length := by
  induction as generalizing s l with
  | nil => exact ⟨s, rfl, by simpa using hq, rfl⟩
  | cons a as ih =>
    obtain ⟨hna, hnd2⟩ := List.nodup_cons.mp hnd
    obtain ⟨s1, h1, hq1, hlen1, hsame1⟩ := ListRep_add s l a hq
      (hfresh a (List.mem_cons_self _ _)) (hlt a (List.mem_cons_self _ _))
      (hnull a (List.mem_cons_self _ _))
    obtain ⟨s2, h2, hq2, hlen2⟩ := ih s1 (l ++ [a]) hq1 hnd2
      (fun b hb hmem => by
        rcases List.mem_append.mp hmem with hm | hm
        · exact hfresh b (List.mem_cons_of_mem _ hb) hm
        · rw [List.mem_singleton] at hm
          exact hna (hm ▸ hb))
      (fun b hb => by rw [hlen1]; exact hlt b (List.mem_cons_of_mem _ hb))
      (fun b hb => by
        rw [hsame1 b (hfresh b (List.mem_cons_of_mem _ hb))]
        exact hnull b (List.mem_cons_of_mem _ hb))
    refine ⟨s2, by simp only [add_all, h1, h2], ?_, hlen2.trans hlen1⟩
    simpa [List.append_assoc] using hq2

/-- The loop of `collect_all` on a chain of distinct nodes none of which was
freed, with turns enough for the chain. -/
theorem collect_loop_chain (l : List Nat) (k : Nat) (nodes : List list_node) (p : node_ptr)
    (total : Nat) (freed : List Nat) (hc : chain nodes p l) (hnd : l.Nodup)
    (hfreed : ∀ a ∈ l, a ∉ freed) (hk : l.length ≤ k) (ht : total < 2 ^ 32) :
    collect_loop k nodes p total freed = some ((total + l.length) % 2 ^ 32, freed ++ l) := by
  induction l generalizing k p total freed with
  | nil =>
    have hp : p = .null := hc
    subst hp
    have e : (total + ([] : List Nat).length) % 2 ^ 32 = total := by
      simp only [List.length_nil, Nat.add_zero]
      omega
    rw [e, List.append_nil]
    cases k <;> rfl
  | cons a l ih =>
    obtain ⟨h1, h2, h3⟩ := hc
    subst h1
    obtain ⟨hna, hnd2⟩ := List.nodup_cons.mp hnd
    obtain ⟨k1, rfl⟩ : ∃ k1, k = k1 + 1 := ⟨k - 1, by simp only [List.length_cons] at hk; omega⟩
    have hfa : a ∉ freed := hfreed a (List.mem_cons_self _ _)
    simp only [collect_loop, h2, hfa, not_false_eq_true, and_self, if_true]
    rw [ih k1 _ _ _ h3 hnd2
      (fun b hb hmem => by
        rcases List.mem_append.mp hmem with hm | hm
        · exact hfreed b (List.mem_cons_of_mem _ hb) hm
        · rw [List.mem_singleton] at hm
          exact hna (hm ▸ hb))
      (by simp only [List.length_cons] at hk; omega)
      (Nat.mod_lt _ (by decide))]
    have e : ((total + 1) % 2 ^ 32 + l.length) % 2 ^ 32 =
        (total + (a :: l).length) % 2 ^ 32 := by
      simp only [List.length_cons]
      omega
    rw [e, List.append_assoc]
    rfl

theorem nodup_length_le (l : List Nat) (n : Nat) (hnd : l.Nodup) (hlt : ∀ a ∈ l, a < n) :
    l.length ≤ n := by
  have hsub : l ⊆ List.range n := fun a ha => List.mem_range.mpr (hlt a ha)
  have := (List.subperm_of_subset hnd hsub).length_le
  simpa using this

/-- From the empty list: after the calls `add_to_list` on the nodes `as`, the
list holds them in order, `count` is their number as a `uint32_t`, and
`collect_all(head)` visits them in order and returns that number as an `int`. -/
theorem add_all_collect (nodes : List list_node) (as : List Nat) (hnd : as.Nodup)
    (hlt : ∀ a ∈ as, a < nodes.length) (hnull : ∀ a ∈ as, (node nodes a).next = .null) :
    ∃ s, add_all (init nodes) as = some s ∧ ListRep s as ∧
      collect_all s.head s.nodes = some (to_int (as.length % 2 ^ 32), as) := by
  have hinit : ListRep (init nodes) [] := ⟨rfl, rfl, List.nodup_nil, rfl⟩
  obtain ⟨s, h1, hq, hlen⟩ := ListRep_add_all as (init nodes) [] hinit hnd
    (fun _ _ h => absurd h (List.not_mem_nil _)) hlt hnull
  rw [List.nil_append] at hq
  refine ⟨s, h1, hq, ?_⟩
  have hk : as.length ≤ s.nodes.length :=
    nodup_length_le as _ hnd (list_chain_bound _ _ _ hq.linked)
  have h := collect_loop_chain as s.nodes.length s.nodes s.head.next 0 [] hq.linked hnd
    (fun _ _ h => absurd h (List.not_mem_nil _)) hk (by decide)
  simp only [collect_all, h, Nat.zero_add, List.nil_append]

theorem fresh_nodes_length (n : Nat) : (fresh_nodes n).length = n := by
  simp [fresh_nodes]

theorem fresh_nodes_next (n a : Nat) : (node (fresh_nodes n) a).next = .null := by
  simp only [node, fresh_nodes, List.getD_eq_getElem?_getD, List.getElem?_map]
  cases h : (List.range n)[a]? <;> rfl

/-- The calls `add_to_list` on `n` fresh nodes in the order of their addresses. -/
theorem add_all_fresh (n : Nat) :
    ∃ s, add_all (init (fresh_nodes n)) (List.range n) = some s ∧
      s.count = n % 2 ^ 32 ∧
      collect_all s.head s.nodes = some (to_int (n % 2 ^ 32), List.range n) := by
  obtain ⟨s, h1, hq, h2⟩ := add_all_collect (fresh_nodes n) (List.range n) (List.nodup_range n)
    (fun a ha => by rw [fresh_nodes_length]; exact List.mem_range.mp ha)
    (fun a _ => fresh_nodes_next n a)
  rw [List.length_range] at h2
  exact ⟨s, h1, by rw [hq.count, List.length_range], h2⟩

theorem collected_ok_to_int (x : Nat) (h : x < 2 ^ 32) : collected_ok (to_int x) x = true := by
  simp only [collected_ok, to_int, decide_eq_true_eq]
  omega

theorem to_int_small (x : Nat) (h : x < 2 ^ 31) : to_int x = (x : Int) := by
  unfold to_int
  omega

/-! ## C22: the list after `n` calls of `add_to_list` -/

/-- C22, counterexample: after `2 ^ 32` calls of `add_to_list` on fresh nodes,
`count`, a `uint32_t`, is `0`, and `collect_all(head)`, which counts in a
`uint32_t` too, visits all the nodes and returns `0`; after `2 ^ 31` calls
`count` is `2 ^ 31` and `collect_all(head)`, whose return type is `int`, returns
`-2147483648`. -/
theorem C22_counterexample_count_wraps :
    (∃ s, add_all (init (fresh_nodes (2 ^ 32))) (List.range (2 ^ 32)) = some s ∧
        s.count = 0 ∧
        collect_all s.head s.nodes = some (0, List.range (2 ^ 32))) ∧
      (∃ s, add_all (init (fresh_nodes (2 ^ 31))) (List.range (2 ^ 31)) = some s ∧
        s.count = 2 ^ 31 ∧
        collect_all s.head s.nodes = some (-2147483648, List.range (2 ^ 31))) := by
  constructor
  · obtain ⟨s, h1, h2, h3⟩ := add_all_fresh (2 ^ 32)
    have e1 : 2 ^ 32 % 2 ^ 32 = 0 := by decide
    have e2 : to_int 0 = 0 := by decide
    rw [e1] at h2 h3
    rw [e2] at h3
    exact ⟨s, h1, h2, h3⟩
  · obtain ⟨s, h1, h2, h3⟩ := add_all_fresh (2 ^ 31)
    have e1 : 2 ^ 31 % 2 ^ 32 = 2 ^ 31 := by decide
    have e2 : to_int (2 ^ 31) = -2147483648 := by decide
    rw [e1] at h2 h3
    rw [e2] at h3
    exact ⟨s, h1, h2, h3⟩

/-- C22, amended: starting from the empty list (`last = &head`, `count = 0`),
after the calls of `add_to_list` on any `n` distinct heap nodes with
`next == NULL`: the `next` pointers from `head` lead through exactly these
nodes in the order of the calls and end in `NULL`; `last` points at the last of
them (at `head` when `n = 0`); `count` is `n mod 2 ^ 32`; `collect_all(head)`
visits the `n` nodes in that order, frees each once and returns `n mod 2 ^ 32`
as an `int`; and the test `collected != list_handle.count` of `main` is false.
When `n < 2 ^ 31`, `count = n` and `collect_all(head)` returns `n`. -/
theorem C22_list_after_adds (nodes : List list_node) (as : List Nat) (hnd : as.Nodup)
    (hlt : ∀ a ∈ as, a < nodes.length) (hnull : ∀ a ∈ as, (node nodes a).next = .null) :
    ∃ s, add_all (init nodes) as = some s ∧
      chain s.nodes s.head.next as ∧
      s.last = last_ptr as ∧
      s.count = as.length % 2 ^ 32 ∧
      collect_all s.head s.nodes = some (to_int (as.length % 2 ^ 32), as) ∧
      collected_ok (to_int (as.length % 2 ^ 32)) s.count = true ∧
      (as.length < 2 ^ 31 →
        s.count = as.length ∧ collect_all s.head s.nodes = some ((as.length : Int), as)) := by
  obtain ⟨s, h1, hq, h2⟩ := add_all_collect nodes as hnd hlt hnull
  refine ⟨s, h1, hq.linked, hq.last, hq.count, h2, ?_, fun hn => ?_⟩
  · rw [hq.count]
    exact collected_ok_to_int _ (Nat.mod_lt _ (by decide))
  · have e : as.length % 2 ^ 32 = as.length := Nat.mod_eq_of_lt (by omega)
    rw [hq.count, h2, e, to_int_small _ hn]
    exact ⟨rfl, rfl⟩

/-- C22, amended, for three of four heap nodes, added in the order 2, 0, 3. -/
theorem C22_list_after_adds_witness :
    ([2, 0, 3] : List Nat).Nodup ∧ (∀ a ∈ [2, 0, 3], a < (fresh_nodes 4).length) ∧
      (∀ a ∈ [2, 0, 3], (node (fresh_nodes 4) a).next = .null) ∧
      ∃ s, add_all (init (fresh_nodes 4)) [2, 0, 3] = some s ∧ s.last = .heap 3 ∧
        s.count = 3 ∧ collect_all s.head s.nodes = some (3, [2, 0, 3]) :=
  ⟨by decide, by decide, by decide,
    (C22_list_after_adds (fresh_nodes 4) [2, 0, 3] (by decide) (by decide) (by decide)).imp
      fun _ h => ⟨h.1, h.2.2.1, h.2.2.2.1, h.2.2.2.2.1⟩⟩

end Lab10
